import Mathlib

/-!
# Flip computation of the ntest bitboard engine (`src/n64/flips.cpp`, `src/port.h`)

Shallow embedding.  A `u64` is a natural number below `2 ^ 64`; every operation
that can leave that range in C (`<<`, `*`, `~`) is followed by an explicit
reduction modulo `2 ^ 64`.  The global tables are fields of a `Tables` record
that is threaded through the initialisation code, and every table read of the
hot path is bounds-checked so that an out-of-range subscript shows up as `none`.
-/

namespace NTest


/-! ## `port.h` -/

/-- Truncation of an unbounded natural number to the 64 bits of a `u64`. -/
def u64 (x : Nat) : Nat := x % 18446744073709551616

/-- `inline int bit(int index, u64 bits)`. -/
def bit (index bits : Nat) : Nat := (bits >>> index) &&& 1

/-- `inline bool bitClear(int index, u64 bits)`. -/
def bitClear (index bits : Nat) : Bool := bit index bits == 0

/-- `inline bool bitSet(int index, u64 bits)`. -/
def bitSet (index bits : Nat) : Bool := bit index bits != 0

/-- `inline int square(int row, int col)`. -/
def square (row col : Nat) : Nat := (row <<< 3) + col

/-- `inline int col(int square)`. -/
def col (square : Nat) : Nat := square &&& 7

/-- `inline int row(int square)`. -/
def row (square : Nat) : Nat := square >>> 3

/-- `inline u64 mask(int square)`. -/
def mask (square : Nat) : Nat := u64 (1 <<< square)

/-- Bitwise complement `~x` of a `u64`. -/
def not64 (x : Nat) : Nat := 18446744073709551615 ^^^ u64 x

/-- Number of one bits of a `u64` (`__builtin_popcountll` behind `bitCount`). -/
def bitCount (bits : Nat) : Nat := ((List.range 64).filter fun i => bits.testBit i).length

/-! ## Constants of `magic.h` -/

/-- Modelled from the spec: `MaskA` of the absent header `magic.h`, the squares of column 0. -/
def MaskA : Nat := 0x0101010101010101

/-- Modelled from the spec: `MaskA1H8` of the absent header `magic.h`, the diagonal
through squares 0, 9, ..., 63. -/
def MaskA1H8 : Nat := 0x8040201008040201

/-- Modelled from the spec: `MaskA8H1` of the absent header `magic.h`, the diagonal
through squares 7, 14, ..., 56. -/
def MaskA8H1 : Nat := 0x0102040810204080

/-! ## The global tables -/

/-- The mutable global arrays of `flips.cpp`; `neighbors[64]`, the `[8][256]` line tables and
the `[12][256]` diagonal tables.  A field maps subscripts to the stored element. -/
structure Tables where
  counts : Nat → Nat → Int
  outsides : Nat → Nat → Nat
  insides : Nat → Nat → Nat
  rowFlips : Nat → Nat → Nat
  colFlips : Nat → Nat → Nat
  d9Flips : Nat → Nat → Nat
  d7Flips : Nat → Nat → Nat
  neighbors : Nat → Nat

/-- Static storage before `initFlips` runs: all zero. -/
def zeroTables : Tables :=
  ⟨fun _ _ => 0, fun _ _ => 0, fun _ _ => 0, fun _ _ => 0, fun _ _ => 0, fun _ _ => 0,
   fun _ _ => 0, fun _ => 0⟩

/-- The store `t[i] = v`. -/
def set1 {α : Type} (t : Nat → α) (i : Nat) (v : α) : Nat → α :=
  fun a => if a = i then v else t a

/-- The store `t[i][j] = v`. -/
def set2 {α : Type} (t : Nat → Nat → α) (i j : Nat) (v : α) : Nat → Nat → α :=
  fun a b => if a = i ∧ b = j then v else t a b

/-- The read `t[i]` of an array of `n` elements; `none` when `i` is out of bounds. -/
def rd1 {α : Type} (n : Nat) (t : Nat → α) (i : Nat) : Option α :=
  if i < n then some (t i) else none

/-- The read `t[i][j]` of an `[n][k]` array; `none` when a subscript is out of bounds. -/
def rd2 {α : Type} (n k : Nat) (t : Nat → Nat → α) (i j : Nat) : Option α :=
  if i < n ∧ j < k then some (t i j) else none

/-- The loop `for (int i = lo; i < lo + n; i++) body(i)` over a state. -/
def loopUp {σ : Type} (body : Nat → σ → σ) : Nat → Nat → σ → σ
  | 0, _, s => s
  | n + 1, i, s => loopUp body n (i + 1) (body i s)

/-! ## Table construction -/

/-- The value `initNeighbors` computes for one square. -/
def neighborsOf (sq : Nat) : Nat :=
  let m := mask sq
  let m := if col sq > 0 then m ||| (m >>> 1) else m
  let m := if col sq < 7 then m ||| u64 (m <<< 1) else m
  let m := m ||| ((m >>> 8) ||| u64 (m <<< 8))
  m &&& not64 (mask sq)

/-- Body of the loop of `initNeighbors`: the store `neighbors[sq] = m & ~mask(sq)`. -/
def setNeighbors (sq : Nat) (T : Tables) : Tables :=
  { T with neighbors := set1 T.neighbors sq (neighborsOf sq) }

/-- `static void initNeighbors()`. -/
def initNeighbors (T : Tables) : Tables :=
  loopUp setNeighbors 64 0 T

/-- First loop of `initOutside`: `for (int i=index-1; i>=0; i--)`, called with `i + 1`. -/
def outsideDown (enemyBitPattern : Nat) : Nat → Nat → Nat
  | 0, outside => outside
  | i + 1, outside =>
    if bitClear i enemyBitPattern then outside ||| (1 <<< i)
    else outsideDown enemyBitPattern i outside

/-- Second loop of `initOutside`: `for (int i=index+1; i<8; i++)`; the first argument is the
number `8 - i` of iterations left. -/
def outsideUp (enemyBitPattern : Nat) : Nat → Nat → Nat → Nat
  | 0, _, outside => outside
  | n + 1, i, outside =>
    if bitClear i enemyBitPattern then outside ||| (1 <<< i)
    else outsideUp enemyBitPattern n (i + 1) outside

/-- The value `initOutside` stores in `outsides[index][enemyBitPattern]` (a `uint8_t`). -/
def outsideOf (index enemyBitPattern : Nat) : Nat :=
  let outside := 0
  let outside := outsideDown enemyBitPattern index outside
  let outside := outsideUp enemyBitPattern (7 - index) (index + 1) outside
  outside % 256

/-- `static void initOutside(int index, int enemyBitPattern)`. -/
def initOutside (T : Tables) (index enemyBitPattern : Nat) : Tables :=
  { T with outsides := set2 T.outsides index enemyBitPattern (outsideOf index enemyBitPattern) }

/-- First loop of `initInside` on the state `(count, inside, insideLeft)`, called with
`i + 1`. -/
def insideDown (index moverBitPattern : Nat) : Nat → Int × Nat × Nat → Int × Nat × Nat
  | 0, st => st
  | i + 1, (count, inside, insideLeft) =>
    if bitSet i moverBitPattern then
      (count + ((index : Int) - (i : Int) - 1), inside ||| insideLeft, insideLeft)
    else insideDown index moverBitPattern i (count, inside, insideLeft ||| (1 <<< i))

/-- Second loop of `initInside` on the state `(count, inside, insideRight)`; the first
argument is the number `8 - i` of iterations left. -/
def insideUp (index moverBitPattern : Nat) : Nat → Nat → Int × Nat × Nat → Int × Nat × Nat
  | 0, _, st => st
  | n + 1, i, (count, inside, insideRight) =>
    if bitSet i moverBitPattern then
      (count + ((i : Int) - (index : Int) - 1), inside ||| insideRight, insideRight)
    else insideUp index moverBitPattern n (i + 1) (count, inside, insideRight ||| (1 <<< i))

/-- The pair `(count, inside)` of locals at the end of `initInside`. -/
def insideOf (index moverBitPattern : Nat) : Int × Nat :=
  let st := insideDown index moverBitPattern index (0, 0, 0)
  let st := insideUp index moverBitPattern (7 - index) (index + 1) (st.1, st.2.1, 0)
  (st.1, st.2.1)

/-- `static void initInside(int index, int moverBitPattern)`; `insides` holds `uint8_t`. -/
def initInside (T : Tables) (index moverBitPattern : Nat) : Tables :=
  { T with
    counts := set2 T.counts index moverBitPattern (insideOf index moverBitPattern).1
    insides := set2 T.insides index moverBitPattern ((insideOf index moverBitPattern).2 % 256) }

/-- `static void initRowFlips(int row, u64 insideBitPattern)`. -/
def initRowFlips (T : Tables) (row insideBitPattern : Nat) : Tables :=
  { T with rowFlips := set2 T.rowFlips row insideBitPattern (u64 (insideBitPattern <<< (row * 8))) }

/-- The value `initColFlips` stores in `colFlips[col][insideBitPattern]`. -/
def colFlipOf (col insideBitPattern : Nat) : Nat :=
  let pattern := u64 (insideBitPattern * 0x02040810204081) &&& MaskA
  u64 (pattern <<< col)

/-- `static void initColFlips(int col, u64 insideBitPattern)`. -/
def initColFlips (T : Tables) (col insideBitPattern : Nat) : Tables :=
  { T with colFlips := set2 T.colFlips col insideBitPattern (colFlipOf col insideBitPattern) }

/-- `static u64 signedLeftShift(u64 pattern, int shift)`. -/
def signedLeftShift (pattern : Nat) (shift : Int) : Nat :=
  if shift > 0 then u64 (pattern <<< shift.toNat) else pattern >>> (-shift).toNat

/-- The value `initD9Flips` stores in `d9Flips[index][insideBitPattern]`. -/
def d9FlipOf (index insideBitPattern : Nat) : Nat :=
  let pattern := u64 (insideBitPattern * MaskA) &&& MaskA1H8
  let diff : Int := (index : Int) - 5
  signedLeftShift pattern (diff * 8)

/-- `static void initD9Flips(int index, u64 insideBitPattern)`. -/
def initD9Flips (T : Tables) (index insideBitPattern : Nat) : Tables :=
  { T with d9Flips := set2 T.d9Flips index insideBitPattern (d9FlipOf index insideBitPattern) }

/-- The value `initD7Flips` stores in `d7Flips[index][insideBitPattern]`. -/
def d7FlipOf (index insideBitPattern : Nat) : Nat :=
  let pattern := u64 (insideBitPattern * MaskA) &&& MaskA8H1
  let diff : Int := (index : Int) - 5
  signedLeftShift pattern (diff * 8)

/-- `static void initD7Flips(int index, u64 insideBitPattern)`. -/
def initD7Flips (T : Tables) (index insideBitPattern : Nat) : Tables :=
  { T with d7Flips := set2 T.d7Flips index insideBitPattern (d7FlipOf index insideBitPattern) }

/-- `const int nDiagonals = 11;`. -/
def nDiagonals : Nat := 11

/-- Body of the first inner loop of `initFlips`. -/
def fillLine (bitPattern index : Nat) (T : Tables) : Tables :=
  let T := initOutside T index bitPattern
  let T := initInside T index bitPattern
  let T := initRowFlips T index bitPattern
  initColFlips T index bitPattern

/-- Body of the second inner loop of `initFlips`. -/
def fillDiag (bitPattern index : Nat) (T : Tables) : Tables :=
  let T := initD9Flips T index bitPattern
  initD7Flips T index bitPattern

/-- The store `d9Flips[nDiagonals][bitPattern] = 0`. -/
def zeroD9 (bitPattern : Nat) (T : Tables) : Tables :=
  { T with d9Flips := set2 T.d9Flips nDiagonals bitPattern 0 }

/-- The store `d7Flips[nDiagonals][bitPattern] = 0`. -/
def zeroD7 (bitPattern : Nat) (T : Tables) : Tables :=
  { T with d7Flips := set2 T.d7Flips nDiagonals bitPattern 0 }

/-- Body of the outer loop of `initFlips` for one `bitPattern`. -/
def fillPattern (bitPattern : Nat) (T : Tables) : Tables :=
  zeroD7 bitPattern (zeroD9 bitPattern
    (loopUp (fillDiag bitPattern) nDiagonals 0 (loopUp (fillLine bitPattern) 8 0 T)))

/-- The table-filling part of `initFlips`: `initNeighbors()` and the loop over the 256 bit
patterns. -/
def fillTables (T : Tables) : Tables :=
  loopUp fillPattern 256 0 (initNeighbors T)

/-- The closing loop of `initFlips`: `assert(counts[index][0] == 0)` for `index` in `0..7`;
`false` when an assertion fails. -/
def assertCounts (T : Tables) : Nat → Nat → Bool
  | 0, _ => true
  | n + 1, index => if T.counts index 0 == 0 then assertCounts T n (index + 1) else false

/-- `void initFlips()`: the tables afterwards, or `none` when an assertion fails. -/
def initFlips (T : Tables) : Option Tables :=
  let T := fillTables T
  if assertCounts T 8 0 then some T else none

/-! ## Per-square descriptors -/

/-- `struct magicFlip` (without the filler). -/
structure magicFlip where
  d9mask : Nat
  d9mult : Nat
  colmask : Nat
  colmult : Nat
  d7mask : Nat
  d7mult : Nat
  d9b : Nat
  d7b : Nat

/-- `static struct magicFlip flipArray[64]`. -/
def flipArray : List magicFlip := [
  ⟨0x8040201008040201, 0x101010101010101, 0x101010101010101, 0x102040810204080, 0, 0, 5, 11⟩,
  ⟨0x80402010080402, 0x101010101010101, 0x202020202020202, 0x81020408102040, 0, 0, 4, 11⟩,
  ⟨0x804020100804, 0x101010101010101, 0x404040404040404, 0x40810204081020, 0x10204, 0x101010101010101, 3, 0⟩,
  ⟨0x8040201008, 0x101010101010101, 0x808080808080808, 0x20408102040810, 0x1020408, 0x101010101010101, 2, 1⟩,
  ⟨0x80402010, 0x101010101010101, 0x1010101010101010, 0x10204081020408, 0x102040810, 0x101010101010101, 1, 2⟩,
  ⟨0x804020, 0x101010101010101, 0x2020202020202020, 0x8102040810204, 0x10204081020, 0x101010101010101, 0, 3⟩,
  ⟨0, 0, 0x4040404040404040, 0x4081020408102, 0x1020408102040, 0x101010101010101, 11, 4⟩,
  ⟨0, 0, 0x8080808080808080, 0x2040810204081, 0x102040810204080, 0x101010101010101, 11, 5⟩,
  ⟨0x4020100804020100, 0x101010101010101, 0x101010101010101, 0x102040810204080, 0, 0, 6, 11⟩,
  ⟨0x8040201008040201, 0x101010101010101, 0x202020202020202, 0x81020408102040, 0, 0, 5, 11⟩,
  ⟨0x80402010080402, 0x101010101010101, 0x404040404040404, 0x40810204081020, 0x1020408, 0x101010101010101, 4, 1⟩,
  ⟨0x804020100804, 0x101010101010101, 0x808080808080808, 0x20408102040810, 0x102040810, 0x101010101010101, 3, 2⟩,
  ⟨0x8040201008, 0x101010101010101, 0x1010101010101010, 0x10204081020408, 0x10204081020, 0x101010101010101, 2, 3⟩,
  ⟨0x80402010, 0x101010101010101, 0x2020202020202020, 0x8102040810204, 0x1020408102040, 0x101010101010101, 1, 4⟩,
  ⟨0, 0, 0x4040404040404040, 0x4081020408102, 0x102040810204080, 0x101010101010101, 11, 5⟩,
  ⟨0, 0, 0x8080808080808080, 0x2040810204081, 0x204081020408000, 0x101010101010101, 11, 6⟩,
  ⟨0x2010080402010000, 0x101010101010101, 0x101010101010101, 0x102040810204080, 0x10204, 0x101010101010101, 7, 0⟩,
  ⟨0x4020100804020100, 0x101010101010101, 0x202020202020202, 0x81020408102040, 0x1020408, 0x101010101010101, 6, 1⟩,
  ⟨0x8040201008040201, 0x101010101010101, 0x404040404040404, 0x40810204081020, 0x102040810, 0x101010101010101, 5, 2⟩,
  ⟨0x80402010080402, 0x101010101010101, 0x808080808080808, 0x20408102040810, 0x10204081020, 0x101010101010101, 4, 3⟩,
  ⟨0x804020100804, 0x101010101010101, 0x1010101010101010, 0x10204081020408, 0x1020408102040, 0x101010101010101, 3, 4⟩,
  ⟨0x8040201008, 0x101010101010101, 0x2020202020202020, 0x8102040810204, 0x102040810204080, 0x101010101010101, 2, 5⟩,
  ⟨0x80402010, 0x101010101010101, 0x4040404040404040, 0x4081020408102, 0x204081020408000, 0x101010101010101, 1, 6⟩,
  ⟨0x804020, 0x101010101010101, 0x8080808080808080, 0x2040810204081, 0x408102040800000, 0x101010101010101, 0, 7⟩,
  ⟨0x1008040201000000, 0x101010101010101, 0x101010101010101, 0x102040810204080, 0x1020408, 0x101010101010101, 8, 1⟩,
  ⟨0x2010080402010000, 0x101010101010101, 0x202020202020202, 0x81020408102040, 0x102040810, 0x101010101010101, 7, 2⟩,
  ⟨0x4020100804020100, 0x101010101010101, 0x404040404040404, 0x40810204081020, 0x10204081020, 0x101010101010101, 6, 3⟩,
  ⟨0x8040201008040201, 0x101010101010101, 0x808080808080808, 0x20408102040810, 0x1020408102040, 0x101010101010101, 5, 4⟩,
  ⟨0x80402010080402, 0x101010101010101, 0x1010101010101010, 0x10204081020408, 0x102040810204080, 0x101010101010101, 4, 5⟩,
  ⟨0x804020100804, 0x101010101010101, 0x2020202020202020, 0x8102040810204, 0x204081020408000, 0x101010101010101, 3, 6⟩,
  ⟨0x8040201008, 0x101010101010101, 0x4040404040404040, 0x4081020408102, 0x408102040800000, 0x101010101010101, 2, 7⟩,
  ⟨0x80402010, 0x101010101010101, 0x8080808080808080, 0x2040810204081, 0x810204080000000, 0x101010101010101, 1, 8⟩,
  ⟨0x804020100000000, 0x101010101010101, 0x101010101010101, 0x102040810204080, 0x102040810, 0x101010101010101, 9, 2⟩,
  ⟨0x1008040201000000, 0x101010101010101, 0x202020202020202, 0x81020408102040, 0x10204081020, 0x101010101010101, 8, 3⟩,
  ⟨0x2010080402010000, 0x101010101010101, 0x404040404040404, 0x40810204081020, 0x1020408102040, 0x101010101010101, 7, 4⟩,
  ⟨0x4020100804020100, 0x101010101010101, 0x808080808080808, 0x20408102040810, 0x102040810204080, 0x101010101010101, 6, 5⟩,
  ⟨0x8040201008040201, 0x101010101010101, 0x1010101010101010, 0x10204081020408, 0x204081020408000, 0x101010101010101, 5, 6⟩,
  ⟨0x80402010080402, 0x101010101010101, 0x2020202020202020, 0x8102040810204, 0x408102040800000, 0x101010101010101, 4, 7⟩,
  ⟨0x804020100804, 0x101010101010101, 0x4040404040404040, 0x4081020408102, 0x810204080000000, 0x101010101010101, 3, 8⟩,
  ⟨0x8040201008, 0x101010101010101, 0x8080808080808080, 0x2040810204081, 0x1020408000000000, 0x101010101010101, 2, 9⟩,
  ⟨0x402010000000000, 0x101010101010101, 0x101010101010101, 0x102040810204080, 0x10204081020, 0x101010101010101, 10, 3⟩,
  ⟨0x804020100000000, 0x101010101010101, 0x202020202020202, 0x81020408102040, 0x1020408102040, 0x101010101010101, 9, 4⟩,
  ⟨0x1008040201000000, 0x101010101010101, 0x404040404040404, 0x40810204081020, 0x102040810204080, 0x101010101010101, 8, 5⟩,
  ⟨0x2010080402010000, 0x101010101010101, 0x808080808080808, 0x20408102040810, 0x204081020408000, 0x101010101010101, 7, 6⟩,
  ⟨0x4020100804020100, 0x101010101010101, 0x1010101010101010, 0x10204081020408, 0x408102040800000, 0x101010101010101, 6, 7⟩,
  ⟨0x8040201008040201, 0x101010101010101, 0x2020202020202020, 0x8102040810204, 0x810204080000000, 0x101010101010101, 5, 8⟩,
  ⟨0x80402010080402, 0x101010101010101, 0x4040404040404040, 0x4081020408102, 0x1020408000000000, 0x101010101010101, 4, 9⟩,
  ⟨0x804020100804, 0x101010101010101, 0x8080808080808080, 0x2040810204081, 0x2040800000000000, 0x101010101010101, 3, 10⟩,
  ⟨0, 0, 0x101010101010101, 0x102040810204080, 0x1020408102040, 0x101010101010101, 11, 4⟩,
  ⟨0, 0, 0x202020202020202, 0x81020408102040, 0x102040810204080, 0x101010101010101, 11, 5⟩,
  ⟨0x804020100000000, 0x101010101010101, 0x404040404040404, 0x40810204081020, 0x204081020408000, 0x101010101010101, 9, 6⟩,
  ⟨0x1008040201000000, 0x101010101010101, 0x808080808080808, 0x20408102040810, 0x408102040800000, 0x101010101010101, 8, 7⟩,
  ⟨0x2010080402010000, 0x101010101010101, 0x1010101010101010, 0x10204081020408, 0x810204080000000, 0x101010101010101, 7, 8⟩,
  ⟨0x4020100804020100, 0x101010101010101, 0x2020202020202020, 0x8102040810204, 0x1020408000000000, 0x101010101010101, 6, 9⟩,
  ⟨0x8040201008040201, 0x101010101010101, 0x4040404040404040, 0x4081020408102, 0, 0, 5, 11⟩,
  ⟨0x80402010080402, 0x101010101010101, 0x8080808080808080, 0x2040810204081, 0, 0, 4, 11⟩,
  ⟨0, 0, 0x101010101010101, 0x102040810204080, 0x102040810204080, 0x101010101010101, 11, 5⟩,
  ⟨0, 0, 0x202020202020202, 0x81020408102040, 0x204081020408000, 0x101010101010101, 11, 6⟩,
  ⟨0x402010000000000, 0x101010101010101, 0x404040404040404, 0x40810204081020, 0x408102040800000, 0x101010101010101, 10, 7⟩,
  ⟨0x804020100000000, 0x101010101010101, 0x808080808080808, 0x20408102040810, 0x810204080000000, 0x101010101010101, 9, 8⟩,
  ⟨0x1008040201000000, 0x101010101010101, 0x1010101010101010, 0x10204081020408, 0x1020408000000000, 0x101010101010101, 8, 9⟩,
  ⟨0x2010080402010000, 0x101010101010101, 0x2020202020202020, 0x8102040810204, 0x2040800000000000, 0x101010101010101, 7, 10⟩,
  ⟨0x4020100804020100, 0x101010101010101, 0x4040404040404040, 0x4081020408102, 0, 0, 6, 11⟩,
  ⟨0x8040201008040201, 0x101010101010101, 0x8080808080808080, 0x2040810204081, 0, 0, 5, 11⟩]

/-- `struct dflip`. -/
structure dflip where
  d9mask : Nat
  d7mask : Nat

/-- `static struct dflip dflip_array[64]`. -/
def dflip_array : List dflip := [
  ⟨0x8040201008040201, 0⟩,
  ⟨0x80402010080402, 0⟩,
  ⟨0x804020100804, 0x10204⟩,
  ⟨0x8040201008, 0x1020408⟩,
  ⟨0x80402010, 0x102040810⟩,
  ⟨0x804020, 0x10204081020⟩,
  ⟨0, 0x1020408102040⟩,
  ⟨0, 0x102040810204080⟩,
  ⟨0x4020100804020100, 0⟩,
  ⟨0x8040201008040201, 0⟩,
  ⟨0x80402010080402, 0x1020408⟩,
  ⟨0x804020100804, 0x102040810⟩,
  ⟨0x8040201008, 0x10204081020⟩,
  ⟨0x80402010, 0x1020408102040⟩,
  ⟨0, 0x102040810204080⟩,
  ⟨0, 0x204081020408000⟩,
  ⟨0x2010080402010000, 0x10204⟩,
  ⟨0x4020100804020100, 0x1020408⟩,
  ⟨0x8040201008040201, 0x102040810⟩,
  ⟨0x80402010080402, 0x10204081020⟩,
  ⟨0x804020100804, 0x1020408102040⟩,
  ⟨0x8040201008, 0x102040810204080⟩,
  ⟨0x80402010, 0x204081020408000⟩,
  ⟨0x804020, 0x408102040800000⟩,
  ⟨0x1008040201000000, 0x1020408⟩,
  ⟨0x2010080402010000, 0x102040810⟩,
  ⟨0x4020100804020100, 0x10204081020⟩,
  ⟨0x8040201008040201, 0x1020408102040⟩,
  ⟨0x80402010080402, 0x102040810204080⟩,
  ⟨0x804020100804, 0x204081020408000⟩,
  ⟨0x8040201008, 0x408102040800000⟩,
  ⟨0x80402010, 0x810204080000000⟩,
  ⟨0x804020100000000, 0x102040810⟩,
  ⟨0x1008040201000000, 0x10204081020⟩,
  ⟨0x2010080402010000, 0x1020408102040⟩,
  ⟨0x4020100804020100, 0x102040810204080⟩,
  ⟨0x8040201008040201, 0x204081020408000⟩,
  ⟨0x80402010080402, 0x408102040800000⟩,
  ⟨0x804020100804, 0x810204080000000⟩,
  ⟨0x8040201008, 0x1020408000000000⟩,
  ⟨0x402010000000000, 0x10204081020⟩,
  ⟨0x804020100000000, 0x1020408102040⟩,
  ⟨0x1008040201000000, 0x102040810204080⟩,
  ⟨0x2010080402010000, 0x204081020408000⟩,
  ⟨0x4020100804020100, 0x408102040800000⟩,
  ⟨0x8040201008040201, 0x810204080000000⟩,
  ⟨0x80402010080402, 0x1020408000000000⟩,
  ⟨0x804020100804, 0x2040800000000000⟩,
  ⟨0, 0x1020408102040⟩,
  ⟨0, 0x102040810204080⟩,
  ⟨0x804020100000000, 0x204081020408000⟩,
  ⟨0x1008040201000000, 0x408102040800000⟩,
  ⟨0x2010080402010000, 0x810204080000000⟩,
  ⟨0x4020100804020100, 0x1020408000000000⟩,
  ⟨0x8040201008040201, 0⟩,
  ⟨0x80402010080402, 0⟩,
  ⟨0, 0x102040810204080⟩,
  ⟨0, 0x204081020408000⟩,
  ⟨0x402010000000000, 0x408102040800000⟩,
  ⟨0x804020100000000, 0x810204080000000⟩,
  ⟨0x1008040201000000, 0x1020408000000000⟩,
  ⟨0x2010080402010000, 0x2040800000000000⟩,
  ⟨0x4020100804020100, 0⟩,
  ⟨0x8040201008040201, 0⟩]

/-- `struct magicCount`. -/
structure magicCount where
  mask1 : Nat
  mask2 : Nat
  mask3 : Nat
  mult2 : Nat

/-- `static struct magicCount magicCountArray[64]`. -/
def magicCountArray : List magicCount := [
  ⟨0x8040201008040201, 0x101010101010101, 0, 0x102040810204080⟩,
  ⟨0x80402010080402, 0x202020202020202, 0, 0x81020408102040⟩,
  ⟨0x804020100804, 0x404040404040404, 0x10204, 0x40810204081020⟩,
  ⟨0x8040201008, 0x808080808080808, 0x1020408, 0x20408102040810⟩,
  ⟨0x80402010, 0x1010101010101010, 0x102040810, 0x10204081020408⟩,
  ⟨0x804020, 0x2020202020202020, 0x10204081020, 0x8102040810204⟩,
  ⟨0, 0x4040404040404040, 0x1020408102040, 0x4081020408102⟩,
  ⟨0, 0x8080808080808080, 0x102040810204080, 0x2040810204081⟩,
  ⟨0x4020100804020100, 0x101010101010101, 0, 0x102040810204080⟩,
  ⟨0x8040201008040201, 0x202020202020202, 0, 0x81020408102040⟩,
  ⟨0x80402010080402, 0x404040404040404, 0x1020408, 0x40810204081020⟩,
  ⟨0x804020100804, 0x808080808080808, 0x102040810, 0x20408102040810⟩,
  ⟨0x8040201008, 0x1010101010101010, 0x10204081020, 0x10204081020408⟩,
  ⟨0x80402010, 0x2020202020202020, 0x1020408102040, 0x8102040810204⟩,
  ⟨0, 0x4040404040404040, 0x102040810204080, 0x4081020408102⟩,
  ⟨0, 0x8080808080808080, 0x204081020408000, 0x2040810204081⟩,
  ⟨0x2010080402010000, 0x101010101010101, 0x10204, 0x102040810204080⟩,
  ⟨0x4020100804020100, 0x202020202020202, 0x1020408, 0x81020408102040⟩,
  ⟨0x8040201008040201, 0x404040404040404, 0x102040810, 0x40810204081020⟩,
  ⟨0x80402010080402, 0x808080808080808, 0x10204081020, 0x20408102040810⟩,
  ⟨0x804020100804, 0x1010101010101010, 0x1020408102040, 0x10204081020408⟩,
  ⟨0x8040201008, 0x2020202020202020, 0x102040810204080, 0x8102040810204⟩,
  ⟨0x80402010, 0x4040404040404040, 0x204081020408000, 0x4081020408102⟩,
  ⟨0x804020, 0x8080808080808080, 0x408102040800000, 0x2040810204081⟩,
  ⟨0x1008040201000000, 0x101010101010101, 0x1020408, 0x102040810204080⟩,
  ⟨0x2010080402010000, 0x202020202020202, 0x102040810, 0x81020408102040⟩,
  ⟨0x4020100804020100, 0x404040404040404, 0x10204081020, 0x40810204081020⟩,
  ⟨0x8040201008040201, 0x808080808080808, 0x1020408102040, 0x20408102040810⟩,
  ⟨0x80402010080402, 0x1010101010101010, 0x102040810204080, 0x10204081020408⟩,
  ⟨0x804020100804, 0x2020202020202020, 0x204081020408000, 0x8102040810204⟩,
  ⟨0x8040201008, 0x4040404040404040, 0x408102040800000, 0x4081020408102⟩,
  ⟨0x80402010, 0x8080808080808080, 0x810204080000000, 0x2040810204081⟩,
  ⟨0x804020100000000, 0x101010101010101, 0x102040810, 0x102040810204080⟩,
  ⟨0x1008040201000000, 0x202020202020202, 0x10204081020, 0x81020408102040⟩,
  ⟨0x2010080402010000, 0x404040404040404, 0x1020408102040, 0x40810204081020⟩,
  ⟨0x4020100804020100, 0x808080808080808, 0x102040810204080, 0x20408102040810⟩,
  ⟨0x8040201008040201, 0x1010101010101010, 0x204081020408000, 0x10204081020408⟩,
  ⟨0x80402010080402, 0x2020202020202020, 0x408102040800000, 0x8102040810204⟩,
  ⟨0x804020100804, 0x4040404040404040, 0x810204080000000, 0x4081020408102⟩,
  ⟨0x8040201008, 0x8080808080808080, 0x1020408000000000, 0x2040810204081⟩,
  ⟨0x402010000000000, 0x101010101010101, 0x10204081020, 0x102040810204080⟩,
  ⟨0x804020100000000, 0x202020202020202, 0x1020408102040, 0x81020408102040⟩,
  ⟨0x1008040201000000, 0x404040404040404, 0x102040810204080, 0x40810204081020⟩,
  ⟨0x2010080402010000, 0x808080808080808, 0x204081020408000, 0x20408102040810⟩,
  ⟨0x4020100804020100, 0x1010101010101010, 0x408102040800000, 0x10204081020408⟩,
  ⟨0x8040201008040201, 0x2020202020202020, 0x810204080000000, 0x8102040810204⟩,
  ⟨0x80402010080402, 0x4040404040404040, 0x1020408000000000, 0x4081020408102⟩,
  ⟨0x804020100804, 0x8080808080808080, 0x2040800000000000, 0x2040810204081⟩,
  ⟨0, 0x101010101010101, 0x1020408102040, 0x102040810204080⟩,
  ⟨0, 0x202020202020202, 0x102040810204080, 0x81020408102040⟩,
  ⟨0x804020100000000, 0x404040404040404, 0x204081020408000, 0x40810204081020⟩,
  ⟨0x1008040201000000, 0x808080808080808, 0x408102040800000, 0x20408102040810⟩,
  ⟨0x2010080402010000, 0x1010101010101010, 0x810204080000000, 0x10204081020408⟩,
  ⟨0x4020100804020100, 0x2020202020202020, 0x1020408000000000, 0x8102040810204⟩,
  ⟨0x8040201008040201, 0x4040404040404040, 0, 0x4081020408102⟩,
  ⟨0x80402010080402, 0x8080808080808080, 0, 0x2040810204081⟩,
  ⟨0, 0x101010101010101, 0x102040810204080, 0x102040810204080⟩,
  ⟨0, 0x202020202020202, 0x204081020408000, 0x81020408102040⟩,
  ⟨0x402010000000000, 0x404040404040404, 0x408102040800000, 0x40810204081020⟩,
  ⟨0x804020100000000, 0x808080808080808, 0x810204080000000, 0x20408102040810⟩,
  ⟨0x1008040201000000, 0x1010101010101010, 0x1020408000000000, 0x10204081020408⟩,
  ⟨0x2010080402010000, 0x2020202020202020, 0x2040800000000000, 0x8102040810204⟩,
  ⟨0x4020100804020100, 0x4040404040404040, 0, 0x4081020408102⟩,
  ⟨0x8040201008040201, 0x8080808080808080, 0, 0x2040810204081⟩]

/-! ## The hot path -/

/-- `inline int flipIndex(int moveLoc, u64 mover, u64 enemy, u64 mask, u64 mult)`. -/
def flipIndex (T : Tables) (moveLoc mover enemy mask mult : Nat) : Option Nat := do
  let enemy256 := u64 ((enemy &&& mask) * mult) >>> 56
  let out ← rd2 8 256 T.outsides moveLoc enemy256
  let mover256 := u64 ((mover &&& mask) * mult) >>> 56
  let flipIndex ← rd2 8 256 T.insides moveLoc (mover256 &&& out)
  pure flipIndex

/-- `inline int rowFlipIndex(int row, int col, u64 mover, u64 enemy)`. -/
def rowFlipIndex (T : Tables) (row col mover enemy : Nat) : Option Nat := do
  let shift := row <<< 3
  let enemy256 := (enemy >>> shift) &&& 0xFF
  let out ← rd2 8 256 T.outsides col enemy256
  let flipIndex ← rd2 8 256 T.insides col ((mover >>> shift) &&& out)
  pure flipIndex

/-- `u64 flips(int sq, u64 mover, u64 enemy)`, the portable variant (`target("default")`). -/
def flips (T : Tables) (sq mover enemy : Nat) : Option Nat := do
  let nb ← rd1 64 T.neighbors sq
  if nb &&& enemy ≠ 0 then
    let m ← flipArray[sq]?
    let row := sq >>> 3
    let col := sq &&& 7
    let flip := 0
    let rowIndex ← rowFlipIndex T row col mover enemy
    let flip := flip ||| (← rd2 8 256 T.rowFlips row rowIndex)
    let d9Index ← flipIndex T col mover enemy m.d9mask m.d9mult
    let flip := flip ||| (← rd2 12 256 T.d9Flips m.d9b d9Index)
    let colIndex ← flipIndex T row mover enemy m.colmask m.colmult
    let flip := flip ||| (← rd2 8 256 T.colFlips col colIndex)
    let d7Index ← flipIndex T col mover enemy m.d7mask m.d7mult
    let flip := flip ||| (← rd2 12 256 T.d7Flips m.d7b d7Index)
    pure flip
  else
    pure 0

/-- `int lastFlipCount(int sq, u64 mover)`. -/
def lastFlipCount (T : Tables) (sq mover : Nat) : Option Int := do
  let nb ← rd1 64 T.neighbors sq
  if nb &&& not64 mover ≠ 0 then
    let m ← magicCountArray[sq]?
    let row := sq >>> 3
    let col := sq &&& 7
    let v1 ← rd2 8 256 T.counts col ((mover >>> (row * 8)) &&& 0xFF)
    let v2 ← rd2 8 256 T.counts col (u64 ((mover &&& m.mask1) * MaskA) >>> 56)
    let v3 ← rd2 8 256 T.counts row (u64 ((mover &&& m.mask2) * m.mult2) >>> 56)
    let v4 ← rd2 8 256 T.counts col (u64 ((mover &&& m.mask3) * MaskA) >>> 56)
    let v := v1 + v2 + v3 + v4
    pure v
  else
    pure 0

/-! ## Specification vocabulary -/

/-- The bitboard whose set bits are the listed squares. -/
def maskOf : List Nat → Nat
  | [] => 0
  | t :: l => (1 <<< t) ||| maskOf l

/-- Positions of an 8-bit line above `idx`, nearest first: `idx+1, ..., 7`. -/
def upPos (idx : Nat) : List Nat := List.range' (idx + 1) (7 - idx)

/-- Positions of an 8-bit line below `idx`, nearest first: `idx-1, ..., 0`. -/
def downPos : Nat → List Nat
  | 0 => []
  | i + 1 => i :: downPos i

/-- Walking the squares `l` (nearest first): the number of leading enemy squares, provided
the square right after them exists and holds a mover disk; `none` when the run of enemy
squares ends on an empty square or at the end of the line. -/
def runLen (mover enemy : Nat) : List Nat → Option Nat
  | [] => none
  | t :: l =>
    if enemy.testBit t then (runLen mover enemy l).map (· + 1)
    else if mover.testBit t then some 0 else none

/-- The squares flipped along the ray `l`: the leading enemy squares when they are closed
by a mover disk, nothing otherwise. -/
def lineFlips (mover enemy : Nat) (l : List Nat) : Nat :=
  match runLen mover enemy l with
  | some n => maskOf (l.take n)
  | none => 0

/-- Number of squares of `l` (nearest first) before the first one set in `x`; `none` when no
square of `l` is set in `x`. -/
def gap (x : Nat) : List Nat → Option Nat
  | [] => none
  | t :: l => if x.testBit t then some 0 else (gap x l).map (· + 1)

/-- Exhaustive check of one `outsides` entry: on each side, exactly the nearest position
clear in `e`; never the position `idx` itself; at most two bits. -/
def outsideChk (idx e : Nat) : Bool :=
  decide (outsideOf idx e < 256) &&
  ((upPos idx).all fun k =>
    (outsideOf idx e).testBit k == ((upPos idx).find? (fun j => !e.testBit j) == some k)) &&
  ((downPos idx).all fun k =>
    (outsideOf idx e).testBit k == ((downPos idx).find? (fun j => !e.testBit j) == some k)) &&
  !(outsideOf idx e).testBit idx &&
  decide (((List.range 8).filter fun i => (outsideOf idx e).testBit i).length ≤ 2)

/-- Exhaustive check of one `insides`/`counts` entry against `gap`. -/
def insideChk (idx x : Nat) : Bool :=
  decide ((insideOf idx x).2 < 256) &&
  decide ((insideOf idx x).1 =
    (((gap x (downPos idx)).getD 0 + (gap x (upPos idx)).getD 0 : Nat) : Int)) &&
  decide ((insideOf idx x).2 =
    maskOf ((downPos idx).take ((gap x (downPos idx)).getD 0)) |||
    maskOf ((upPos idx).take ((gap x (upPos idx)).getD 0)))

/-- The squares met when leaving `(r, c)` in direction `(dr, dc)` one step at a time, nearest
first, up to the board edge; `n` bounds the number of steps. -/
def ray (dr dc : Int) : Nat → Int → Int → List Nat
  | 0, _, _ => []
  | n + 1, r, c =>
    if r + dr < 0 ∨ 7 < r + dr ∨ c + dc < 0 ∨ 7 < c + dc then []
    else (8 * (r + dr) + (c + dc)).toNat :: ray dr dc n (r + dr) (c + dc)

/-- The ray from square `sq` in direction `(dr, dc)`. -/
def rayOf (sq : Nat) (dr dc : Int) : List Nat := ray dr dc 8 ((sq / 8 : Nat) : Int) ((sq % 8 : Nat) : Int)

/-- Brute-force reference, one direction: step from `(r, c)` in direction `(dr, dc)` one
square at a time, accumulating enemy squares in `acc`; the accumulated squares are kept when
the walk stops on a mover square and discarded when it stops on an empty square or leaves
the board.  The first argument bounds the number of steps. -/
def walk (mover enemy : Nat) (dr dc : Int) : Nat → Int → Int → Nat → Nat
  | 0, _, _, _ => 0
  | n + 1, r, c, acc =>
    if r + dr < 0 ∨ 7 < r + dr ∨ c + dc < 0 ∨ 7 < c + dc then 0
    else if mover.testBit (8 * (r + dr) + (c + dc)).toNat then acc
    else if enemy.testBit (8 * (r + dr) + (c + dc)).toNat then
      walk mover enemy dr dc n (r + dr) (c + dc) (acc ||| (1 <<< (8 * (r + dr) + (c + dc)).toNat))
    else 0

/-- One direction of the reference, started at square `s` with nothing accumulated. -/
def walkFrom (s mover enemy : Nat) (dr dc : Int) : Nat :=
  walk mover enemy dr dc 8 ((s / 8 : Nat) : Int) ((s % 8 : Nat) : Int) 0

/-- Brute-force reference for `flips`: the union of the walks in the 8 compass directions. -/
def refFlips (s mover enemy : Nat) : Nat :=
  walkFrom s mover enemy 0 (-1) ||| walkFrom s mover enemy 0 1 |||
  walkFrom s mover enemy (-1) (-1) ||| walkFrom s mover enemy 1 1 |||
  walkFrom s mover enemy (-1) 0 ||| walkFrom s mover enemy 1 0 |||
  walkFrom s mover enemy 1 (-1) ||| walkFrom s mover enemy (-1) 1

/-- What the eight rays from `sq` flip: the meaning of `flips` in terms of `lineFlips`. -/
def flipsSem (sq mover enemy : Nat) : Nat :=
  lineFlips mover enemy (rayOf sq 0 (-1)) ||| lineFlips mover enemy (rayOf sq 0 1) |||
  (lineFlips mover enemy (rayOf sq (-1) (-1)) ||| lineFlips mover enemy (rayOf sq 1 1)) |||
  (lineFlips mover enemy (rayOf sq (-1) 0) ||| lineFlips mover enemy (rayOf sq 1 0)) |||
  (lineFlips mover enemy (rayOf sq 1 (-1)) ||| lineFlips mover enemy (rayOf sq (-1) 1))

/-- The set bits of a `u64`, lowest first. -/
def bitList (x : Nat) : List Nat := (List.range 64).filter fun i => x.testBit i

/-- All bitboards contained in `maskOf l`. -/
def subMasks : List Nat → List Nat
  | [] => [0]
  | t :: l => subMasks l ++ (subMasks l).map fun M => (1 <<< t) ||| M

/-- The multiply-and-shift gather of `flipIndex`: `(x & mask) * mult >> 56`. -/
def gather (x mask mult : Nat) : Nat := u64 ((x &&& mask) * mult) >>> 56

/-- The square of `mask` that a gather puts at line position `k`: the one in row `k` for the
column gather (`byRow`), the one in column `k` for a diagonal gather. -/
def sqAt (byRow : Bool) (mask k : Nat) : Option Nat :=
  (bitList mask).find? fun t => (if byRow then t / 8 else t % 8) == k

/-- Exhaustive check of one `(mask, mult)` descriptor over all contents of the masked
squares: bit `k` of the gathered byte is the bit of the square `sqAt k`. -/
def fullChk (byRow : Bool) (mask mult : Nat) : Bool :=
  (maskOf (bitList mask) == mask) &&
  (subMasks (bitList mask)).all fun M =>
    (List.range 8).all fun k =>
      (u64 (M * mult) >>> 56).testBit k ==
        (match sqAt byRow mask k with
         | some t => M.testBit t
         | none => false)

/-- Exhaustive check that the table row `T` scatters every pair of runs of the line
positions `Pd`, `Pu` onto the corresponding squares of the rays `Rd`, `Ru`. -/
def scatterChk (T : Nat → Nat) (Pd Pu Rd Ru : List Nat) : Bool :=
  (List.range (Rd.length - 1 + 1)).all fun nD =>
    (List.range (Ru.length - 1 + 1)).all fun nU =>
      T (maskOf (Pd.take nD) ||| maskOf (Pu.take nU))
        == maskOf (Rd.take nD) ||| maskOf (Ru.take nU)

/-- Check of one direction of one square: the line positions around `idx` carry the squares
of the two rays `Rd`, `Ru` in order (or the descriptor is the empty sentinel and neither ray
has two squares), and the table row `T` scatters runs back onto the rays. -/
def lineChk (byRow : Bool) (mask idx : Nat) (T : Nat → Nat) (Rd Ru : List Nat) : Bool :=
  ((((downPos idx).map (sqAt byRow mask)
        == Rd.map some ++ List.replicate ((downPos idx).length - Rd.length) none) &&
    ((upPos idx).map (sqAt byRow mask)
        == Ru.map some ++ List.replicate ((upPos idx).length - Ru.length) none))
    || ((mask == 0) && decide (Rd.length ≤ 1) && decide (Ru.length ≤ 1))) &&
  scatterChk T (downPos idx) (upPos idx) Rd Ru

/-- The checks of `lineChk` for the two diagonals and the column of square `sq`, against
`flipArray[sq]` and the rows of `d9Flips`, `colFlips`, `d7Flips` it selects. -/
def squareChk (sq : Nat) : Bool :=
  match flipArray[sq]? with
  | none => false
  | some m =>
    decide (m.d9b < 12) && decide (m.d7b < 12) &&
    lineChk false m.d9mask (sq &&& 7)
      (fun p => if m.d9b < 11 then d9FlipOf m.d9b p else 0)
      (rayOf sq (-1) (-1)) (rayOf sq 1 1) &&
    lineChk true m.colmask (sq >>> 3) (fun p => colFlipOf (sq &&& 7) p)
      (rayOf sq (-1) 0) (rayOf sq 1 0) &&
    lineChk false m.d7mask (sq &&& 7)
      (fun p => if m.d7b < 11 then d7FlipOf m.d7b p else 0)
      (rayOf sq 1 (-1)) (rayOf sq (-1) 1)

/-- The distinct diagonal descriptors `(mask, mult)` of `flipArray`. -/
def diagDescriptors : List (Nat × Nat) :=
  (flipArray.map (fun m => (m.d9mask, m.d9mult)) ++
    flipArray.map (fun m => (m.d7mask, m.d7mult))).dedup

/-- The distinct column descriptors `(mask, mult)` of `flipArray`. -/
def colDescriptors : List (Nat × Nat) :=
  (flipArray.map (fun m => (m.colmask, m.colmult))).dedup

/-- The check of the row direction of square `sq`: the rays are the shifted line positions
and `rowFlips` shifts the runs back. -/
def rowChk (sq : Nat) : Bool :=
  (rayOf sq 0 (-1) == (downPos (sq &&& 7)).map (fun k => (sq >>> 3 <<< 3) + k)) &&
  (rayOf sq 0 1 == (upPos (sq &&& 7)).map (fun k => (sq >>> 3 <<< 3) + k)) &&
  scatterChk (fun p => u64 (p <<< ((sq >>> 3) * 8))) (downPos (sq &&& 7)) (upPos (sq &&& 7))
    (rayOf sq 0 (-1)) (rayOf sq 0 1)

/-- The first square of each of the eight rays from `sq` is in `neighbors[sq]`. -/
def neighborChk (sq : Nat) : Bool :=
  [rayOf sq 0 (-1), rayOf sq 0 1, rayOf sq (-1) (-1), rayOf sq 1 1,
   rayOf sq (-1) 0, rayOf sq 1 0, rayOf sq 1 (-1), rayOf sq (-1) 1].all fun R =>
    match R with
    | [] => true
    | t :: _ => (neighborsOf sq).testBit t

/-- The eight rays from `sq`, in the order used by `flipsSem`. -/
def rays8 (sq : Nat) : List (List Nat) :=
  [rayOf sq 0 (-1), rayOf sq 0 1, rayOf sq (-1) (-1), rayOf sq 1 1,
   rayOf sq (-1) 0, rayOf sq 1 0, rayOf sq 1 (-1), rayOf sq (-1) 1]

/-- Square `t` is next to square `s` horizontally, vertically or diagonally. -/
def adjacent (s t : Nat) : Bool :=
  decide (t < 64) && (t != s) &&
  decide (row t ≤ row s + 1) && decide (row s ≤ row t + 1) &&
  decide (col t ≤ col s + 1) && decide (col s ≤ col t + 1)

/-- Every ray from `sq` starts on a square adjacent to `sq`, stays on the board and never
comes back to `sq`. -/
def rayChk (sq : Nat) : Bool :=
  (rays8 sq).all fun R =>
    (match R with
     | [] => true
     | t :: _ => adjacent sq t) &&
    R.all (fun t => decide (t < 64) && (t != sq))

/-! ## The BMI2 variant -/

/-- Modelled from the spec: the loop of the hardware bit-extract `_pext_u64`; bit `m` of
`src` is copied to the next free low-order bit `k` of `dest` for every set bit `m` of
`mask`.  The first argument is the number `64 - m` of bit positions left. -/
def pextLoop (src mask : Nat) : Nat → Nat → Nat → Nat → Nat
  | 0, _, _, dest => dest
  | n + 1, m, k, dest =>
    if mask.testBit m then
      pextLoop src mask n (m + 1) (k + 1) (dest ||| (if src.testBit m then 1 <<< k else 0))
    else pextLoop src mask n (m + 1) k dest

/-- Modelled from the spec: the hardware parallel bit-extract `_pext_u64(src, mask)`, which
gathers the bits of `src` selected by `mask` into a dense low-order field. -/
def pext_u64 (src mask : Nat) : Nat := pextLoop src mask 64 0 0 0

/-- Modelled from the spec: the loop of the hardware bit-deposit `_pdep_u64`; the next
low-order bit `k` of `src` is copied to bit `m` of `dest` for every set bit `m` of `mask`. -/
def pdepLoop (src mask : Nat) : Nat → Nat → Nat → Nat → Nat
  | 0, _, _, dest => dest
  | n + 1, m, k, dest =>
    if mask.testBit m then
      pdepLoop src mask n (m + 1) (k + 1) (dest ||| (if src.testBit k then 1 <<< m else 0))
    else pdepLoop src mask n (m + 1) k dest

/-- Modelled from the spec: the hardware parallel bit-deposit `_pdep_u64(src, mask)`, which
scatters the dense low-order field of `src` to the positions selected by `mask`. -/
def pdep_u64 (src mask : Nat) : Nat := pdepLoop src mask 64 0 0 0

/-- `u64 flips(int sq, u64 mover, u64 enemy)`, the variant compiled for `target("bmi2")`. -/
def bmi2.flips (T : Tables) (sq mover enemy : Nat) : Option Nat := do
  let nb ← rd1 64 T.neighbors sq
  if nb &&& enemy ≠ 0 then
    let m ← dflip_array[sq]?
    let row := sq >>> 3
    let col := sq &&& 7
    let flip := 0
    let shift := row * 8
    let enemy256 := (enemy >>> shift) &&& 0xFF
    let out ← rd2 8 256 T.outsides col enemy256
    let flipIndex ← rd2 8 256 T.insides col ((mover >>> shift) &&& out)
    let flip := flip ||| u64 (flipIndex <<< shift)
    let enemy256_extr := pext_u64 enemy m.d9mask
    let mover256_extr := pext_u64 mover m.d9mask
    let pos := min row col
    let out ← rd2 8 256 T.outsides pos enemy256_extr
    let ins ← rd2 8 256 T.insides pos (mover256_extr &&& out)
    let flip := flip ||| pdep_u64 ins m.d9mask
    let colmask := u64 (0x0101010101010101 <<< col)
    let enemy256_extr := pext_u64 enemy colmask
    let mover256_extr := pext_u64 mover colmask
    let out ← rd2 8 256 T.outsides row enemy256_extr
    let ins ← rd2 8 256 T.insides row (mover256_extr &&& out)
    let flip := flip ||| pdep_u64 ins colmask
    let enemy256_extr := pext_u64 enemy m.d7mask
    let mover256_extr := pext_u64 mover m.d7mask
    let pos := min row (7 - col)
    let out ← rd2 8 256 T.outsides pos enemy256_extr
    let ins ← rd2 8 256 T.insides pos (mover256_extr &&& out)
    let flip := flip ||| pdep_u64 ins m.d7mask
    pure flip
  else
    pure 0

/-- The dense field gathered from the squares `ks` (lowest first), starting at bit `k`. -/
def denseOf (x : Nat) : List Nat → Nat → Nat
  | [], _ => 0
  | t :: ks, k => (if x.testBit t then 1 <<< k else 0) ||| denseOf x ks (k + 1)

/-- The bitboard obtained by depositing the bits of `x` from bit `k` on to the squares `ks`
(lowest first). -/
def depositOf (x : Nat) : List Nat → Nat → Nat
  | [], _ => 0
  | t :: ks, k => (if x.testBit k then 1 <<< t else 0) ||| depositOf x ks (k + 1)

/-- The square that `_pext_u64` puts at dense position `k`: the `k`-th set bit of `mask`. -/
def denseAt (mask k : Nat) : Option Nat := (bitList mask)[k]?

/-- Check of one direction of one square for the BMI2 variant: the dense positions around
`pos` carry the squares of the two rays in order, or the mask is empty and neither ray has
two squares; the mask has at most 8 bits. -/
def denseChk (mask pos : Nat) (Rd Ru : List Nat) : Bool :=
  decide ((bitList mask).length ≤ 8) && decide (mask < 2 ^ 64) && decide (pos < 8) &&
  ((((downPos pos).map (denseAt mask)
        == Rd.map some ++ List.replicate ((downPos pos).length - Rd.length) none) &&
    ((upPos pos).map (denseAt mask)
        == Ru.map some ++ List.replicate ((upPos pos).length - Ru.length) none))
    || ((mask == 0) && decide (Rd.length ≤ 1) && decide (Ru.length ≤ 1)))

/-- The checks of `denseChk` for the two diagonals and the column of square `sq` against
`dflip_array[sq]`. -/
def bmi2Chk (sq : Nat) : Bool :=
  match dflip_array[sq]? with
  | none => false
  | some m =>
    denseChk m.d9mask (min (sq >>> 3) (sq &&& 7)) (rayOf sq (-1) (-1)) (rayOf sq 1 1) &&
    denseChk (u64 (0x0101010101010101 <<< (sq &&& 7))) (sq >>> 3)
      (rayOf sq (-1) 0) (rayOf sq 1 0) &&
    denseChk m.d7mask (min (sq >>> 3) (7 - (sq &&& 7))) (rayOf sq (-1) 1) (rayOf sq 1 (-1))

/-! ## Vocabulary for the table claims -/

/-- `inline u64 mask(int row, int col)`, the two-argument overload of `mask`. -/
def maskRC (row col : Nat) : Nat := mask (square row col)

/-- The scatter of an 8-bit pattern onto column `c`: square `8*i + c` for every set bit
`i`. -/
def colScatter (c p : Nat) : Nat :=
  maskOf (((List.range 8).filter fun i => p.testBit i).map fun i => 8 * i + c)

/-- The squares `(row, col)` of the descending diagonal `row - col = d` whose column is set
in `p`. -/
def d9Squares (d : Int) (p : Nat) : List Nat :=
  (List.range 8).filterMap fun c =>
    if p.testBit c = true ∧ 0 ≤ (c : Int) + d ∧ (c : Int) + d ≤ 7 then
      some (8 * ((c : Int) + d).toNat + c) else none

/-- The squares `(row, col)` of the ascending diagonal `row + col = s` whose column is set
in `p`. -/
def d7Squares (s : Int) (p : Nat) : List Nat :=
  (List.range 8).filterMap fun c =>
    if p.testBit c = true ∧ 0 ≤ s - (c : Int) ∧ s - (c : Int) ≤ 7 then
      some (8 * (s - (c : Int)).toNat + c) else none

/-- Exhaustive check of one pattern of the diagonal tables against `d9Squares` and
`d7Squares`. -/
def diagFlipChk (p : Nat) : Bool :=
  (List.range 11).all fun k =>
    (d9FlipOf k p == maskOf (d9Squares ((k : Int) - 5) p)) &&
    (d7FlipOf k p == maskOf (d7Squares ((k : Int) + 2) p))

/-- Number of board squares on the descending diagonal (constant `row - col`) through
`sq`. -/
def d9Len (sq : Nat) : Nat :=
  ((List.range 64).filter fun t => decide ((row t : Int) - col t = (row sq : Int) - col sq)).length

/-- Number of board squares on the ascending diagonal (constant `row + col`) through
`sq`. -/
def d7Len (sq : Nat) : Nat :=
  ((List.range 64).filter fun t => decide (row t + col t = row sq + col sq)).length

/-- Exhaustive check of the column table for one pattern: unless the pattern has both end
bits 0 and 7 set, every column entry is the exact scatter. -/
def colFlipChk (p : Nat) : Bool :=
  (p.testBit 0 && p.testBit 7) ||
    (List.range 8).all fun c => colFlipOf c p == colScatter c p

/-- Check of `neighbors[sq]` against `adjacent`, bit by bit. -/
def neighborsChk (sq : Nat) : Bool :=
  decide (neighborsOf sq < 2 ^ 64) &&
  ((List.range 64).all fun t => (neighborsOf sq).testBit t == adjacent sq t) &&
  decide (bitCount (neighborsOf sq) ≤ 8)

/-- The board squares on the descending diagonal through `sq`. -/
def d9Line (sq : Nat) : List Nat :=
  (List.range 64).filter fun t => decide ((row t : Int) - col t = (row sq : Int) - col sq)

/-- The board squares on the ascending diagonal through `sq`. -/
def d7Line (sq : Nat) : List Nat :=
  (List.range 64).filter fun t => decide (row t + col t = row sq + col sq)

/-- Check of the descriptor `flipArray[sq]` against the geometry of `sq`. -/
def descChk (sq : Nat) : Bool :=
  match flipArray[sq]? with
  | none => false
  | some m =>
    (m.colmask == u64 (0x0101010101010101 <<< col sq)) &&
    (m.colmult == 0x0102040810204080 >>> col sq) &&
    ((m.d9mask == 0) || (m.d9mask == maskOf (d9Line sq))) &&
    ((m.d9mask == 0) == (m.d9mult == 0)) && ((m.d9mult == 0) == (m.d9b == 11)) &&
    ((m.d9mask == 0) ||
      ((m.d9mult == 0x0101010101010101) && ((m.d9b : Int) == (row sq : Int) - col sq + 5))) &&
    ((m.d7mask == 0) || (m.d7mask == maskOf (d7Line sq))) &&
    ((m.d7mask == 0) == (m.d7mult == 0)) && ((m.d7mult == 0) == (m.d7b == 11)) &&
    ((m.d7mask == 0) ||
      ((m.d7mult == 0x0101010101010101) && ((m.d7b : Int) == (row sq : Int) + col sq - 2)))

/-- Check of the sentinel selectors of `flipArray[sq]` against the lengths of the four
diagonal rays from `sq`. -/
def sentinelChk (sq : Nat) : Bool :=
  match flipArray[sq]? with
  | none => false
  | some m =>
    ((m.d9b == 11) ==
      (decide ((rayOf sq (-1) (-1)).length < 2) && decide ((rayOf sq 1 1).length < 2))) &&
    ((m.d7b == 11) ==
      (decide ((rayOf sq 1 (-1)).length < 2) && decide ((rayOf sq (-1) 1).length < 2)))

/-- Check that the gathers of `flipArray[sq]` place the squares of the column and of the
two diagonals of `sq` at the line positions given by the geometry. -/
def geomChk (sq : Nat) : Bool :=
  match flipArray[sq]? with
  | none => false
  | some m =>
    ((List.range 8).all fun j => sqAt true m.colmask j == some (8 * j + col sq)) &&
    ((m.d9mask == 0) || (List.range 8).all fun c =>
      sqAt false m.d9mask c ==
        (if 0 ≤ (row sq : Int) - col sq + c ∧ (row sq : Int) - col sq + c ≤ 7 then
          some (8 * ((row sq : Int) - col sq + c).toNat + c) else none)) &&
    ((m.d7mask == 0) || (List.range 8).all fun c =>
      sqAt false m.d7mask c ==
        (if 0 ≤ (row sq : Int) + col sq - c ∧ (row sq : Int) + col sq - c ≤ 7 then
          some (8 * ((row sq : Int) + col sq - c).toNat + c) else none))

/-- Check of `magicCountArray[sq]` against `flipArray[sq]`: same masks and column
multiplier, and every non-empty diagonal mask of `flipArray` is paired with `MaskA`. -/
def countChk (sq : Nat) : Bool :=
  match flipArray[sq]?, magicCountArray[sq]? with
  | some m, some k =>
    (k.mask1 == m.d9mask) && (k.mask2 == m.colmask) && (k.mask3 == m.d7mask) &&
    (k.mult2 == m.colmult) &&
    ((m.d9mask == 0) || (m.d9mult == MaskA)) && ((m.d7mask == 0) || (m.d7mult == MaskA))
  | _, _ => false

/-- The eight rays from `sq` share no square. -/
def raysNodupChk (sq : Nat) : Bool :=
  decide ((rayOf sq 0 (-1) ++ (rayOf sq 0 1 ++ (rayOf sq (-1) (-1) ++ (rayOf sq 1 1 ++
    (rayOf sq (-1) 0 ++ (rayOf sq 1 0 ++ (rayOf sq 1 (-1) ++ rayOf sq (-1) 1))))))).Nodup)

/-! ## The table-free BMI2 variant -/

/-- Wrapping subtraction of two `u64` values. -/
def subU64 (a b : Nat) : Nat := u64 (a + 18446744073709551616 - b)

/-- Conversion of a `u64` to `int64_t`: the two's complement reading. -/
def toInt64 (x : Nat) : Int :=
  if x < 9223372036854775808 then (x : Int) else (x : Int) - 18446744073709551616

/-- The descending-diagonal mask computed by `flips_bmi2_noref`:
`(main_diag >> 8 * max<int64_t>(col - row, 0)) << 8 * max<int64_t>(row - col, 0)`. -/
def norefD9Mask (row col : Nat) : Nat :=
  u64 ((0x8040201008040201 >>> (8 * max (toInt64 (subU64 col row)) 0).toNat)
    <<< (8 * max (toInt64 (subU64 row col)) 0).toNat)

/-- The ascending-diagonal mask computed by `flips_bmi2_noref`:
`(sec_diag >> 8 * max<int64_t>(7 - col - row, 0)) << 8 * max<int64_t>(row - 7 + col, 0)`. -/
def norefD7Mask (row col : Nat) : Nat :=
  u64 ((0x0102040810204080 >>> (8 * max (toInt64 (subU64 (subU64 7 col) row)) 0).toNat)
    <<< (8 * max (toInt64 (u64 (subU64 row 7 + col))) 0).toNat)

/-- `u64 flips_bmi2_noref(int sq, u64 mover, u64 enemy)`. -/
def flips_bmi2_noref (T : Tables) (sq mover enemy : Nat) : Option Nat := do
  let nb ← rd1 64 T.neighbors sq
  if nb &&& enemy ≠ 0 then
    let row := sq >>> 3
    let col := sq &&& 7
    let flip := 0
    let shift := row * 8
    let enemy256 := (enemy >>> shift) &&& 0xFF
    let out ← rd2 8 256 T.outsides col enemy256
    let flipIndex ← rd2 8 256 T.insides col ((mover >>> shift) &&& out)
    let flip := flip ||| u64 (flipIndex <<< shift)
    let mask := norefD9Mask row col
    let enemy256_extr := pext_u64 enemy mask
    let mover256_extr := pext_u64 mover mask
    let pos := min row col
    let out ← rd2 8 256 T.outsides pos enemy256_extr
    let ins ← rd2 8 256 T.insides pos (mover256_extr &&& out)
    let flip := flip ||| pdep_u64 ins mask
    let colmask := u64 (0x0101010101010101 <<< col)
    let enemy256_extr := pext_u64 enemy colmask
    let mover256_extr := pext_u64 mover colmask
    let out ← rd2 8 256 T.outsides row enemy256_extr
    let ins ← rd2 8 256 T.insides row (mover256_extr &&& out)
    let flip := flip ||| pdep_u64 ins colmask
    let mask := norefD7Mask row col
    let enemy256_extr := pext_u64 enemy mask
    let mover256_extr := pext_u64 mover mask
    let pos := min row (7 - col)
    let out ← rd2 8 256 T.outsides pos enemy256_extr
    let ins ← rd2 8 256 T.insides pos (mover256_extr &&& out)
    let flip := flip ||| pdep_u64 ins mask
    pure flip
  else
    pure 0

/-- The checks of `denseChk` for the two computed diagonal masks of square `sq`; both masks
are non-empty, so the dense positions around `pos` carry the squares of the two rays. -/
def norefChk (sq : Nat) : Bool :=
  (norefD9Mask (sq >>> 3) (sq &&& 7) != 0) && (norefD7Mask (sq >>> 3) (sq &&& 7) != 0) &&
  denseChk (norefD9Mask (sq >>> 3) (sq &&& 7)) (min (sq >>> 3) (sq &&& 7))
    (rayOf sq (-1) (-1)) (rayOf sq 1 1) &&
  denseChk (norefD7Mask (sq >>> 3) (sq &&& 7)) (min (sq >>> 3) (7 - (sq &&& 7)))
    (rayOf sq (-1) 1) (rayOf sq 1 (-1))

/-- The masks of `dflip_array[sq]` and `magicCountArray[sq]` against `flipArray[sq]`. -/
def tablesAgreeChk (sq : Nat) : Bool :=
  match flipArray[sq]?, dflip_array[sq]?, magicCountArray[sq]? with
  | some m, some d, some k =>
    (d.d9mask == m.d9mask) && (d.d7mask == m.d7mask) && (k.mask1 == m.d9mask) &&
    (k.mask2 == m.colmask) && (k.mask3 == m.d7mask) && (k.mult2 == m.colmult)
  | _, _, _ => false

/-! ## The tables after `fillTables` -/

theorem loopUp_proj {σ α : Type} (π : σ → α) (upd : Nat → α → α) (body : Nat → σ → σ)
    (h : ∀ i s, π (body i s) = upd i (π s)) :
    ∀ n lo s, π (loopUp body n lo s) = loopUp upd n lo (π s) := by
  intro n
  induction n with
  | zero => intro lo s; rfl
  | succ n ih => intro lo s; simp only [loopUp]; rw [ih, h]

theorem loopUp_keep {α : Type} : ∀ n lo (f : α), loopUp (fun _ f => f) n lo f = f := by
  intro n
  induction n with
  | zero => intro lo f; rfl
  | succ n ih => intro lo f; simp only [loopUp]; rw [ih]

theorem set2_apply {α : Type} (t : Nat → Nat → α) (i j : Nat) (v : α) (a b : Nat) :
    set2 t i j v a b = if a = i ∧ b = j then v else t a b := rfl

theorem loopUp_set2 {α : Type} (v : Nat → α) (p : Nat) :
    ∀ n lo (f : Nat → Nat → α) a b,
      loopUp (fun i f => set2 f i p (v i)) n lo f a b
        = if lo ≤ a ∧ a < lo + n ∧ b = p then v a else f a b := by
  intro n
  induction n with
  | zero => intro lo f a b; rw [if_neg (by omega)]; rfl
  | succ n ih =>
    intro lo f a b
    simp only [loopUp]
    rw [ih, set2_apply]
    by_cases h1 : lo + 1 ≤ a ∧ a < lo + 1 + n ∧ b = p
    · rw [if_pos h1, if_pos (by omega)]
    · rw [if_neg h1]
      by_cases h2 : a = lo ∧ b = p
      · rw [if_pos h2, if_pos (by omega)]; rw [h2.1]
      · rw [if_neg h2, if_neg (by omega)]

theorem loopUp_rows {α : Type} (d : Nat) (v : Nat → Nat → α) :
    ∀ n lo (f : Nat → Nat → α) a b,
      loopUp (fun p f a b => if a < d ∧ b = p then v a b else f a b) n lo f a b
        = if a < d ∧ lo ≤ b ∧ b < lo + n then v a b else f a b := by
  intro n
  induction n with
  | zero => intro lo f a b; rw [if_neg (by omega)]; rfl
  | succ n ih =>
    intro lo f a b
    simp only [loopUp]
    rw [ih]
    by_cases h1 : a < d ∧ lo + 1 ≤ b ∧ b < lo + 1 + n
    · rw [if_pos h1, if_pos (by omega)]
    · rw [if_neg h1]
      by_cases h2 : a < d ∧ b = lo
      · rw [if_pos h2, if_pos (by omega)]
      · rw [if_neg h2, if_neg (by omega)]

theorem loopUp_set1 {α : Type} (v : Nat → α) :
    ∀ n lo (f : Nat → α) a,
      loopUp (fun i f => set1 f i (v i)) n lo f a
        = if lo ≤ a ∧ a < lo + n then v a else f a := by
  intro n
  induction n with
  | zero => intro lo f a; rw [if_neg (by omega)]; rfl
  | succ n ih =>
    intro lo f a
    simp only [loopUp]
    rw [ih]
    unfold set1
    by_cases h1 : lo + 1 ≤ a ∧ a < lo + 1 + n
    · rw [if_pos h1, if_pos (by omega)]
    · rw [if_neg h1]
      by_cases h2 : a = lo
      · rw [if_pos h2, if_pos (by omega)]; rw [h2]
      · rw [if_neg h2, if_neg (by omega)]

/-- A `[8][256]` table after one `fillPattern`, given what one `fillLine` stores in it. -/
theorem fillPattern_line {α : Type} (π : Tables → Nat → Nat → α) (v : Nat → Nat → α)
    (h8 : ∀ p i T, π (fillLine p i T) = set2 (π T) i p (v i p))
    (h11 : ∀ p i T, π (fillDiag p i T) = π T)
    (h9 : ∀ p T, π (zeroD9 p T) = π T) (h7 : ∀ p T, π (zeroD7 p T) = π T)
    (p : Nat) (T : Tables) (a b : Nat) :
    π (fillPattern p T) a b = if a < 8 ∧ b = p then v a b else π T a b := by
  rw [fillPattern, h7, h9, loopUp_proj π (fun _ f => f) (fillDiag p) (h11 p), loopUp_keep,
    loopUp_proj π (fun i f => set2 f i p (v i p)) (fillLine p) (h8 p),
    loopUp_set2 (fun i => v i p)]
  by_cases h : a < 8 ∧ b = p
  · rw [if_pos h, if_pos (by omega), h.2]
  · rw [if_neg h, if_neg (by omega)]

/-- A `[12][256]` diagonal table after one `fillPattern`. -/
theorem fillPattern_diag (π : Tables → Nat → Nat → Nat) (v : Nat → Nat → Nat)
    (h8 : ∀ p i T, π (fillLine p i T) = π T)
    (h11 : ∀ p i T, π (fillDiag p i T) = set2 (π T) i p (v i p))
    (hz : ∀ p T, π (zeroD7 p (zeroD9 p T)) = set2 (π T) 11 p 0)
    (p : Nat) (T : Tables) (a b : Nat) :
    π (fillPattern p T) a b
      = if a < 12 ∧ b = p then (if a < 11 then v a b else 0) else π T a b := by
  rw [fillPattern, hz, set2_apply,
    loopUp_proj π (fun i f => set2 f i p (v i p)) (fillDiag p) (h11 p),
    loopUp_set2 (fun i => v i p), loopUp_proj π (fun _ f => f) (fillLine p) (h8 p), loopUp_keep]
  unfold nDiagonals
  by_cases h : a < 12 ∧ b = p
  · rw [if_pos h]
    by_cases h2 : a < 11
    · rw [if_pos h2, if_neg (by omega), if_pos (by omega), h.2]
    · rw [if_neg h2, if_pos (by omega)]
  · rw [if_neg h, if_neg (by omega), if_neg (by omega)]

/-- A table after the 256 passes of the outer loop, given the effect of one pass. -/
theorem fillLoop_table {α : Type} (π : Tables → Nat → Nat → α) (d : Nat) (v : Nat → Nat → α)
    (h : ∀ p T a b, π (fillPattern p T) a b = if a < d ∧ b = p then v a b else π T a b)
    (T : Tables) (a b : Nat) (ha : a < d) (hb : b < 256) :
    π (loopUp fillPattern 256 0 T) a b = v a b := by
  have h' : ∀ p T, π (fillPattern p T)
      = (fun p f a b => if a < d ∧ b = p then v a b else f a b) p (π T) := by
    intro p T; funext a b; exact h p T a b
  rw [loopUp_proj π (fun p f a b => if a < d ∧ b = p then v a b else f a b) fillPattern h',
    loopUp_rows, if_pos (by omega)]

/-- Contents of every table cell that `initFlips` writes. -/
theorem fillTables_spec (T : Tables) :
    (∀ a b, a < 8 → b < 256 → (fillTables T).counts a b = (insideOf a b).1) ∧
    (∀ a b, a < 8 → b < 256 → (fillTables T).outsides a b = outsideOf a b) ∧
    (∀ a b, a < 8 → b < 256 → (fillTables T).insides a b = (insideOf a b).2 % 256) ∧
    (∀ a b, a < 8 → b < 256 → (fillTables T).rowFlips a b = u64 (b <<< (a * 8))) ∧
    (∀ a b, a < 8 → b < 256 → (fillTables T).colFlips a b = colFlipOf a b) ∧
    (∀ a b, a < 12 → b < 256 →
      (fillTables T).d9Flips a b = if a < 11 then d9FlipOf a b else 0) ∧
    (∀ a b, a < 12 → b < 256 →
      (fillTables T).d7Flips a b = if a < 11 then d7FlipOf a b else 0) ∧
    (∀ sq, sq < 64 → (fillTables T).neighbors sq = neighborsOf sq) := by
  refine ⟨?_, ?_, ?_, ?_, ?_, ?_, ?_, ?_⟩
  · intro a b ha hb
    exact fillLoop_table Tables.counts 8 (fun a b => (insideOf a b).1)
      (fillPattern_line _ _ (fun _ _ _ => rfl) (fun _ _ _ => rfl) (fun _ _ => rfl)
        (fun _ _ => rfl)) _ a b ha hb
  · intro a b ha hb
    exact fillLoop_table Tables.outsides 8 outsideOf
      (fillPattern_line _ _ (fun _ _ _ => rfl) (fun _ _ _ => rfl) (fun _ _ => rfl)
        (fun _ _ => rfl)) _ a b ha hb
  · intro a b ha hb
    exact fillLoop_table Tables.insides 8 (fun a b => (insideOf a b).2 % 256)
      (fillPattern_line _ _ (fun _ _ _ => rfl) (fun _ _ _ => rfl) (fun _ _ => rfl)
        (fun _ _ => rfl)) _ a b ha hb
  · intro a b ha hb
    exact fillLoop_table Tables.rowFlips 8 (fun a b => u64 (b <<< (a * 8)))
      (fillPattern_line _ _ (fun _ _ _ => rfl) (fun _ _ _ => rfl) (fun _ _ => rfl)
        (fun _ _ => rfl)) _ a b ha hb
  · intro a b ha hb
    exact fillLoop_table Tables.colFlips 8 colFlipOf
      (fillPattern_line _ _ (fun _ _ _ => rfl) (fun _ _ _ => rfl) (fun _ _ => rfl)
        (fun _ _ => rfl)) _ a b ha hb
  · intro a b ha hb
    exact fillLoop_table Tables.d9Flips 12 (fun a b => if a < 11 then d9FlipOf a b else 0)
      (fillPattern_diag _ d9FlipOf (fun _ _ _ => rfl) (fun _ _ _ => rfl) (fun _ _ => rfl))
      _ a b ha hb
  · intro a b ha hb
    exact fillLoop_table Tables.d7Flips 12 (fun a b => if a < 11 then d7FlipOf a b else 0)
      (fillPattern_diag _ d7FlipOf (fun _ _ _ => rfl) (fun _ _ _ => rfl) (fun _ _ => rfl))
      _ a b ha hb
  · intro sq hsq
    have hp : ∀ p T, Tables.neighbors (fillPattern p T) = (fun _ f => f) p (Tables.neighbors T) := by
      intro p T
      have h7 : ∀ T, Tables.neighbors (zeroD7 p T) = Tables.neighbors T := fun _ => rfl
      have h9 : ∀ T, Tables.neighbors (zeroD9 p T) = Tables.neighbors T := fun _ => rfl
      rw [fillPattern, h7, h9, loopUp_proj Tables.neighbors (fun _ f => f) (fillDiag p) (fun _ _ => rfl), loopUp_keep,
        loopUp_proj Tables.neighbors (fun _ f => f) (fillLine p) (fun _ _ => rfl), loopUp_keep]
    rw [fillTables, loopUp_proj Tables.neighbors (fun _ f => f) fillPattern hp, loopUp_keep, initNeighbors,
      loopUp_proj Tables.neighbors (fun i f => set1 f i (neighborsOf i)) setNeighbors
        (fun _ _ => rfl), loopUp_set1, if_pos (by omega)]

theorem assertCounts_ok (T : Tables) (h : ∀ a, a < 8 → T.counts a 0 = 0) :
    ∀ n lo, lo + n ≤ 8 → assertCounts T n lo = true := by
  intro n
  induction n with
  | zero => intro lo _; rfl
  | succ n ih =>
    intro lo hlo
    simp only [assertCounts]
    rw [h lo (by omega)]
    simpa using ih (lo + 1) (by omega)

theorem insideOf_zero : ∀ a, a < 8 → insideOf a 0 = (0, 0) := by decide

/-- `initFlips` passes its assertions and returns the filled tables. -/
theorem initFlips_eq (T : Tables) : initFlips T = some (fillTables T) := by
  unfold initFlips
  have h := assertCounts_ok (fillTables T)
    (fun a ha => by rw [(fillTables_spec T).1 a 0 ha (by omega), insideOf_zero a ha]) 8 0
      (by omega)
  simp only [h, if_true]

/-! ## One 8-square line -/

set_option maxRecDepth 100000 in
theorem outsideChk_all : ∀ idx < 8, ∀ e < 256, outsideChk idx e = true := by decide!

set_option maxRecDepth 100000 in
theorem insideChk_all : ∀ idx < 8, ∀ x < 256, insideChk idx x = true := by decide!

theorem gap_none (x : Nat) : ∀ P : List Nat, (∀ k ∈ P, x.testBit k = false) → gap x P = none := by
  intro P
  induction P with
  | nil => intro _; rfl
  | cons t P ih =>
    intro h
    have ht := h t (List.mem_cons_self t P)
    have hP := ih (fun k hk => h k (List.mem_cons_of_mem t hk))
    simp [gap, ht, hP]

/-- Masking the mover pattern with the boundary pattern leaves, on one side, exactly the
information the walk needs: `gap` of the masked pattern is `runLen` of the two patterns. -/
theorem gap_land (m e out : Nat) : ∀ P : List Nat,
    (∀ k ∈ P, out.testBit k = (P.find? (fun j => !e.testBit j) == some k)) →
    gap (m &&& out) P = runLen m e P := by
  intro P
  induction P with
  | nil => intro _; rfl
  | cons t P ih =>
    intro H
    by_cases he : e.testBit t = true
    · have hfind : (t :: P).find? (fun j => !e.testBit j) = P.find? (fun j => !e.testBit j) := by
        simp [List.find?_cons, he]
      have hP : ∀ k ∈ P, out.testBit k = (P.find? (fun j => !e.testBit j) == some k) := by
        intro k hk
        rw [H k (List.mem_cons_of_mem t hk), hfind]
      have hot : out.testBit t = false := by
        rw [H t (List.mem_cons_self t P), hfind]
        cases hf : P.find? (fun j => !e.testBit j) with
        | none => rfl
        | some u =>
          have hu := List.find?_some hf
          by_cases htu : u = t
          · subst htu; simp [he] at hu
          · simp [htu]
      simp [gap, runLen, he, hot, ih hP]
    · have he' : e.testBit t = false := by simpa using he
      have hfind : (t :: P).find? (fun j => !e.testBit j) = some t := by
        simp [List.find?_cons, he']
      have hot : out.testBit t = true := by
        rw [H t (List.mem_cons_self t P), hfind]; simp
      by_cases hm : m.testBit t = true
      · simp [gap, runLen, he', hot, hm]
      · have hm' : m.testBit t = false := by simpa using hm
        have hnone : gap (m &&& out) P = none := by
          apply gap_none
          intro k hk
          have hk' := H k (List.mem_cons_of_mem t hk)
          rw [hfind] at hk'
          by_cases htk : t = k
          · subst htk; simp [hm']
          · simp [hk', htk]
        simp [gap, runLen, he', hot, hm', hnone]

theorem lineFlips_eq_take (m e : Nat) (l : List Nat) :
    lineFlips m e l = maskOf (l.take ((runLen m e l).getD 0)) := by
  unfold lineFlips
  cases runLen m e l with
  | none => simp [maskOf]
  | some n => simp

/-- The composition `insides[idx][m & outsides[idx][e]]` is the union of the two one-sided
flip runs of the line. -/
theorem line_flip (idx m e : Nat) (hidx : idx < 8) (he : e < 256) :
    (insideOf idx (m &&& outsideOf idx e)).2 % 256
      = lineFlips m e (downPos idx) ||| lineFlips m e (upPos idx) ∧
    (insideOf idx (m &&& outsideOf idx e)).2 < 256 ∧ m &&& outsideOf idx e < 256 := by
  have ho := outsideChk_all idx hidx e he
  simp only [outsideChk, Bool.and_eq_true, decide_eq_true_eq, List.all_eq_true, beq_iff_eq]
    at ho
  obtain ⟨⟨⟨⟨hlt, hup⟩, hdown⟩, _⟩, _⟩ := ho
  have hx : m &&& outsideOf idx e < 256 := Nat.and_lt_two_pow m (n := 8) hlt
  have hi := insideChk_all idx hidx _ hx
  simp only [insideChk, Bool.and_eq_true, decide_eq_true_eq] at hi
  obtain ⟨⟨hilt, _⟩, hval⟩ := hi
  refine ⟨?_, hilt, hx⟩
  rw [Nat.mod_eq_of_lt hilt, hval, gap_land m e _ _ hdown, gap_land m e _ _ hup,
    lineFlips_eq_take, lineFlips_eq_take]

set_option maxRecDepth 1000000 in
theorem diagDescriptors_ok : ∀ e ∈ diagDescriptors, fullChk false e.1 e.2 = true := by decide!
set_option maxRecDepth 1000000 in
theorem colDescriptors_ok : ∀ e ∈ colDescriptors, fullChk true e.1 e.2 = true := by decide!
set_option maxRecDepth 1000000 in
theorem squareChk_all : ∀ sq < 64, squareChk sq = true := by decide!
set_option maxRecDepth 1000000 in
theorem rowChk_all : ∀ sq < 64, rowChk sq = true := by decide!
set_option maxRecDepth 1000000 in
theorem neighborChk_all : ∀ sq < 64, neighborChk sq = true := by decide!

/-! ## Gathering a line of the board into a byte -/

theorem land_one_shiftLeft (x t : Nat) :
    x &&& (1 <<< t) = if x.testBit t = true then 1 <<< t else 0 := by
  apply Nat.eq_of_testBit_eq
  intro i
  by_cases h : x.testBit t = true
  · rw [if_pos h, Nat.testBit_and, Nat.one_shiftLeft, Nat.testBit_two_pow]
    by_cases hti : t = i
    · subst hti; simp [h]
    · simp [hti]
  · rw [if_neg h, Nat.testBit_and, Nat.one_shiftLeft, Nat.testBit_two_pow]
    by_cases hti : t = i
    · subst hti; simp [h]
    · simp [hti]

theorem land_mem_subMasks (x : Nat) : ∀ ks : List Nat, x &&& maskOf ks ∈ subMasks ks := by
  intro ks
  induction ks with
  | nil => simp [maskOf, subMasks]
  | cons t l ih =>
    simp only [maskOf, subMasks, List.mem_append, List.mem_map]
    rw [Nat.and_or_distrib_left, land_one_shiftLeft]
    by_cases h : x.testBit t = true
    · right
      exact ⟨x &&& maskOf l, ih, by rw [if_pos h]⟩
    · left
      rw [if_neg h, Nat.zero_or]
      exact ih

theorem testBit_maskOf (i : Nat) : ∀ l : List Nat, (maskOf l).testBit i = decide (i ∈ l) := by
  intro l
  induction l with
  | nil => simp [maskOf]
  | cons t l ih =>
    simp only [maskOf, Nat.testBit_or, Nat.one_shiftLeft, Nat.testBit_two_pow, ih,
      List.mem_cons]
    by_cases h : t = i
    · subst h; simp
    · have h' : ¬ i = t := fun e => h e.symm
      simp [h, h']

theorem gather_lt (x mask mult : Nat) : gather x mask mult < 256 := by
  unfold gather u64
  rw [Nat.shiftRight_eq_div_pow]
  have h : (x &&& mask) * mult % 18446744073709551616 < 18446744073709551616 :=
    Nat.mod_lt _ (by norm_num)
  have h2 : (18446744073709551616 : Nat) = 256 * 2 ^ 56 := by norm_num
  rw [Nat.div_lt_iff_lt_mul (by positivity)]
  omega

/-- Bit `k` of a gathered byte, for a descriptor that passed `fullChk`. -/
theorem gather_bit (byRow : Bool) (mask mult : Nat) (h : fullChk byRow mask mult = true)
    (x k : Nat) (hk : k < 8) :
    (gather x mask mult).testBit k =
      (match sqAt byRow mask k with
       | some t => x.testBit t
       | none => false) := by
  simp only [fullChk, Bool.and_eq_true, beq_iff_eq, List.all_eq_true, List.mem_range] at h
  obtain ⟨hm, hall⟩ := h
  have hmem : x &&& mask ∈ subMasks (bitList mask) := by
    have h0 := land_mem_subMasks x (bitList mask)
    rwa [hm] at h0
  have hbit := hall _ hmem k hk
  unfold gather
  rw [hbit]
  cases hs : sqAt byRow mask k with
  | none => rfl
  | some t =>
    have ht : t ∈ bitList mask := List.mem_of_find?_eq_some hs
    have ht2 : mask.testBit t = true := by
      simp only [bitList, List.mem_filter] at ht
      exact ht.2
    simp [Nat.testBit_and, ht2]

/-- List form of `gather_bit` along line positions `P` that carry the squares `R`. -/
theorem gather_view (byRow : Bool) (mask mult : Nat) (h : fullChk byRow mask mult = true)
    (P R : List Nat) (n : Nat) (hP : ∀ k ∈ P, k < 8)
    (hv : P.map (sqAt byRow mask) = R.map some ++ List.replicate n none) (x : Nat) :
    P.map (fun k => (gather x mask mult).testBit k)
      = R.map (fun t => x.testBit t) ++ List.replicate n false := by
  have e1 : P.map (fun k => (gather x mask mult).testBit k)
      = (P.map (sqAt byRow mask)).map (fun o => match o with
          | some t => x.testBit t
          | none => false) := by
    rw [List.map_map]
    apply List.map_congr_left
    intro k hk
    exact gather_bit byRow mask mult h x k (hP k hk)
  rw [e1, hv]
  simp [List.map_append, List.map_map, Function.comp_def]

theorem runLen_none (gm ge : Nat) : ∀ P : List Nat,
    (∀ k ∈ P, ge.testBit k = false) → (∀ k ∈ P, gm.testBit k = false) →
    runLen gm ge P = none := by
  intro P
  cases P with
  | nil => intro _ _; rfl
  | cons p P =>
    intro h1 h2
    simp [runLen, h1 p (List.mem_cons_self p P), h2 p (List.mem_cons_self p P)]

/-- `runLen` only depends on the contents of the squares it walks: a line of positions that
carries the contents of the ray `R` followed by empty positions gives the same result. -/
theorem runLen_view (gm ge m e : Nat) : ∀ (R P : List Nat) (n : Nat),
    P.map (fun k => gm.testBit k) = R.map (fun t => m.testBit t) ++ List.replicate n false →
    P.map (fun k => ge.testBit k) = R.map (fun t => e.testBit t) ++ List.replicate n false →
    runLen gm ge P = runLen m e R := by
  intro R
  induction R with
  | nil =>
    intro P n h1 h2
    simp only [List.map_nil, List.nil_append] at h1 h2
    have hg : ∀ k ∈ P, gm.testBit k = false := by
      intro k hk
      have : gm.testBit k ∈ P.map (fun k => gm.testBit k) := List.mem_map_of_mem _ hk
      rw [h1] at this
      exact List.eq_of_mem_replicate this
    have he : ∀ k ∈ P, ge.testBit k = false := by
      intro k hk
      have : ge.testBit k ∈ P.map (fun k => ge.testBit k) := List.mem_map_of_mem _ hk
      rw [h2] at this
      exact List.eq_of_mem_replicate this
    rw [runLen_none gm ge P he hg]
    rfl
  | cons t R ih =>
    intro P n h1 h2
    cases P with
    | nil => simp at h1
    | cons p P =>
      simp only [List.map_cons, List.cons_append, List.cons.injEq] at h1 h2
      simp only [runLen, h1.1, h2.1, ih P n h1.2 h2.2]

theorem runLen_lt (m e : Nat) : ∀ (R : List Nat) (n : Nat), runLen m e R = some n → n < R.length := by
  intro R
  induction R with
  | nil => intro n h; simp [runLen] at h
  | cons t R ih =>
    intro n h
    simp only [runLen] at h
    by_cases he : e.testBit t = true
    · rw [if_pos he] at h
      cases hr : runLen m e R with
      | none => rw [hr] at h; simp at h
      | some k =>
        rw [hr] at h
        simp only [Option.map_some', Option.some.injEq] at h
        have := ih k hr
        simp only [List.length_cons]
        omega
    · rw [if_neg he] at h
      by_cases hm : m.testBit t = true
      · rw [if_pos hm] at h
        simp only [Option.some.injEq] at h
        simp only [List.length_cons]
        omega
      · rw [if_neg hm] at h
        simp at h

theorem runLen_getD_le (m e : Nat) (R : List Nat) : (runLen m e R).getD 0 ≤ R.length - 1 := by
  cases h : runLen m e R with
  | none => simp
  | some n =>
    have := runLen_lt m e R n h
    simp only [Option.getD_some]
    omega

theorem lineFlips_short (m e : Nat) (R : List Nat) (h : R.length ≤ 1) : lineFlips m e R = 0 := by
  rw [lineFlips_eq_take]
  have h0 : (runLen m e R).getD 0 = 0 := by
    have := runLen_getD_le m e R
    omega
  rw [h0]
  simp [maskOf]

theorem mem_downPos (k : Nat) : ∀ n, k ∈ downPos n ↔ k < n := by
  intro n
  induction n with
  | zero => simp [downPos]
  | succ n ih =>
    simp only [downPos, List.mem_cons, ih]
    omega

theorem mem_upPos (k idx : Nat) : k ∈ upPos idx ↔ idx < k ∧ k < idx + 1 + (7 - idx) := by
  unfold upPos
  rw [List.mem_range'_1]
  omega

/-- Soundness of `scatterChk` at the two run lengths of a position. -/
theorem scatter_sound (T : Nat → Nat) (Pd Pu Rd Ru : List Nat)
    (h : scatterChk T Pd Pu Rd Ru = true) (m e : Nat) :
    T (maskOf (Pd.take ((runLen m e Rd).getD 0)) ||| maskOf (Pu.take ((runLen m e Ru).getD 0)))
      = lineFlips m e Rd ||| lineFlips m e Ru := by
  simp only [scatterChk, List.all_eq_true, List.mem_range, beq_iff_eq] at h
  have hd := runLen_getD_le m e Rd
  have hu := runLen_getD_le m e Ru
  rw [h _ (by omega) _ (by omega), lineFlips_eq_take, lineFlips_eq_take]

/-! ## One direction of `flips` -/

theorem gather_zero (x mult : Nat) : gather x 0 mult = 0 := by
  simp [gather, u64]

/-- A direction that passed `fullChk` and `lineChk`: the table row applied to the flip index
is what the two rays flip. -/
theorem line_sound (byRow : Bool) (mask mult idx : Nat) (T : Nat → Nat) (Rd Ru : List Nat)
    (hfull : fullChk byRow mask mult = true) (hchk : lineChk byRow mask idx T Rd Ru = true)
    (hidx : idx < 8) (mover enemy : Nat) :
    T ((insideOf idx (gather mover mask mult &&& outsideOf idx (gather enemy mask mult))).2 % 256)
      = lineFlips mover enemy Rd ||| lineFlips mover enemy Ru := by
  obtain ⟨hfi, _, _⟩ := line_flip idx (gather mover mask mult) (gather enemy mask mult) hidx
    (gather_lt enemy mask mult)
  rw [hfi]
  simp only [lineChk, Bool.and_eq_true, Bool.or_eq_true, beq_iff_eq, decide_eq_true_eq] at hchk
  obtain ⟨hview, hsc⟩ := hchk
  rcases hview with ⟨hvd, hvu⟩ | ⟨⟨hm0, hld⟩, hlu⟩
  · have hPd : ∀ k ∈ downPos idx, k < 8 := fun k hk => by
      have := (mem_downPos k idx).1 hk; omega
    have hPu : ∀ k ∈ upPos idx, k < 8 := fun k hk => by
      have := (mem_upPos k idx).1 hk; omega
    have e1 := runLen_view (gather mover mask mult) (gather enemy mask mult) mover enemy Rd
      (downPos idx) _ (gather_view byRow mask mult hfull _ _ _ hPd hvd mover)
      (gather_view byRow mask mult hfull _ _ _ hPd hvd enemy)
    have e2 := runLen_view (gather mover mask mult) (gather enemy mask mult) mover enemy Ru
      (upPos idx) _ (gather_view byRow mask mult hfull _ _ _ hPu hvu mover)
      (gather_view byRow mask mult hfull _ _ _ hPu hvu enemy)
    rw [lineFlips_eq_take, lineFlips_eq_take, e1, e2]
    exact scatter_sound T _ _ Rd Ru hsc mover enemy
  · subst hm0
    rw [gather_zero, gather_zero]
    have r0 : ∀ P, runLen 0 0 P = none := fun P => runLen_none 0 0 P (by simp) (by simp)
    have hs := scatter_sound T (downPos idx) (upPos idx) Rd Ru hsc mover enemy
    have hd0 : (runLen mover enemy Rd).getD 0 = 0 := by
      have := runLen_getD_le mover enemy Rd; omega
    have hu0 : (runLen mover enemy Ru).getD 0 = 0 := by
      have := runLen_getD_le mover enemy Ru; omega
    rw [hd0, hu0] at hs
    rw [lineFlips_eq_take 0 0, lineFlips_eq_take 0 0, r0, r0]
    exact hs

theorem testBit_255 (k : Nat) (hk : k < 8) : (255 : Nat).testBit k = true := by
  have h : (255 : Nat) = 2 ^ 8 - 1 := by norm_num
  rw [h, Nat.testBit_two_pow_sub_one]
  simpa using hk

/-- `runLen` on a shifted board is `runLen` on the shifted positions. -/
theorem runLen_shift (m e s : Nat) (P : List Nat) (hP : ∀ k ∈ P, k < 8) :
    runLen (m >>> s) ((e >>> s) &&& 0xFF) P = runLen m e (P.map (fun k => s + k)) := by
  apply runLen_view _ _ _ _ _ _ 0
  · simp [List.map_map, Function.comp_def, Nat.testBit_shiftRight]
  · simp only [List.map_map, Function.comp_def, List.replicate_zero, List.append_nil]
    apply List.map_congr_left
    intro k hk
    rw [Nat.testBit_and, Nat.testBit_shiftRight, testBit_255 k (hP k hk), Bool.and_true]

/-- The row direction of a square that passed `rowChk`. -/
theorem row_sound (sq : Nat) (hchk : rowChk sq = true) (hsq : sq < 64) (mover enemy : Nat) :
    u64 (((insideOf (sq &&& 7) ((mover >>> (sq >>> 3 <<< 3)) &&&
        outsideOf (sq &&& 7) ((enemy >>> (sq >>> 3 <<< 3)) &&& 0xFF))).2 % 256)
          <<< ((sq >>> 3) * 8))
      = lineFlips mover enemy (rayOf sq 0 (-1)) ||| lineFlips mover enemy (rayOf sq 0 1) := by
  have hidx : sq &&& 7 < 8 := by
    have := @Nat.and_le_right sq 7; omega
  have hlt : (enemy >>> (sq >>> 3 <<< 3)) &&& 0xFF < 256 :=
    Nat.and_lt_two_pow _ (n := 8) (by norm_num)
  obtain ⟨hfi, _, _⟩ := line_flip (sq &&& 7) (mover >>> (sq >>> 3 <<< 3))
    ((enemy >>> (sq >>> 3 <<< 3)) &&& 0xFF) hidx hlt
  rw [hfi]
  simp only [rowChk, Bool.and_eq_true, beq_iff_eq] at hchk
  obtain ⟨⟨hd, hu⟩, hsc⟩ := hchk
  have hPd : ∀ k ∈ downPos (sq &&& 7), k < 8 := fun k hk => by
    have := (mem_downPos k _).1 hk; omega
  have hPu : ∀ k ∈ upPos (sq &&& 7), k < 8 := fun k hk => by
    have := (mem_upPos k _).1 hk; omega
  have hs := scatter_sound _ _ _ _ _ hsc mover enemy
  rw [lineFlips_eq_take, lineFlips_eq_take _ _ (upPos _), runLen_shift _ _ _ _ hPd,
    runLen_shift _ _ _ _ hPu, ← hd, ← hu]
  exact hs

/-! ## Assembling `flips` -/

theorem rd2_some {α : Type} (n k : Nat) (t : Nat → Nat → α) (i j : Nat) (hi : i < n) (hj : j < k) :
    rd2 n k t i j = some (t i j) := by
  unfold rd2
  rw [if_pos ⟨hi, hj⟩]

theorem rd1_some {α : Type} (n : Nat) (t : Nat → α) (i : Nat) (hi : i < n) :
    rd1 n t i = some (t i) := by
  unfold rd1
  rw [if_pos hi]

/-- `flipIndex` on the filled tables: both reads are in bounds. -/
theorem flipIndex_eq (T0 : Tables) (moveLoc mover enemy mask mult : Nat) (h : moveLoc < 8) :
    flipIndex (fillTables T0) moveLoc mover enemy mask mult
      = some ((insideOf moveLoc
          (gather mover mask mult &&& outsideOf moveLoc (gather enemy mask mult))).2 % 256) := by
  obtain ⟨_, _, hx⟩ := line_flip moveLoc (gather mover mask mult) (gather enemy mask mult) h
    (gather_lt enemy mask mult)
  obtain ⟨_, ho, hi, _⟩ := fillTables_spec T0
  have e1 : rd2 8 256 (fillTables T0).outsides moveLoc (gather enemy mask mult)
      = some (outsideOf moveLoc (gather enemy mask mult)) := by
    rw [rd2_some _ _ _ _ _ h (gather_lt enemy mask mult), ho _ _ h (gather_lt enemy mask mult)]
  have e2 : rd2 8 256 (fillTables T0).insides moveLoc
      (gather mover mask mult &&& outsideOf moveLoc (gather enemy mask mult))
      = some ((insideOf moveLoc
          (gather mover mask mult &&& outsideOf moveLoc (gather enemy mask mult))).2 % 256) := by
    rw [rd2_some _ _ _ _ _ h hx, hi _ _ h hx]
  show (rd2 8 256 (fillTables T0).outsides moveLoc (gather enemy mask mult)).bind
    (fun out => (rd2 8 256 (fillTables T0).insides moveLoc (gather mover mask mult &&& out)).bind
      (fun flipIndex => some flipIndex)) = _
  rw [e1, Option.some_bind, e2, Option.some_bind]

/-- `rowFlipIndex` on the filled tables: both reads are in bounds. -/
theorem rowFlipIndex_eq (T0 : Tables) (row col mover enemy : Nat) (h : col < 8) :
    rowFlipIndex (fillTables T0) row col mover enemy
      = some ((insideOf col ((mover >>> (row <<< 3)) &&&
          outsideOf col ((enemy >>> (row <<< 3)) &&& 0xFF))).2 % 256) := by
  have hlt : (enemy >>> (row <<< 3)) &&& 0xFF < 256 :=
    Nat.and_lt_two_pow _ (n := 8) (by norm_num)
  obtain ⟨_, _, hx⟩ := line_flip col (mover >>> (row <<< 3)) ((enemy >>> (row <<< 3)) &&& 0xFF)
    h hlt
  obtain ⟨_, ho, hi, _⟩ := fillTables_spec T0
  have e1 : rd2 8 256 (fillTables T0).outsides col ((enemy >>> (row <<< 3)) &&& 0xFF)
      = some (outsideOf col ((enemy >>> (row <<< 3)) &&& 0xFF)) := by
    rw [rd2_some _ _ _ _ _ h hlt, ho _ _ h hlt]
  have e2 : rd2 8 256 (fillTables T0).insides col
      ((mover >>> (row <<< 3)) &&& outsideOf col ((enemy >>> (row <<< 3)) &&& 0xFF))
      = some ((insideOf col ((mover >>> (row <<< 3)) &&&
          outsideOf col ((enemy >>> (row <<< 3)) &&& 0xFF))).2 % 256) := by
    rw [rd2_some _ _ _ _ _ h hx, hi _ _ h hx]
  show (rd2 8 256 (fillTables T0).outsides col ((enemy >>> (row <<< 3)) &&& 0xFF)).bind
    (fun out => (rd2 8 256 (fillTables T0).insides col ((mover >>> (row <<< 3)) &&& out)).bind
      (fun flipIndex => some flipIndex)) = _
  rw [e1, Option.some_bind, e2, Option.some_bind]

theorem mod256_lt (x : Nat) : x % 256 < 256 := Nat.mod_lt _ (by norm_num)

theorem lineFlips_head (m e t : Nat) (R : List Nat) (h : e.testBit t = false) :
    lineFlips m e (t :: R) = 0 := by
  unfold lineFlips
  simp only [runLen, h]
  by_cases hm : m.testBit t = true
  · simp [hm, maskOf]
  · simp [hm]

/-- Without an enemy disk next to `sq`, no ray flips anything. -/
theorem flipsSem_zero (sq mover enemy : Nat) (hsq : sq < 64)
    (h : neighborsOf sq &&& enemy = 0) : flipsSem sq mover enemy = 0 := by
  have hn := neighborChk_all sq hsq
  simp only [neighborChk, List.all_eq_true, List.mem_cons, List.mem_singleton] at hn
  have key : ∀ R : List Nat, (match R with
      | [] => true
      | t :: _ => (neighborsOf sq).testBit t) = true → lineFlips mover enemy R = 0 := by
    intro R hR
    cases R with
    | nil => rfl
    | cons t R =>
      apply lineFlips_head
      have h1 : (neighborsOf sq &&& enemy).testBit t = false := by rw [h]; simp
      rw [Nat.testBit_and] at h1
      simp only at hR
      rw [hR] at h1
      simpa using h1
  unfold flipsSem
  rw [key _ (hn _ (by simp)), key _ (hn _ (by simp)), key _ (hn _ (by simp)),
    key _ (hn _ (by simp)), key _ (hn _ (by simp)), key _ (hn _ (by simp)),
    key _ (hn _ (by simp)), key _ (hn _ (by simp))]
  rfl

theorem flips_sem (T0 : Tables) (sq mover enemy : Nat) (hsq : sq < 64) :
    flips (fillTables T0) sq mover enemy = some (flipsSem sq mover enemy) := by
  have hc := squareChk_all sq hsq
  unfold squareChk at hc
  cases hm : flipArray[sq]? with
  | none => rw [hm] at hc; simp at hc
  | some m =>
    rw [hm] at hc
    simp only [Bool.and_eq_true, decide_eq_true_eq] at hc
    obtain ⟨⟨⟨⟨hb9, hb7⟩, h9⟩, hcol⟩, h7⟩ := hc
    have hmem := List.getElem?_mem hm
    have f9 : fullChk false m.d9mask m.d9mult = true :=
      diagDescriptors_ok (m.d9mask, m.d9mult) (by
        unfold diagDescriptors
        rw [List.mem_dedup, List.mem_append]
        exact Or.inl (List.mem_map.2 ⟨m, hmem, rfl⟩))
    have f7 : fullChk false m.d7mask m.d7mult = true :=
      diagDescriptors_ok (m.d7mask, m.d7mult) (by
        unfold diagDescriptors
        rw [List.mem_dedup, List.mem_append]
        exact Or.inr (List.mem_map.2 ⟨m, hmem, rfl⟩))
    have fc : fullChk true m.colmask m.colmult = true :=
      colDescriptors_ok (m.colmask, m.colmult) (by
        unfold colDescriptors
        rw [List.mem_dedup]
        exact List.mem_map.2 ⟨m, hmem, rfl⟩)
    have hcol8 : sq &&& 7 < 8 := by
      have := @Nat.and_le_right sq 7; omega
    have hrow8 : sq >>> 3 < 8 := by
      rw [Nat.shiftRight_eq_div_pow]; omega
    obtain ⟨_, _, _, hrf, hcf, hd9, hd7, hnb⟩ := fillTables_spec T0
    unfold flips
    simp only [Option.bind_eq_bind, Option.some_bind, Option.pure_def, Nat.zero_or,
      rd1_some _ _ _ hsq, hnb sq hsq, hm, rowFlipIndex_eq T0 _ _ _ _ hcol8,
      flipIndex_eq T0 _ _ _ _ _ hcol8, flipIndex_eq T0 _ _ _ _ _ hrow8,
      rd2_some _ _ _ _ _ hrow8 (mod256_lt _), rd2_some _ _ _ _ _ hcol8 (mod256_lt _),
      rd2_some _ _ _ _ _ hb9 (mod256_lt _), rd2_some _ _ _ _ _ hb7 (mod256_lt _),
      hrf _ _ hrow8 (mod256_lt _), hcf _ _ hcol8 (mod256_lt _),
      hd9 _ _ hb9 (mod256_lt _), hd7 _ _ hb7 (mod256_lt _)]
    by_cases hn : neighborsOf sq &&& enemy = 0
    · rw [if_neg (by simpa using hn), flipsSem_zero sq mover enemy hsq hn]
    · rw [if_pos hn]
      rw [line_sound false m.d9mask m.d9mult (sq &&& 7) _ _ _ f9 h9 hcol8,
        line_sound true m.colmask m.colmult (sq >>> 3) _ _ _ fc hcol hrow8,
        line_sound false m.d7mask m.d7mult (sq &&& 7) _ _ _ f7 h7 hcol8,
        row_sound sq (rowChk_all sq hsq) hsq]
      rfl

/-! ## The brute-force reference -/

theorem disjoint_bits (mover enemy : Nat) (h : mover &&& enemy = 0) (t : Nat)
    (hm : mover.testBit t = true) : enemy.testBit t = false := by
  have h1 : (mover &&& enemy).testBit t = false := by rw [h]; simp
  rw [Nat.testBit_and, hm] at h1
  simpa using h1

/-- On disjoint boards the step-by-step walk computes `runLen` along the ray. -/
theorem walk_eq (mover enemy : Nat) (hdis : mover &&& enemy = 0) (dr dc : Int) :
    ∀ (n : Nat) (r c : Int) (acc : Nat),
      walk mover enemy dr dc n r c acc =
        match runLen mover enemy (ray dr dc n r c) with
        | some k => acc ||| maskOf ((ray dr dc n r c).take k)
        | none => 0 := by
  intro n
  induction n with
  | zero => intro r c acc; rfl
  | succ n ih =>
    intro r c acc
    unfold walk ray
    by_cases hedge : r + dr < 0 ∨ 7 < r + dr ∨ c + dc < 0 ∨ 7 < c + dc
    · rw [if_pos hedge, if_pos hedge]
      rfl
    · rw [if_neg hedge, if_neg hedge]
      by_cases hm : mover.testBit (8 * (r + dr) + (c + dc)).toNat = true
      · have he := disjoint_bits mover enemy hdis _ hm
        rw [if_pos hm]
        simp [runLen, he, hm, maskOf]
      · rw [if_neg hm]
        by_cases he : enemy.testBit (8 * (r + dr) + (c + dc)).toNat = true
        · rw [if_pos he, ih]
          simp only [runLen, he, if_true]
          cases runLen mover enemy (ray dr dc n (r + dr) (c + dc)) with
          | none => rfl
          | some k => simp [maskOf, Nat.or_assoc]
        · rw [if_neg he]
          simp [runLen, he, hm]

theorem walkFrom_eq (s mover enemy : Nat) (hdis : mover &&& enemy = 0) (dr dc : Int) :
    walkFrom s mover enemy dr dc = lineFlips mover enemy (rayOf s dr dc) := by
  unfold walkFrom lineFlips rayOf
  rw [walk_eq mover enemy hdis]
  cases runLen mover enemy (ray dr dc 8 ((s / 8 : Nat) : Int) ((s % 8 : Nat) : Int)) with
  | none => rfl
  | some k => simp

theorem refFlips_eq (s mover enemy : Nat) (hdis : mover &&& enemy = 0) :
    refFlips s mover enemy = flipsSem s mover enemy := by
  unfold refFlips flipsSem
  simp only [walkFrom_eq s mover enemy hdis, Nat.or_assoc]

/-- C1 (reference equivalence): after `initFlips`, for every square `s` in `0..63` and every
pair of disjoint 64-bit boards with `s` empty in both, the portable `flips` returns the mask
computed by the brute-force reference that walks the 8 compass directions one square at a
time. -/
theorem flips_eq_reference (T0 T : Tables) (hT : initFlips T0 = some T) (s mover enemy : Nat)
    (hs : s < 64) (hmover : mover < 2 ^ 64) (henemy : enemy < 2 ^ 64)
    (hdis : mover &&& enemy = 0) (hms : mover.testBit s = false)
    (hes : enemy.testBit s = false) :
    flips T s mover enemy = some (refFlips s mover enemy) := by
  rw [initFlips_eq] at hT
  cases hT
  rw [flips_sem T0 s mover enemy hs, refFlips_eq s mover enemy hdis]

theorem flips_eq_reference_witness :
    flips (fillTables zeroTables) 26 0x810000000 0x1008000000 = some (refFlips 26 0x810000000 0x1008000000)
      ∧ refFlips 26 0x810000000 0x1008000000 = 0x8000000 :=
  ⟨flips_eq_reference zeroTables (fillTables zeroTables) (initFlips_eq zeroTables) 26
    0x810000000 0x1008000000 (by decide) (by decide) (by decide) (by decide) (by decide)
    (by decide), by decide⟩

/-! ## Consequences of the ray semantics -/

set_option maxRecDepth 1000000 in
theorem rayChk_all : ∀ sq < 64, rayChk sq = true := by decide!

theorem flipsSem_of_rays (sq mover enemy : Nat)
    (h : ∀ R ∈ rays8 sq, lineFlips mover enemy R = 0) : flipsSem sq mover enemy = 0 := by
  unfold flipsSem
  simp only [rays8, List.mem_cons, List.mem_singleton, forall_eq_or_imp, forall_eq] at h
  obtain ⟨h1, h2, h3, h4, h5, h6, h7, h8, _⟩ := h
  rw [h1, h2, h3, h4, h5, h6, h7, h8]
  rfl

/-- No enemy disk on a square adjacent to `sq`: nothing is flipped. -/
theorem flipsSem_no_adjacent (sq mover enemy : Nat) (hsq : sq < 64)
    (hadj : ∀ t, t < 64 → adjacent sq t = true → enemy.testBit t = false) :
    flipsSem sq mover enemy = 0 := by
  apply flipsSem_of_rays
  intro R hR
  have hc := rayChk_all sq hsq
  simp only [rayChk, List.all_eq_true, Bool.and_eq_true] at hc
  obtain ⟨hhead, hall⟩ := hc R hR
  cases R with
  | nil => rfl
  | cons t R =>
    apply lineFlips_head
    have ht := hall t (List.mem_cons_self t R)
    simp only [Bool.and_eq_true, decide_eq_true_eq] at ht
    exact hadj t ht.1 hhead

/-- C4 (neighbor short-circuit): when no square adjacent to `s` is set in `enemy`, `flips`
returns 0 for every mover board; in particular `flips(s, mover, 0) == 0`. -/
theorem flips_no_adjacent_enemy (T0 T : Tables) (hT : initFlips T0 = some T)
    (s mover enemy : Nat) (hs : s < 64) :
    ((∀ t, t < 64 → adjacent s t = true → enemy.testBit t = false) →
      flips T s mover enemy = some 0) ∧
    flips T s mover 0 = some 0 := by
  rw [initFlips_eq] at hT
  cases hT
  constructor
  · intro hadj
    rw [flips_sem T0 s mover enemy hs, flipsSem_no_adjacent s mover enemy hs hadj]
  · rw [flips_sem T0 s mover 0 hs, flipsSem_no_adjacent s mover 0 hs (fun _ _ _ => by simp)]

theorem flips_no_adjacent_enemy_witness :
    ((∀ t, t < 64 → adjacent 0 t = true → (0 : Nat).testBit t = false) →
      flips (fillTables zeroTables) 0 0x200 0 = some 0) ∧
    flips (fillTables zeroTables) 0 0x200 0 = some 0 :=
  flips_no_adjacent_enemy zeroTables (fillTables zeroTables) (initFlips_eq zeroTables)
    0 0x200 0 (by decide)

theorem runLen_enemy (m e : Nat) : ∀ (R : List Nat) (n : Nat), runLen m e R = some n →
    ∀ t ∈ R.take n, e.testBit t = true := by
  intro R
  induction R with
  | nil => intro n h; simp [runLen] at h
  | cons u R ih =>
    intro n h t ht
    simp only [runLen] at h
    by_cases he : e.testBit u = true
    · rw [if_pos he] at h
      cases hr : runLen m e R with
      | none => rw [hr] at h; simp at h
      | some k =>
        rw [hr] at h
        simp only [Option.map_some', Option.some.injEq] at h
        subst h
        simp only [List.take_succ_cons, List.mem_cons] at ht
        rcases ht with rfl | ht
        · exact he
        · exact ih k hr t ht
    · rw [if_neg he] at h
      by_cases hm : m.testBit u = true
      · rw [if_pos hm] at h
        simp only [Option.some.injEq] at h
        subst h
        simp at ht
      · rw [if_neg hm] at h
        simp at h

/-- Every square flipped along a ray is an enemy square of that ray. -/
theorem lineFlips_bits (m e : Nat) (R : List Nat) (t : Nat)
    (h : (lineFlips m e R).testBit t = true) : e.testBit t = true ∧ t ∈ R := by
  unfold lineFlips at h
  cases hr : runLen m e R with
  | none => rw [hr] at h; simp at h
  | some n =>
    rw [hr] at h
    simp only [testBit_maskOf, decide_eq_true_eq] at h
    exact ⟨runLen_enemy m e R n hr t h, List.mem_of_mem_take h⟩

/-- Every square of `flipsSem` is an enemy square on one of the eight rays. -/
theorem flipsSem_bits (sq mover enemy t : Nat) (h : (flipsSem sq mover enemy).testBit t = true) :
    enemy.testBit t = true ∧ ∃ R ∈ rays8 sq, t ∈ R := by
  unfold flipsSem at h
  simp only [Nat.testBit_or, Bool.or_eq_true] at h
  have key : ∀ R ∈ rays8 sq, (lineFlips mover enemy R).testBit t = true →
      enemy.testBit t = true ∧ ∃ R ∈ rays8 sq, t ∈ R := fun R hR hb =>
    ⟨(lineFlips_bits mover enemy R t hb).1, R, hR, (lineFlips_bits mover enemy R t hb).2⟩
  rcases h with ((((h | h) | (h | h)) | (h | h)) | (h | h))
  all_goals exact key _ (by simp [rays8]) h

theorem not64_testBit (x i : Nat) (h : x.testBit i = true) : (not64 x).testBit i = false := by
  unfold not64 u64
  have e : (18446744073709551615 : Nat) = 2 ^ 64 - 1 := by norm_num
  have e2 : (18446744073709551616 : Nat) = 2 ^ 64 := by norm_num
  rw [Nat.testBit_xor, e, e2, Nat.testBit_two_pow_sub_one, Nat.testBit_mod_two_pow, h]
  by_cases hi : i < 64 <;> simp [hi]

/-- C5: the result of `flips` contains only enemy squares and never the played square;
hence on disjoint boards it is disjoint from the mover board. -/
theorem flips_subset_enemy (T0 T : Tables) (hT : initFlips T0 = some T)
    (s mover enemy : Nat) (hs : s < 64) (hmover : mover < 2 ^ 64) (henemy : enemy < 2 ^ 64) :
    ∃ r, flips T s mover enemy = some r ∧ r &&& not64 enemy = 0 ∧ r.testBit s = false ∧
      (mover &&& enemy = 0 → r &&& mover = 0) := by
  rw [initFlips_eq] at hT
  cases hT
  refine ⟨flipsSem s mover enemy, flips_sem T0 s mover enemy hs, ?_, ?_, ?_⟩
  · apply Nat.eq_of_testBit_eq
    intro i
    rw [Nat.testBit_and, Nat.zero_testBit]
    by_cases hb : (flipsSem s mover enemy).testBit i = true
    · rw [hb, not64_testBit enemy i (flipsSem_bits s mover enemy i hb).1]
      rfl
    · simp [hb]
  · by_contra hb
    have hb' : (flipsSem s mover enemy).testBit s = true := by simpa using hb
    obtain ⟨_, R, hR, hmem⟩ := flipsSem_bits s mover enemy s hb'
    have hc := rayChk_all s hs
    simp only [rayChk, List.all_eq_true, Bool.and_eq_true, decide_eq_true_eq, bne_iff_ne] at hc
    exact (((hc R hR).2 s hmem).2) rfl
  · intro hdis
    apply Nat.eq_of_testBit_eq
    intro i
    rw [Nat.testBit_and, Nat.zero_testBit]
    by_cases hb : (flipsSem s mover enemy).testBit i = true
    · have he := (flipsSem_bits s mover enemy i hb).1
      by_cases hm : mover.testBit i = true
      · rw [disjoint_bits mover enemy hdis i hm] at he
        simp at he
      · simp [hm]
    · simp [hb]

theorem flips_subset_enemy_witness :
    ∃ r, flips (fillTables zeroTables) 26 0x810000000 0x1008000000 = some r ∧
      r &&& not64 0x1008000000 = 0 ∧ r.testBit 26 = false ∧
      ((0x810000000 : Nat) &&& 0x1008000000 = 0 → r &&& 0x810000000 = 0) :=
  flips_subset_enemy zeroTables (fillTables zeroTables) (initFlips_eq zeroTables)
    26 0x810000000 0x1008000000 (by decide) (by decide) (by decide)

/-! ## Positional reading of `runLen`, `gap` and the boundary search -/

/-- `runLen` returns `n` exactly when the first `n` squares are enemy squares and the next
one exists, is not an enemy square and is a mover square. -/
theorem runLen_eq_some_iff (m e : Nat) : ∀ (P : List Nat) (n : Nat),
    runLen m e P = some n ↔
      n < P.length ∧ (∀ i, i < n → e.testBit (P.getD i 0) = true) ∧
        e.testBit (P.getD n 0) = false ∧ m.testBit (P.getD n 0) = true := by
  intro P
  induction P with
  | nil => intro n; simp [runLen]
  | cons t P ih =>
    intro n
    simp only [runLen]
    by_cases he : e.testBit t = true
    · rw [if_pos he]
      cases n with
      | zero =>
        constructor
        · intro h
          cases hr : runLen m e P with
          | none => rw [hr] at h; simp at h
          | some k => rw [hr] at h; simp at h
        · intro h
          simp [he] at h
      | succ n =>
        constructor
        · intro h
          cases hr : runLen m e P with
          | none => rw [hr] at h; simp at h
          | some k =>
            rw [hr] at h
            simp only [Option.map_some', Option.some.injEq, Nat.add_right_cancel_iff] at h
            subst h
            obtain ⟨h1, h2, h3, h4⟩ := (ih k).1 hr
            refine ⟨by simp only [List.length_cons]; omega, ?_, by simpa using h3,
              by simpa using h4⟩
            intro i hi
            cases i with
            | zero => simpa using he
            | succ i => simpa using h2 i (by omega)
        · intro h
          obtain ⟨h1, h2, h3, h4⟩ := h
          have hr : runLen m e P = some n := (ih n).2
            ⟨by simp only [List.length_cons] at h1; omega,
             fun i hi => by simpa using h2 (i + 1) (by omega),
             by simpa using h3, by simpa using h4⟩
          rw [hr]
          rfl
    · rw [if_neg he]
      have he' : e.testBit t = false := by simpa using he
      cases n with
      | zero =>
        by_cases hm : m.testBit t = true
        · simp [hm, he']
        · simp [hm, he']
      | succ n =>
        constructor
        · intro h
          by_cases hm : m.testBit t = true
          · rw [if_pos hm] at h; simp at h
          · rw [if_neg hm] at h; simp at h
        · intro h
          have := h.2.1 0 (by omega)
          simp [he'] at this

theorem mem_take_iff (j : Nat) : ∀ (P : List Nat) (n : Nat),
    j ∈ P.take n ↔ ∃ i, i < n ∧ i < P.length ∧ P.getD i 0 = j := by
  intro P
  induction P with
  | nil => intro n; simp
  | cons t P ih =>
    intro n
    cases n with
    | zero => simp
    | succ n =>
      simp only [List.take_succ_cons, List.mem_cons, ih n, List.length_cons]
      constructor
      · rintro (h | ⟨i, h1, h2, h3⟩)
        · exact ⟨0, by omega, by omega, by simp [h]⟩
        · exact ⟨i + 1, by omega, by omega, by simpa using h3⟩
      · rintro ⟨i, h1, h2, h3⟩
        cases i with
        | zero => left; simpa using h3.symm
        | succ i => right; exact ⟨i, by omega, by omega, by simpa using h3⟩

theorem upPos_length (idx : Nat) : (upPos idx).length = 7 - idx := by
  simp [upPos]

theorem upPos_getD (idx i : Nat) (h : i < 7 - idx) : (upPos idx).getD i 0 = idx + 1 + i := by
  unfold upPos
  rw [List.getD_eq_getElem?_getD, List.getElem?_range' _ _ h]
  simp

theorem downPos_length : ∀ a, (downPos a).length = a := by
  intro a
  induction a with
  | zero => rfl
  | succ a ih => simp [downPos, ih]

theorem downPos_getD : ∀ a i, i < a → (downPos a).getD i 0 = a - 1 - i := by
  intro a
  induction a with
  | zero => intro i h; omega
  | succ a ih =>
    intro i h
    cases i with
    | zero => simp [downPos]
    | succ i =>
      simp only [downPos, List.getD_cons_succ]
      rw [ih i (by omega)]
      omega

/-- `gap` is `runLen` against any pattern that is the complement of `x` on the line. -/
theorem gap_eq_runLen (x e : Nat) : ∀ P : List Nat,
    (∀ k ∈ P, e.testBit k = !x.testBit k) → gap x P = runLen x e P := by
  intro P
  induction P with
  | nil => intro _; rfl
  | cons t P ih =>
    intro h
    have ht := h t (List.mem_cons_self t P)
    have hP := ih (fun k hk => h k (List.mem_cons_of_mem t hk))
    by_cases hx : x.testBit t = true
    · simp [gap, runLen, hx, ht]
    · have hx' : x.testBit t = false := by simpa using hx
      simp [gap, runLen, hx', ht, hP]

/-- The boundary search of `outsides` is `runLen` with a mover disk everywhere. -/
theorem find_eq_runLen (M e : Nat) : ∀ P : List Nat, (∀ k ∈ P, M.testBit k = true) →
    P.find? (fun j => !e.testBit j) = (runLen M e P).bind (fun n => P[n]?) := by
  intro P
  induction P with
  | nil => intro _; rfl
  | cons t P ih =>
    intro h
    have ht := h t (List.mem_cons_self t P)
    have hP := ih (fun k hk => h k (List.mem_cons_of_mem t hk))
    by_cases he : e.testBit t = true
    · simp only [List.find?_cons, he, Bool.not_true, runLen, if_true, hP]
      cases runLen M e P with
      | none => rfl
      | some n => simp
    · have he' : e.testBit t = false := by simpa using he
      simp [List.find?_cons, he', runLen, ht]

/-- Bit `j` of the flips above `idx` on an 8-square line. -/
theorem lineFlips_up_bit (m e idx j : Nat) (hidx : idx < 8) :
    (lineFlips m e (upPos idx)).testBit j = true ↔
      ∃ i, idx < j ∧ j < i ∧ i < 8 ∧ m.testBit i = true ∧ e.testBit i = false ∧
        ∀ k, idx < k → k < i → e.testBit k = true := by
  have hiff := runLen_eq_some_iff m e (upPos idx)
  unfold lineFlips
  cases hr : runLen m e (upPos idx) with
  | none =>
    simp only [Nat.zero_testBit, Bool.false_eq_true, false_iff]
    rintro ⟨i, h1, h2, h3, h4, h5, h6⟩
    have : runLen m e (upPos idx) = some (i - idx - 1) := by
      rw [hiff, upPos_length]
      refine ⟨by omega, ?_, ?_, ?_⟩
      · intro a ha
        rw [upPos_getD idx a (by omega)]
        exact h6 _ (by omega) (by omega)
      · rw [upPos_getD idx _ (by omega)]
        have : idx + 1 + (i - idx - 1) = i := by omega
        rw [this]; exact h5
      · rw [upPos_getD idx _ (by omega)]
        have : idx + 1 + (i - idx - 1) = i := by omega
        rw [this]; exact h4
    rw [hr] at this
    simp at this
  | some n =>
    obtain ⟨hn, hen, hne, hmn⟩ := (hiff n).1 hr
    rw [upPos_length] at hn
    rw [upPos_getD idx n hn] at hne hmn
    simp only [testBit_maskOf, decide_eq_true_eq, mem_take_iff, upPos_length]
    constructor
    · rintro ⟨a, ha, ha2, ha3⟩
      rw [upPos_getD idx a ha2] at ha3
      refine ⟨idx + 1 + n, by omega, by omega, by omega, hmn, hne, ?_⟩
      intro k hk1 hk2
      have := hen (k - idx - 1) (by omega)
      rw [upPos_getD idx _ (by omega)] at this
      have e2 : idx + 1 + (k - idx - 1) = k := by omega
      rwa [e2] at this
    · rintro ⟨i, h1, h2, h3, h4, h5, h6⟩
      have hi : i = idx + 1 + n := by
        rcases Nat.lt_trichotomy i (idx + 1 + n) with h | h | h
        · have := hen (i - idx - 1) (by omega)
          rw [upPos_getD idx _ (by omega)] at this
          have e2 : idx + 1 + (i - idx - 1) = i := by omega
          rw [e2, h5] at this
          simp at this
        · exact h
        · have := h6 (idx + 1 + n) (by omega) h
          rw [hne] at this
          simp at this
      refine ⟨j - idx - 1, by omega, by omega, ?_⟩
      rw [upPos_getD idx _ (by omega)]
      omega

/-- Bit `j` of the flips below `idx` on an 8-square line. -/
theorem lineFlips_down_bit (m e idx j : Nat) :
    (lineFlips m e (downPos idx)).testBit j = true ↔
      ∃ i, i < j ∧ j < idx ∧ m.testBit i = true ∧ e.testBit i = false ∧
        ∀ k, i < k → k < idx → e.testBit k = true := by
  have hiff := runLen_eq_some_iff m e (downPos idx)
  unfold lineFlips
  cases hr : runLen m e (downPos idx) with
  | none =>
    simp only [Nat.zero_testBit, Bool.false_eq_true, false_iff]
    rintro ⟨i, h1, h2, h4, h5, h6⟩
    have : runLen m e (downPos idx) = some (idx - 1 - i) := by
      rw [hiff, downPos_length]
      refine ⟨by omega, ?_, ?_, ?_⟩
      · intro a ha
        rw [downPos_getD idx a (by omega)]
        exact h6 _ (by omega) (by omega)
      · rw [downPos_getD idx _ (by omega)]
        have : idx - 1 - (idx - 1 - i) = i := by omega
        rw [this]; exact h5
      · rw [downPos_getD idx _ (by omega)]
        have : idx - 1 - (idx - 1 - i) = i := by omega
        rw [this]; exact h4
    rw [hr] at this
    simp at this
  | some n =>
    obtain ⟨hn, hen, hne, hmn⟩ := (hiff n).1 hr
    rw [downPos_length] at hn
    rw [downPos_getD idx n hn] at hne hmn
    simp only [testBit_maskOf, decide_eq_true_eq, mem_take_iff, downPos_length]
    constructor
    · rintro ⟨a, ha, ha2, ha3⟩
      rw [downPos_getD idx a ha2] at ha3
      refine ⟨idx - 1 - n, by omega, by omega, hmn, hne, ?_⟩
      intro k hk1 hk2
      have := hen (idx - 1 - k) (by omega)
      rw [downPos_getD idx _ (by omega)] at this
      have e2 : idx - 1 - (idx - 1 - k) = k := by omega
      rwa [e2] at this
    · rintro ⟨i, h1, h2, h4, h5, h6⟩
      have hi : i = idx - 1 - n := by
        rcases Nat.lt_trichotomy i (idx - 1 - n) with h | h | h
        · have := h6 (idx - 1 - n) h (by omega)
          rw [hne] at this
          simp at this
        · exact h
        · have := hen (idx - 1 - i) (by omega)
          rw [downPos_getD idx _ (by omega)] at this
          have e2 : idx - 1 - (idx - 1 - i) = i := by omega
          rw [e2, h5] at this
          simp at this
      refine ⟨idx - 1 - j, by omega, by omega, ?_⟩
      rw [downPos_getD idx _ (by omega)]
      omega

theorem gap_eq_none_iff (x : Nat) : ∀ P : List Nat,
    gap x P = none ↔ ∀ k ∈ P, x.testBit k = false := by
  intro P
  induction P with
  | nil => simp [gap]
  | cons t P ih =>
    by_cases hx : x.testBit t = true
    · simp [gap, hx]
    · have hx' : x.testBit t = false := by simpa using hx
      simp [gap, hx', ih]

theorem testBit_compl8 (x k : Nat) (hk : k < 8) : (255 ^^^ x).testBit k = !x.testBit k := by
  rw [Nat.testBit_xor, testBit_255 k hk]
  cases x.testBit k <;> rfl

/-! ## The line tables -/

/-- C6 (composition law): on one 8-square line with disjoint patterns, bit `j` of
`insides[idx][m & outsides[idx][e]]` is set iff `j` lies strictly between `idx` and some
position `i` with bit `i` set in `m` and every position strictly between `idx` and `i` set
in `e`; both table reads are in bounds. -/
theorem composition_law (T0 T : Tables) (hT : initFlips T0 = some T) (idx m e : Nat)
    (hidx : idx < 8) (hm : m < 256) (he : e < 256) (hdis : m &&& e = 0) :
    m &&& T.outsides idx e < 256 ∧
    ∀ j, (T.insides idx (m &&& T.outsides idx e)).testBit j = true ↔
      ∃ i, i < 8 ∧ m.testBit i = true ∧ ((idx < j ∧ j < i) ∨ (i < j ∧ j < idx)) ∧
        ∀ k, ((idx < k ∧ k < i) ∨ (i < k ∧ k < idx)) → e.testBit k = true := by
  rw [initFlips_eq] at hT
  cases hT
  obtain ⟨_, ho, hi, _⟩ := fillTables_spec T0
  obtain ⟨hfi, _, hx⟩ := line_flip idx m e hidx he
  rw [ho idx e hidx he]
  refine ⟨hx, ?_⟩
  intro j
  rw [hi idx _ hidx hx, hfi, Nat.testBit_or, Bool.or_eq_true, lineFlips_down_bit,
    lineFlips_up_bit m e idx j hidx]
  constructor
  · rintro (⟨i, h1, h2, h3, _, h5⟩ | ⟨i, h1, h2, h3, h4, _, h6⟩)
    · exact ⟨i, by omega, h3, Or.inr ⟨h1, h2⟩, fun k hk => h5 k (by omega) (by omega)⟩
    · exact ⟨i, h3, h4, Or.inl ⟨h1, h2⟩, fun k hk => h6 k (by omega) (by omega)⟩
  · rintro ⟨i, h1, h2, h3, h4⟩
    have hei := disjoint_bits m e hdis i h2
    rcases h3 with ⟨h3, h3'⟩ | ⟨h3, h3'⟩
    · exact Or.inr ⟨i, h3, h3', h1, h2, hei, fun k hk1 hk2 => h4 k (Or.inl ⟨hk1, hk2⟩)⟩
    · exact Or.inl ⟨i, h3, h3', h2, hei, fun k hk1 hk2 => h4 k (Or.inr ⟨hk1, hk2⟩)⟩

theorem composition_law_witness :
    (0x41 : Nat) &&& (fillTables zeroTables).outsides 3 0x36 < 256 ∧
    ∀ j, ((fillTables zeroTables).insides 3
        (0x41 &&& (fillTables zeroTables).outsides 3 0x36)).testBit j = true ↔
      ∃ i, i < 8 ∧ (0x41 : Nat).testBit i = true ∧ ((3 < j ∧ j < i) ∨ (i < j ∧ j < 3)) ∧
        ∀ k, ((3 < k ∧ k < i) ∨ (i < k ∧ k < 3)) → (0x36 : Nat).testBit k = true :=
  composition_law zeroTables (fillTables zeroTables) (initFlips_eq zeroTables) 3 0x41 0x36
    (by decide) (by decide) (by decide) (by decide)

theorem bitCount_lt_256 (x : Nat) (hx : x < 256) :
    bitCount x = ((List.range 8).filter fun i => x.testBit i).length := by
  unfold bitCount
  have h64 : List.range 64 = List.range 8 ++ List.range' 8 56 := by decide
  rw [h64, List.filter_append, List.length_append]
  have hnil : (List.range' 8 56).filter (fun i => x.testBit i) = [] := by
    rw [List.filter_eq_nil_iff]
    intro i hi
    rw [List.mem_range'_1] at hi
    have : x < 2 ^ i := lt_of_lt_of_le hx (by
      have : (256 : Nat) = 2 ^ 8 := by norm_num
      rw [this]
      exact Nat.pow_le_pow_right (by norm_num) hi.1)
    simp [Nat.testBit_lt_two_pow this]
  rw [hnil]
  simp

/-- The boundary table: bit `k` above `idx` marks the nearest position clear in `e`. -/
theorem outsideOf_up_bit (idx e k : Nat) (hidx : idx < 8) (he : e < 256) (h1 : idx < k)
    (h2 : k < 8) :
    (outsideOf idx e).testBit k = true ↔
      (e.testBit k = false ∧ ∀ j, idx < j → j < k → e.testBit j = true) := by
  have ho := outsideChk_all idx hidx e he
  simp only [outsideChk, Bool.and_eq_true, decide_eq_true_eq, List.all_eq_true, beq_iff_eq]
    at ho
  obtain ⟨⟨⟨⟨_, hup⟩, _⟩, _⟩, _⟩ := ho
  have hk : k ∈ upPos idx := (mem_upPos k idx).2 ⟨h1, by omega⟩
  have hP : ∀ a ∈ upPos idx, (255 : Nat).testBit a = true := fun a ha =>
    testBit_255 a (by have := (mem_upPos a idx).1 ha; omega)
  rw [hup k hk, find_eq_runLen 255 e _ hP]
  have hiff := runLen_eq_some_iff 255 e (upPos idx)
  cases hr : runLen 255 e (upPos idx) with
  | none =>
    simp only [Option.none_bind, beq_iff_eq]
    constructor
    · intro h; simp at h
    · rintro ⟨h3, h4⟩
      have : runLen 255 e (upPos idx) = some (k - idx - 1) := by
        rw [hiff, upPos_length]
        refine ⟨by omega, ?_, ?_, ?_⟩
        · intro a ha
          rw [upPos_getD idx a (by omega)]
          exact h4 _ (by omega) (by omega)
        · rw [upPos_getD idx _ (by omega)]
          have : idx + 1 + (k - idx - 1) = k := by omega
          rw [this]; exact h3
        · rw [upPos_getD idx _ (by omega)]
          exact testBit_255 _ (by omega)
      rw [hr] at this
      simp at this
  | some n =>
    obtain ⟨hn, hen, hne, _⟩ := (hiff n).1 hr
    rw [upPos_length] at hn
    rw [upPos_getD idx n hn] at hne
    have hget : (upPos idx)[n]? = some (idx + 1 + n) := by
      unfold upPos
      rw [List.getElem?_range' _ _ hn, Nat.one_mul]
    simp only [Option.some_bind, hget, beq_iff_eq, Option.some.injEq]
    constructor
    · intro h
      subst h
      refine ⟨hne, ?_⟩
      intro j hj1 hj2
      have := hen (j - idx - 1) (by omega)
      rw [upPos_getD idx _ (by omega)] at this
      have e2 : idx + 1 + (j - idx - 1) = j := by omega
      rwa [e2] at this
    · rintro ⟨h3, h4⟩
      rcases Nat.lt_trichotomy k (idx + 1 + n) with h | h | h
      · have := hen (k - idx - 1) (by omega)
        rw [upPos_getD idx _ (by omega)] at this
        have e2 : idx + 1 + (k - idx - 1) = k := by omega
        rw [e2, h3] at this
        simp at this
      · exact h.symm
      · have := h4 (idx + 1 + n) (by omega) h
        rw [hne] at this
        simp at this

theorem downPos_getElem? (a n : Nat) (hn : n < a) : (downPos a)[n]? = some (a - 1 - n) := by
  have h1 : n < (downPos a).length := by rw [downPos_length]; exact hn
  rw [List.getElem?_eq_getElem h1]
  have h2 := downPos_getD a n hn
  rw [List.getD_eq_getElem?_getD, List.getElem?_eq_getElem h1] at h2
  simpa using h2

/-- The boundary table: bit `k` below `idx` marks the nearest position clear in `e`. -/
theorem outsideOf_down_bit (idx e k : Nat) (hidx : idx < 8) (he : e < 256) (h1 : k < idx) :
    (outsideOf idx e).testBit k = true ↔
      (e.testBit k = false ∧ ∀ j, k < j → j < idx → e.testBit j = true) := by
  have ho := outsideChk_all idx hidx e he
  simp only [outsideChk, Bool.and_eq_true, decide_eq_true_eq, List.all_eq_true, beq_iff_eq]
    at ho
  obtain ⟨⟨⟨⟨_, _⟩, hdown⟩, _⟩, _⟩ := ho
  have hk : k ∈ downPos idx := (mem_downPos k idx).2 h1
  have hP : ∀ a ∈ downPos idx, (255 : Nat).testBit a = true := fun a ha =>
    testBit_255 a (by have := (mem_downPos a idx).1 ha; omega)
  rw [hdown k hk, find_eq_runLen 255 e _ hP]
  have hiff := runLen_eq_some_iff 255 e (downPos idx)
  cases hr : runLen 255 e (downPos idx) with
  | none =>
    simp only [Option.none_bind, beq_iff_eq]
    constructor
    · intro h; simp at h
    · rintro ⟨h3, h4⟩
      have : runLen 255 e (downPos idx) = some (idx - 1 - k) := by
        rw [hiff, downPos_length]
        refine ⟨by omega, ?_, ?_, ?_⟩
        · intro a ha
          rw [downPos_getD idx a (by omega)]
          exact h4 _ (by omega) (by omega)
        · rw [downPos_getD idx _ (by omega)]
          have : idx - 1 - (idx - 1 - k) = k := by omega
          rw [this]; exact h3
        · rw [downPos_getD idx _ (by omega)]
          exact testBit_255 _ (by omega)
      rw [hr] at this
      simp at this
  | some n =>
    obtain ⟨hn, hen, hne, _⟩ := (hiff n).1 hr
    rw [downPos_length] at hn
    rw [downPos_getD idx n hn] at hne
    simp only [Option.some_bind, downPos_getElem? idx n hn, beq_iff_eq, Option.some.injEq]
    constructor
    · intro h
      subst h
      refine ⟨hne, ?_⟩
      intro j hj1 hj2
      have := hen (idx - 1 - j) (by omega)
      rw [downPos_getD idx _ (by omega)] at this
      have e2 : idx - 1 - (idx - 1 - j) = j := by omega
      rwa [e2] at this
    · rintro ⟨h3, h4⟩
      rcases Nat.lt_trichotomy k (idx - 1 - n) with h | h | h
      · have := h4 (idx - 1 - n) h (by omega)
        rw [hne] at this
        simp at this
      · exact h.symm
      · have := hen (idx - 1 - k) (by omega)
        rw [downPos_getD idx _ (by omega)] at this
        have e2 : idx - 1 - (idx - 1 - k) = k := by omega
        rw [e2, h3] at this
        simp at this

/-- C7 (boundary table): `outsides[idx][e]` is an 8-bit value with at most two bits set and
bit `idx` clear; on each side of `idx` its only bit is the nearest position clear in `e`,
and it has no bit on a side where every position out to the line end is set in `e`. -/
theorem outsides_boundary (T0 T : Tables) (hT : initFlips T0 = some T) (idx e : Nat)
    (hidx : idx < 8) (he : e < 256) :
    T.outsides idx e < 256 ∧ bitCount (T.outsides idx e) ≤ 2 ∧
    (T.outsides idx e).testBit idx = false ∧
    (∀ k, idx < k → k < 8 → ((T.outsides idx e).testBit k = true ↔
      (e.testBit k = false ∧ ∀ j, idx < j → j < k → e.testBit j = true))) ∧
    (∀ k, k < idx → ((T.outsides idx e).testBit k = true ↔
      (e.testBit k = false ∧ ∀ j, k < j → j < idx → e.testBit j = true))) := by
  rw [initFlips_eq] at hT
  cases hT
  obtain ⟨_, ho, _⟩ := fillTables_spec T0
  rw [ho idx e hidx he]
  have hc := outsideChk_all idx hidx e he
  simp only [outsideChk, Bool.and_eq_true, decide_eq_true_eq, Bool.not_eq_true'] at hc
  obtain ⟨⟨⟨⟨hlt, _⟩, _⟩, hbit⟩, hcnt⟩ := hc
  refine ⟨hlt, ?_, hbit, ?_, ?_⟩
  · rw [bitCount_lt_256 _ hlt]
    exact hcnt
  · intro k h1 h2
    exact outsideOf_up_bit idx e k hidx he h1 h2
  · intro k h1
    exact outsideOf_down_bit idx e k hidx he h1

theorem outsides_boundary_witness :
    (fillTables zeroTables).outsides 3 0x36 = 0x41 ∧
    ((fillTables zeroTables).outsides 3 0x36 < 256 ∧
    bitCount ((fillTables zeroTables).outsides 3 0x36) ≤ 2 ∧
    ((fillTables zeroTables).outsides 3 0x36).testBit 3 = false ∧
    (∀ k, 3 < k → k < 8 → (((fillTables zeroTables).outsides 3 0x36).testBit k = true ↔
      ((0x36 : Nat).testBit k = false ∧ ∀ j, 3 < j → j < k → (0x36 : Nat).testBit j = true))) ∧
    (∀ k, k < 3 → (((fillTables zeroTables).outsides 3 0x36).testBit k = true ↔
      ((0x36 : Nat).testBit k = false ∧
        ∀ j, k < j → j < 3 → (0x36 : Nat).testBit j = true)))) :=
  ⟨by rw [(fillTables_spec zeroTables).2.1 3 0x36 (by decide) (by decide)]; decide,
   outsides_boundary zeroTables (fillTables zeroTables) (initFlips_eq zeroTables) 3 0x36
    (by decide) (by decide)⟩

theorem compl_true_iff (m k : Nat) (hk : k < 8) :
    (255 ^^^ m).testBit k = true ↔ m.testBit k = false := by
  rw [testBit_compl8 m k hk]
  cases m.testBit k <;> simp

theorem compl_false_iff (m k : Nat) (hk : k < 8) :
    (255 ^^^ m).testBit k = false ↔ m.testBit k = true := by
  rw [testBit_compl8 m k hk]
  cases m.testBit k <;> simp

/-- The run table in terms of `lineFlips` against the complement pattern, and the count
table in terms of `gap`. -/
theorem insideOf_eq (idx m : Nat) (hidx : idx < 8) (hm : m < 256) :
    (insideOf idx m).2 < 256 ∧
    (insideOf idx m).2 = lineFlips m (255 ^^^ m) (downPos idx) |||
      lineFlips m (255 ^^^ m) (upPos idx) ∧
    (insideOf idx m).1 = (((gap m (downPos idx)).getD 0 + (gap m (upPos idx)).getD 0 : Nat) : Int) ∧
    gap m (downPos idx) = runLen m (255 ^^^ m) (downPos idx) ∧
    gap m (upPos idx) = runLen m (255 ^^^ m) (upPos idx) := by
  have hi := insideChk_all idx hidx m hm
  simp only [insideChk, Bool.and_eq_true, decide_eq_true_eq] at hi
  obtain ⟨⟨hlt, hcnt⟩, hval⟩ := hi
  have gd : gap m (downPos idx) = runLen m (255 ^^^ m) (downPos idx) :=
    gap_eq_runLen m _ _ (fun k hk => testBit_compl8 m k (by
      have := (mem_downPos k idx).1 hk; omega))
  have gu : gap m (upPos idx) = runLen m (255 ^^^ m) (upPos idx) :=
    gap_eq_runLen m _ _ (fun k hk => testBit_compl8 m k (by
      have := (mem_upPos k idx).1 hk; omega))
  refine ⟨hlt, ?_, hcnt, gd, gu⟩
  rw [hval, gd, gu, lineFlips_eq_take, lineFlips_eq_take]

/-- C8 (run table): `insides[idx][m]` holds, on each side of `idx`, exactly the positions
strictly between `idx` and the nearest position set in `m` (nothing when the side has no
set position), and `counts[idx][m]` is the sum of the two run lengths. -/
theorem insides_run (T0 T : Tables) (hT : initFlips T0 = some T) (idx m : Nat)
    (hidx : idx < 8) (hm : m < 256) :
    T.insides idx m < 256 ∧
    (∀ j, idx < j → j < 8 → ((T.insides idx m).testBit j = true ↔
      ∃ i, j < i ∧ i < 8 ∧ m.testBit i = true ∧ ∀ k, idx < k → k < i → m.testBit k = false)) ∧
    (∀ j, j < idx → ((T.insides idx m).testBit j = true ↔
      ∃ i, i < j ∧ m.testBit i = true ∧ ∀ k, i < k → k < idx → m.testBit k = false)) ∧
    ∃ cD cU : Nat, T.counts idx m = ((cD + cU : Nat) : Int) ∧
      ((∃ i, i < idx ∧ m.testBit i = true ∧ (∀ k, i < k → k < idx → m.testBit k = false) ∧
          cD = idx - i - 1) ∨
        ((∀ i, i < idx → m.testBit i = false) ∧ cD = 0)) ∧
      ((∃ i, idx < i ∧ i < 8 ∧ m.testBit i = true ∧
          (∀ k, idx < k → k < i → m.testBit k = false) ∧ cU = i - idx - 1) ∨
        ((∀ i, idx < i → i < 8 → m.testBit i = false) ∧ cU = 0)) := by
  rw [initFlips_eq] at hT
  cases hT
  obtain ⟨hc, _, hi, _⟩ := fillTables_spec T0
  obtain ⟨hlt, hval, hcnt, gd, gu⟩ := insideOf_eq idx m hidx hm
  rw [hi idx m hidx hm, hc idx m hidx hm, Nat.mod_eq_of_lt hlt]
  refine ⟨hlt, ?_, ?_, (gap m (downPos idx)).getD 0, (gap m (upPos idx)).getD 0, hcnt, ?_, ?_⟩
  · intro j h1 h2
    rw [hval, Nat.testBit_or, Bool.or_eq_true, lineFlips_down_bit,
      lineFlips_up_bit m _ idx j hidx]
    constructor
    · rintro (⟨i, _, h4, _⟩ | ⟨i, _, h4, h5, h6, _, h8⟩)
      · omega
      · exact ⟨i, h4, h5, h6, fun k hk1 hk2 =>
          (compl_true_iff m k (by omega)).1 (h8 k hk1 hk2)⟩
    · rintro ⟨i, h4, h5, h6, h8⟩
      exact Or.inr ⟨i, h1, h4, h5, h6, (compl_false_iff m i h5).2 h6, fun k hk1 hk2 =>
        (compl_true_iff m k (by omega)).2 (h8 k hk1 hk2)⟩
  · intro j h1
    rw [hval, Nat.testBit_or, Bool.or_eq_true, lineFlips_down_bit,
      lineFlips_up_bit m _ idx j hidx]
    constructor
    · rintro (⟨i, h3, _, h6, _, h8⟩ | ⟨i, h3, _⟩)
      · exact ⟨i, h3, h6, fun k hk1 hk2 =>
          (compl_true_iff m k (by omega)).1 (h8 k hk1 hk2)⟩
      · omega
    · rintro ⟨i, h3, h6, h8⟩
      exact Or.inl ⟨i, h3, h1, h6, (compl_false_iff m i (by omega)).2 h6, fun k hk1 hk2 =>
        (compl_true_iff m k (by omega)).2 (h8 k hk1 hk2)⟩
  · cases hg : gap m (downPos idx) with
    | none =>
      right
      refine ⟨fun i hi => (gap_eq_none_iff m _).1 hg i ((mem_downPos i idx).2 hi), rfl⟩
    | some n =>
      left
      rw [gd] at hg
      obtain ⟨hn, hen, _, hmn⟩ := (runLen_eq_some_iff m _ _ n).1 hg
      rw [downPos_length] at hn
      rw [downPos_getD idx n hn] at hmn
      refine ⟨idx - 1 - n, by omega, hmn, ?_, by simp only [Option.getD_some]; omega⟩
      intro k hk1 hk2
      have := hen (idx - 1 - k) (by omega)
      rw [downPos_getD idx _ (by omega)] at this
      have e2 : idx - 1 - (idx - 1 - k) = k := by omega
      rw [e2] at this
      exact (compl_true_iff m k (by omega)).1 this
  · cases hg : gap m (upPos idx) with
    | none =>
      right
      refine ⟨fun i hi1 hi2 => (gap_eq_none_iff m _).1 hg i
        ((mem_upPos i idx).2 ⟨hi1, by omega⟩), rfl⟩
    | some n =>
      left
      rw [gu] at hg
      obtain ⟨hn, hen, _, hmn⟩ := (runLen_eq_some_iff m _ _ n).1 hg
      rw [upPos_length] at hn
      rw [upPos_getD idx n hn] at hmn
      refine ⟨idx + 1 + n, by omega, by omega, hmn, ?_, by simp only [Option.getD_some]; omega⟩
      intro k hk1 hk2
      have := hen (k - idx - 1) (by omega)
      rw [upPos_getD idx _ (by omega)] at this
      have e2 : idx + 1 + (k - idx - 1) = k := by omega
      rw [e2] at this
      exact (compl_true_iff m k (by omega)).1 this

theorem insides_run_witness :
    (fillTables zeroTables).insides 3 0x41 = 0x36 ∧ (fillTables zeroTables).counts 3 0x41 = 4 ∧
    ((fillTables zeroTables).insides 3 0x41 < 256 ∧
    (∀ j, 3 < j → j < 8 → (((fillTables zeroTables).insides 3 0x41).testBit j = true ↔
      ∃ i, j < i ∧ i < 8 ∧ (0x41 : Nat).testBit i = true ∧
        ∀ k, 3 < k → k < i → (0x41 : Nat).testBit k = false)) ∧
    (∀ j, j < 3 → (((fillTables zeroTables).insides 3 0x41).testBit j = true ↔
      ∃ i, i < j ∧ (0x41 : Nat).testBit i = true ∧
        ∀ k, i < k → k < 3 → (0x41 : Nat).testBit k = false)) ∧
    ∃ cD cU : Nat, (fillTables zeroTables).counts 3 0x41 = ((cD + cU : Nat) : Int) ∧
      ((∃ i, i < 3 ∧ (0x41 : Nat).testBit i = true ∧
          (∀ k, i < k → k < 3 → (0x41 : Nat).testBit k = false) ∧ cD = 3 - i - 1) ∨
        ((∀ i, i < 3 → (0x41 : Nat).testBit i = false) ∧ cD = 0)) ∧
      ((∃ i, 3 < i ∧ i < 8 ∧ (0x41 : Nat).testBit i = true ∧
          (∀ k, 3 < k → k < i → (0x41 : Nat).testBit k = false) ∧ cU = i - 3 - 1) ∨
        ((∀ i, 3 < i → i < 8 → (0x41 : Nat).testBit i = false) ∧ cU = 0))) :=
  ⟨by rw [(fillTables_spec zeroTables).2.2.1 3 0x41 (by decide) (by decide)]; decide,
   by rw [(fillTables_spec zeroTables).1 3 0x41 (by decide) (by decide)]; decide,
   insides_run zeroTables (fillTables zeroTables) (initFlips_eq zeroTables) 3 0x41
    (by decide) (by decide)⟩

/-- C9 (zero-mover invariant): after the table-filling loops of `initFlips`,
`counts[idx][0] == 0` and `insides[idx][0] == 0` for every `idx` in `0..7`, so the closing
assertions hold and `initFlips` returns the filled tables. -/
theorem zero_mover_invariant (T0 : Tables) :
    (∀ idx, idx < 8 →
      (fillTables T0).counts idx 0 = 0 ∧ (fillTables T0).insides idx 0 = 0) ∧
    assertCounts (fillTables T0) 8 0 = true ∧
    initFlips T0 = some (fillTables T0) := by
  obtain ⟨hc, _, hi, _⟩ := fillTables_spec T0
  have h0 : ∀ idx, idx < 8 →
      (fillTables T0).counts idx 0 = 0 ∧ (fillTables T0).insides idx 0 = 0 := by
    intro idx hidx
    rw [hc idx 0 hidx (by omega), hi idx 0 hidx (by omega), insideOf_zero idx hidx]
    exact ⟨rfl, rfl⟩
  exact ⟨h0, assertCounts_ok _ (fun a ha => (h0 a ha).1) 8 0 (by omega), initFlips_eq T0⟩

set_option maxRecDepth 1000000 in
theorem bmi2Chk_all : ∀ sq < 64, bmi2Chk sq = true := by decide!

/-! ## Bit extract and bit deposit -/

theorem testBit_ite_shift (b : Bool) (k j : Nat) :
    (if b = true then 1 <<< k else 0).testBit j = (b && decide (k = j)) := by
  cases b
  · simp
  · simp [Nat.one_shiftLeft, Nat.testBit_two_pow]

theorem pextLoop_eq (x mask : Nat) : ∀ n m k dest,
    pextLoop x mask n m k dest
      = dest ||| denseOf x ((List.range' m n).filter fun i => mask.testBit i) k := by
  intro n
  induction n with
  | zero => intro m k dest; simp [pextLoop, denseOf]
  | succ n ih =>
    intro m k dest
    simp only [pextLoop, List.range'_succ, List.filter_cons]
    by_cases h : mask.testBit m = true
    · rw [if_pos h, if_pos h, ih, denseOf, Nat.or_assoc]
    · rw [if_neg h, if_neg h, ih]

theorem pdepLoop_eq (x mask : Nat) : ∀ n m k dest,
    pdepLoop x mask n m k dest
      = dest ||| depositOf x ((List.range' m n).filter fun i => mask.testBit i) k := by
  intro n
  induction n with
  | zero => intro m k dest; simp [pdepLoop, depositOf]
  | succ n ih =>
    intro m k dest
    simp only [pdepLoop, List.range'_succ, List.filter_cons]
    by_cases h : mask.testBit m = true
    · rw [if_pos h, if_pos h, ih, depositOf, Nat.or_assoc]
    · rw [if_neg h, if_neg h, ih]

theorem denseOf_bit (x : Nat) : ∀ (ks : List Nat) (k j : Nat),
    (denseOf x ks k).testBit j =
      (decide (k ≤ j) && (match ks[j - k]? with
        | some t => x.testBit t
        | none => false)) := by
  intro ks
  induction ks with
  | nil => intro k j; simp [denseOf]
  | cons t ks ih =>
    intro k j
    rw [denseOf, Nat.testBit_or, testBit_ite_shift, ih]
    rcases Nat.lt_trichotomy j k with h | h | h
    · have h1 : ¬ k ≤ j := by omega
      have h2 : ¬ k + 1 ≤ j := by omega
      have h3 : ¬ k = j := by omega
      simp [h1, h2, h3]
    · subst h
      simp
    · have h1 : k ≤ j := by omega
      have h2 : k + 1 ≤ j := by omega
      have h3 : ¬ k = j := by omega
      have h4 : j - k = (j - (k + 1)) + 1 := by omega
      simp only [h1, h2, h3, decide_True, decide_False, Bool.and_false, Bool.false_or,
        Bool.true_and]
      rw [h4, List.getElem?_cons_succ]

theorem depositOf_bit (x : Nat) : ∀ (ks : List Nat) (k t : Nat),
    (depositOf x ks k).testBit t = true ↔ ∃ i, ks[i]? = some t ∧ x.testBit (k + i) = true := by
  intro ks
  induction ks with
  | nil => intro k t; simp [depositOf]
  | cons u ks ih =>
    intro k t
    rw [depositOf, Nat.testBit_or, Bool.or_eq_true, testBit_ite_shift, ih]
    constructor
    · rintro (h | ⟨i, h1, h2⟩)
      · simp only [Bool.and_eq_true, decide_eq_true_eq] at h
        exact ⟨0, by simp [h.2], by simpa using h.1⟩
      · exact ⟨i + 1, by simpa using h1, by rw [← Nat.add_assoc, Nat.add_right_comm]; exact h2⟩
    · rintro ⟨i, h1, h2⟩
      cases i with
      | zero =>
        left
        simp only [List.getElem?_cons_zero, Option.some.injEq] at h1
        simp only [Nat.add_zero] at h2
        simp [h1, h2]
      | succ i =>
        right
        refine ⟨i, by simpa using h1, ?_⟩
        rw [Nat.add_right_comm, Nat.add_assoc]
        exact h2

theorem bitList_eq (mask : Nat) :
    bitList mask = (List.range' 0 64).filter fun i => mask.testBit i := by
  unfold bitList
  rw [List.range_eq_range']

/-- Bit `j` of `_pext_u64(x, mask)` is the bit of `x` at the `j`-th set bit of `mask`. -/
theorem pext_bit (x mask j : Nat) :
    (pext_u64 x mask).testBit j =
      (match denseAt mask j with
       | some t => x.testBit t
       | none => false) := by
  unfold pext_u64 denseAt
  rw [pextLoop_eq, Nat.zero_or, denseOf_bit, ← bitList_eq]
  simp

/-- Bit `t` of `_pdep_u64(x, mask)` is set iff `t` is the `i`-th set bit of `mask` for some
set bit `i` of `x`. -/
theorem pdep_bit (x mask t : Nat) :
    (pdep_u64 x mask).testBit t = true ↔ ∃ i, denseAt mask i = some t ∧ x.testBit i = true := by
  unfold pdep_u64 denseAt
  rw [pdepLoop_eq, Nat.zero_or, depositOf_bit, ← bitList_eq]
  simp

theorem pext_lt (x mask : Nat) (h : (bitList mask).length ≤ 8) : pext_u64 x mask < 256 := by
  have h2 : (256 : Nat) = 2 ^ 8 := by norm_num
  rw [h2]
  apply Nat.lt_pow_two_of_testBit
  intro i hi
  rw [pext_bit]
  have : denseAt mask i = none := by
    unfold denseAt
    rw [List.getElem?_eq_none_iff]
    omega
  rw [this]

/-- `_pdep_u64` of two runs of dense positions is the union of the squares they stand
for. -/
theorem pdep_runs (mask : Nat) (Pd Pu Rd Ru : List Nat) (a b nD nU : Nat)
    (hvd : Pd.map (denseAt mask) = Rd.map some ++ List.replicate a none)
    (hvu : Pu.map (denseAt mask) = Ru.map some ++ List.replicate b none)
    (hD : nD ≤ Rd.length) (hU : nU ≤ Ru.length) :
    pdep_u64 (maskOf (Pd.take nD) ||| maskOf (Pu.take nU)) mask
      = maskOf (Rd.take nD) ||| maskOf (Ru.take nU) := by
  have key : ∀ (P R : List Nat) (c n : Nat),
      P.map (denseAt mask) = R.map some ++ List.replicate c none → n ≤ R.length →
      ∀ t, (∃ i, denseAt mask i = some t ∧ i ∈ P.take n) ↔ t ∈ R.take n := by
    intro P R c n hv hn t
    have e1 : (P.take n).map (denseAt mask) = (R.take n).map some := by
      rw [List.map_take, hv, List.take_append_of_le_length (by simpa using hn),
        ← List.map_take]
    constructor
    · rintro ⟨i, h1, h2⟩
      have : some t ∈ (P.take n).map (denseAt mask) := by
        rw [← h1]; exact List.mem_map_of_mem _ h2
      rw [e1, List.mem_map] at this
      obtain ⟨u, hu1, hu2⟩ := this
      cases hu2
      exact hu1
    · intro ht
      have : some t ∈ (R.take n).map some := List.mem_map_of_mem _ ht
      rw [← e1, List.mem_map] at this
      obtain ⟨i, hi1, hi2⟩ := this
      exact ⟨i, hi2, hi1⟩
  apply Nat.eq_of_testBit_eq
  intro t
  rw [Bool.eq_iff_iff, pdep_bit]
  simp only [Nat.testBit_or, Bool.or_eq_true, testBit_maskOf, decide_eq_true_eq]
  rw [← key Pd Rd a nD hvd hD t, ← key Pu Ru b nU hvu hU t]
  constructor
  · rintro ⟨i, h1, h2 | h2⟩
    · exact Or.inl ⟨i, h1, h2⟩
    · exact Or.inr ⟨i, h1, h2⟩
  · rintro (⟨i, h1, h2⟩ | ⟨i, h1, h2⟩)
    · exact ⟨i, h1, Or.inl h2⟩
    · exact ⟨i, h1, Or.inr h2⟩

/-! ## One direction of the BMI2 variant -/

theorem bits_view (g : Nat → Nat) (pos : Nat → Option Nat)
    (hg : ∀ x k, k < 8 → (g x).testBit k =
      (match pos k with
       | some t => x.testBit t
       | none => false))
    (P R : List Nat) (n : Nat) (hP : ∀ k ∈ P, k < 8)
    (hv : P.map pos = R.map some ++ List.replicate n none) (x : Nat) :
    P.map (fun k => (g x).testBit k)
      = R.map (fun t => x.testBit t) ++ List.replicate n false := by
  have e1 : P.map (fun k => (g x).testBit k)
      = (P.map pos).map (fun o => match o with
          | some t => x.testBit t
          | none => false) := by
    rw [List.map_map]
    apply List.map_congr_left
    intro k hk
    exact hg x k (hP k hk)
  rw [e1, hv]
  simp [List.map_append, List.map_map, Function.comp_def]

/-- Soundness of one direction for any gather `g` that reads line position `k` from square
`pos k` and any scatter `S` that maps runs of positions to runs of squares. -/
theorem line_sound_gen (g : Nat → Nat) (pos : Nat → Option Nat) (S : Nat → Nat) (idx a b : Nat)
    (Rd Ru : List Nat)
    (hg : ∀ x k, k < 8 → (g x).testBit k =
      (match pos k with
       | some t => x.testBit t
       | none => false))
    (hlt : ∀ x, g x < 256) (hidx : idx < 8)
    (hview : ((downPos idx).map pos = Rd.map some ++ List.replicate a none ∧
        (upPos idx).map pos = Ru.map some ++ List.replicate b none) ∨
      ((∀ k, k < 8 → pos k = none) ∧ Rd.length ≤ 1 ∧ Ru.length ≤ 1))
    (hS : ∀ nD nU, nD ≤ Rd.length - 1 → nU ≤ Ru.length - 1 →
      S (maskOf ((downPos idx).take nD) ||| maskOf ((upPos idx).take nU))
        = maskOf (Rd.take nD) ||| maskOf (Ru.take nU))
    (mover enemy : Nat) :
    S ((insideOf idx (g mover &&& outsideOf idx (g enemy))).2 % 256)
      = lineFlips mover enemy Rd ||| lineFlips mover enemy Ru := by
  obtain ⟨hfi, _, _⟩ := line_flip idx (g mover) (g enemy) hidx (hlt enemy)
  rw [hfi]
  have hPd : ∀ k ∈ downPos idx, k < 8 := fun k hk => by
    have := (mem_downPos k idx).1 hk; omega
  have hPu : ∀ k ∈ upPos idx, k < 8 := fun k hk => by
    have := (mem_upPos k idx).1 hk; omega
  have hd := runLen_getD_le mover enemy Rd
  have hu := runLen_getD_le mover enemy Ru
  rcases hview with ⟨hvd, hvu⟩ | ⟨hnone, hld, hlu⟩
  · have e1 := runLen_view (g mover) (g enemy) mover enemy Rd (downPos idx) _
      (bits_view g pos hg _ _ _ hPd hvd mover) (bits_view g pos hg _ _ _ hPd hvd enemy)
    have e2 := runLen_view (g mover) (g enemy) mover enemy Ru (upPos idx) _
      (bits_view g pos hg _ _ _ hPu hvu mover) (bits_view g pos hg _ _ _ hPu hvu enemy)
    rw [lineFlips_eq_take, lineFlips_eq_take, e1, e2, hS _ _ hd hu, lineFlips_eq_take,
      lineFlips_eq_take]
  · have g0 : ∀ x, g x = 0 := by
      intro x
      apply Nat.eq_of_testBit_eq
      intro k
      rw [Nat.zero_testBit]
      by_cases hk : k < 8
      · rw [hg x k hk, hnone k hk]
      · apply Nat.testBit_lt_two_pow
        have h1 := hlt x
        have h2 : (256 : Nat) = 2 ^ 8 := by norm_num
        rw [h2] at h1
        exact lt_of_lt_of_le h1 (Nat.pow_le_pow_right (by norm_num) (by omega))
    have r0 : ∀ P, runLen 0 0 P = none := fun P => runLen_none 0 0 P (by simp) (by simp)
    have hs := hS 0 0 (by omega) (by omega)
    rw [g0, g0, lineFlips_eq_take 0 0, lineFlips_eq_take 0 0, r0, r0]
    rw [lineFlips_short _ _ Rd hld, lineFlips_short _ _ Ru hlu]
    simpa using hs

theorem denseAt_zero (k : Nat) : denseAt 0 k = none := by
  unfold denseAt
  have : bitList 0 = [] := by decide
  rw [this]
  rfl

theorem pdep_zero_mask (x : Nat) : pdep_u64 x 0 = 0 := by
  apply Nat.eq_of_testBit_eq
  intro t
  rw [Nat.zero_testBit]
  by_contra h
  have h' : (pdep_u64 x 0).testBit t = true := by simpa using h
  obtain ⟨i, hi, _⟩ := (pdep_bit x 0 t).1 h'
  rw [denseAt_zero] at hi
  simp at hi

/-- One `_pext_u64`/`_pdep_u64` block of the BMI2 `flips`, for a mask that passed
`denseChk`. -/
theorem dense_sound (mask pos : Nat) (Rd Ru : List Nat) (h : denseChk mask pos Rd Ru = true)
    (mover enemy : Nat) :
    pos < 8 ∧ pext_u64 enemy mask < 256 ∧
    pdep_u64 ((insideOf pos (pext_u64 mover mask &&& outsideOf pos (pext_u64 enemy mask))).2
        % 256) mask
      = lineFlips mover enemy Rd ||| lineFlips mover enemy Ru := by
  simp only [denseChk, Bool.and_eq_true, Bool.or_eq_true, decide_eq_true_eq, beq_iff_eq] at h
  obtain ⟨⟨⟨hlen, _⟩, hpos⟩, hview⟩ := h
  refine ⟨hpos, pext_lt enemy mask hlen, ?_⟩
  apply line_sound_gen (fun x => pext_u64 x mask) (denseAt mask) (fun p => pdep_u64 p mask) pos
    ((downPos pos).length - Rd.length) ((upPos pos).length - Ru.length) Rd Ru
    (fun x k _ => pext_bit x mask k) (fun x => pext_lt x mask hlen) hpos
  · rcases hview with ⟨hvd, hvu⟩ | ⟨⟨hm0, hld⟩, hlu⟩
    · exact Or.inl ⟨hvd, hvu⟩
    · right
      subst hm0
      exact ⟨fun k _ => denseAt_zero k, hld, hlu⟩
  · intro nD nU hD hU
    rcases hview with ⟨hvd, hvu⟩ | ⟨⟨hm0, hld⟩, hlu⟩
    · exact pdep_runs mask _ _ Rd Ru _ _ nD nU hvd hvu (by omega) (by omega)
    · subst hm0
      have h1 : nD = 0 := by omega
      have h2 : nU = 0 := by omega
      subst h1
      subst h2
      rw [pdep_zero_mask]
      simp [maskOf]

/-! ## Assembling the BMI2 variant -/

/-- The two table reads of a line lookup on the filled tables are in bounds. -/
theorem line_reads (T0 : Tables) (idx m e : Nat) (hidx : idx < 8) (he : e < 256) :
    rd2 8 256 (fillTables T0).outsides idx e = some (outsideOf idx e) ∧
    rd2 8 256 (fillTables T0).insides idx (m &&& outsideOf idx e)
      = some ((insideOf idx (m &&& outsideOf idx e)).2 % 256) := by
  obtain ⟨_, _, hx⟩ := line_flip idx m e hidx he
  obtain ⟨_, ho, hi, _⟩ := fillTables_spec T0
  constructor
  · rw [rd2_some _ _ _ _ _ hidx he, ho _ _ hidx he]
  · rw [rd2_some _ _ _ _ _ hidx hx, hi _ _ hidx hx]

theorem shiftLeft_three (a : Nat) : a <<< 3 = a * 8 := by
  rw [Nat.shiftLeft_eq]

/-- The BMI2 variant of `flips` on the filled tables computes `flipsSem`. -/
theorem bmi2_flips_sem (T0 : Tables) (sq mover enemy : Nat) (hsq : sq < 64) :
    bmi2.flips (fillTables T0) sq mover enemy = some (flipsSem sq mover enemy) := by
  have hc := bmi2Chk_all sq hsq
  unfold bmi2Chk at hc
  cases hm : dflip_array[sq]? with
  | none => rw [hm] at hc; simp at hc
  | some m =>
    rw [hm] at hc
    simp only [Bool.and_eq_true] at hc
    obtain ⟨⟨h9, hcol⟩, h7⟩ := hc
    have hcol8 : sq &&& 7 < 8 := by
      have := @Nat.and_le_right sq 7; omega
    obtain ⟨p9, l9, s9⟩ := dense_sound _ _ _ _ h9 mover enemy
    obtain ⟨pc, lc, sc⟩ := dense_sound _ _ _ _ hcol mover enemy
    obtain ⟨p7, l7, s7⟩ := dense_sound _ _ _ _ h7 mover enemy
    have hlt : (enemy >>> (sq >>> 3 * 8)) &&& 0xFF < 256 :=
      Nat.and_lt_two_pow _ (n := 8) (by norm_num)
    have r0 := line_reads T0 (sq &&& 7) (mover >>> (sq >>> 3 * 8))
      ((enemy >>> (sq >>> 3 * 8)) &&& 0xFF) hcol8 hlt
    have r9 := line_reads T0 _ (pext_u64 mover m.d9mask) _ p9 l9
    have rc := line_reads T0 _ (pext_u64 mover (u64 (0x0101010101010101 <<< (sq &&& 7)))) _ pc lc
    have r7 := line_reads T0 _ (pext_u64 mover m.d7mask) _ p7 l7
    have hrow := row_sound sq (rowChk_all sq hsq) hsq mover enemy
    rw [shiftLeft_three] at hrow
    obtain ⟨_, _, _, _, _, _, _, hnb⟩ := fillTables_spec T0
    unfold bmi2.flips
    simp only [Option.bind_eq_bind, Option.some_bind, Option.pure_def, Nat.zero_or,
      rd1_some _ _ _ hsq, hnb sq hsq, hm, r0.1, r0.2, r9.1, r9.2, rc.1, rc.2, r7.1, r7.2]
    by_cases hn : neighborsOf sq &&& enemy = 0
    · rw [if_neg (by simpa using hn), flipsSem_zero sq mover enemy hsq hn]
    · rw [if_pos hn, hrow, s9, sc, s7]
      unfold flipsSem
      rw [Nat.or_comm (lineFlips mover enemy (rayOf sq (-1) 1))]

/-! ## Concrete scenarios -/

theorem mask_eq (s : Nat) (hs : s < 64) : mask s = 2 ^ s := by
  unfold mask u64
  rw [Nat.one_shiftLeft]
  apply Nat.mod_eq_of_lt
  have : (18446744073709551616 : Nat) = 2 ^ 64 := by norm_num
  rw [this]
  exact Nat.pow_lt_pow_right (by norm_num) hs

theorem scenario1_sem :
    flipsSem 26 (mask 28 ||| mask 35) (mask 27 ||| mask 36) = mask 27 := by decide

theorem scenario1_parts :
    u64 (((insideOf 2 (((mask 28 ||| mask 35) >>> (3 <<< 3)) &&&
      outsideOf 2 (((mask 27 ||| mask 36) >>> (3 <<< 3)) &&& 0xFF))).2 % 256) <<< (3 * 8))
        = mask 27 ∧
    d9FlipOf 6 ((insideOf 2 (gather (mask 28 ||| mask 35) 0x4020100804020100 0x101010101010101
      &&& outsideOf 2 (gather (mask 27 ||| mask 36) 0x4020100804020100 0x101010101010101))).2
        % 256) = 0 ∧
    colFlipOf 2 ((insideOf 3 (gather (mask 28 ||| mask 35) 0x404040404040404 0x40810204081020
      &&& outsideOf 3 (gather (mask 27 ||| mask 36) 0x404040404040404 0x40810204081020))).2
        % 256) = 0 ∧
    d7FlipOf 3 ((insideOf 2 (gather (mask 28 ||| mask 35) 0x10204081020 0x101010101010101
      &&& outsideOf 2 (gather (mask 27 ||| mask 36) 0x10204081020 0x101010101010101))).2
        % 256) = 0 := by decide

/-- C11 (concrete scenario 1): with mover = {28, 35} and enemy = {27, 36}, `flips(26, ...)`
is exactly `mask(27)`; the row contribution is `mask(27)` and the column and both diagonal
contributions are 0. -/
theorem scenario1 (T0 T : Tables) (hT : initFlips T0 = some T) :
    flips T 26 (mask 28 ||| mask 35) (mask 27 ||| mask 36) = some (mask 27) ∧
    (rowFlipIndex T 3 2 (mask 28 ||| mask 35) (mask 27 ||| mask 36)).bind
      (fun rowIndex => rd2 8 256 T.rowFlips 3 rowIndex) = some (mask 27) ∧
    ∃ m, flipArray[26]? = some m ∧
      (flipIndex T 2 (mask 28 ||| mask 35) (mask 27 ||| mask 36) m.d9mask m.d9mult).bind
        (fun d9Index => rd2 12 256 T.d9Flips m.d9b d9Index) = some 0 ∧
      (flipIndex T 3 (mask 28 ||| mask 35) (mask 27 ||| mask 36) m.colmask m.colmult).bind
        (fun colIndex => rd2 8 256 T.colFlips 2 colIndex) = some 0 ∧
      (flipIndex T 2 (mask 28 ||| mask 35) (mask 27 ||| mask 36) m.d7mask m.d7mult).bind
        (fun d7Index => rd2 12 256 T.d7Flips m.d7b d7Index) = some 0 := by
  rw [initFlips_eq] at hT
  cases hT
  obtain ⟨_, _, _, hrf, hcf, hd9, hd7, _⟩ := fillTables_spec T0
  obtain ⟨p1, p2, p3, p4⟩ := scenario1_parts
  refine ⟨?_, ?_, ⟨0x4020100804020100, 0x101010101010101, 0x404040404040404,
    0x40810204081020, 0x10204081020, 0x101010101010101, 6, 3⟩, rfl, ?_, ?_, ?_⟩
  · rw [flips_sem T0 26 _ _ (by decide), scenario1_sem]
  · rw [rowFlipIndex_eq T0 3 2 _ _ (by decide), Option.some_bind,
      rd2_some _ _ _ _ _ (by decide) (mod256_lt _), hrf _ _ (by decide) (mod256_lt _), p1]
  · rw [flipIndex_eq T0 2 _ _ _ _ (by decide), Option.some_bind,
      rd2_some _ _ _ _ _ (by decide) (mod256_lt _), hd9 _ _ (by decide) (mod256_lt _),
      if_pos (by decide), p2]
  · rw [flipIndex_eq T0 3 _ _ _ _ (by decide), Option.some_bind,
      rd2_some _ _ _ _ _ (by decide) (mod256_lt _), hcf _ _ (by decide) (mod256_lt _), p3]
  · rw [flipIndex_eq T0 2 _ _ _ _ (by decide), Option.some_bind,
      rd2_some _ _ _ _ _ (by decide) (mod256_lt _), hd7 _ _ (by decide) (mod256_lt _),
      if_pos (by decide), p4]

theorem scenario1_witness :
    flips (fillTables zeroTables) 26 (mask 28 ||| mask 35) (mask 27 ||| mask 36)
      = some (mask 27) :=
  (scenario1 zeroTables (fillTables zeroTables) (initFlips_eq zeroTables)).1

theorem scenario3_sem : ∀ r < 8,
    flipsSem (8 * r) (0x80 <<< (8 * r)) (0x7E <<< (8 * r)) = 0x7E <<< (8 * r) := by decide

theorem scenario3_tables :
    (insideOf 0 (0x80 &&& outsideOf 0 0x7E)).2 % 256 = 0x7E ∧ 0x80 &&& outsideOf 0 0x7E < 256 ∧
    (insideOf 0 0x80).1 = 6 ∧ ∀ r < 8, u64 (0x7E <<< (r * 8)) = 0x7E <<< (8 * r) := by decide

/-- C12 (concrete scenario 3): for every row `r`, with the enemy on columns 1..6 and the
mover on column 7 of row `r`, the move at column 0 flips exactly columns 1..6; at table
level `insides[0][0x80 & outsides[0][0x7E]] == 0x7E`, `counts[0][0x80] == 6` and
`rowFlips[r][0x7E] == 0x7E << 8r`. -/
theorem scenario3 (T0 T : Tables) (hT : initFlips T0 = some T) (r : Nat) (hr : r < 8) :
    flips T (8 * r) (0x80 <<< (8 * r)) (0x7E <<< (8 * r)) = some (0x7E <<< (8 * r)) ∧
    T.insides 0 (0x80 &&& T.outsides 0 0x7E) = 0x7E ∧
    T.counts 0 0x80 = 6 ∧
    T.rowFlips r 0x7E = 0x7E <<< (8 * r) := by
  rw [initFlips_eq] at hT
  cases hT
  obtain ⟨hc, ho, hi, hrf, _⟩ := fillTables_spec T0
  obtain ⟨q1, q2, q3, q4⟩ := scenario3_tables
  refine ⟨?_, ?_, ?_, ?_⟩
  · rw [flips_sem T0 (8 * r) _ _ (by omega), scenario3_sem r hr]
  · rw [ho 0 0x7E (by decide) (by decide), hi 0 _ (by decide) q2, q1]
  · rw [hc 0 0x80 (by decide) (by decide), q3]
  · rw [hrf r 0x7E hr (by decide), q4 r hr]

theorem scenario3_witness :
    flips (fillTables zeroTables) (8 * 7) (0x80 <<< (8 * 7)) (0x7E <<< (8 * 7))
      = some (0x7E <<< (8 * 7)) ∧
    (fillTables zeroTables).rowFlips 7 0x7E = 0x7E00000000000000 :=
  ⟨(scenario3 zeroTables (fillTables zeroTables) (initFlips_eq zeroTables) 7 (by decide)).1,
   (scenario3 zeroTables (fillTables zeroTables) (initFlips_eq zeroTables) 7 (by decide)).2.2.2⟩

/-- C16 (run-length range): every entry of `counts` lies in `0..6`, and 6 is attained at
`counts[0][0x80]`. -/
theorem counts_range (T0 T : Tables) (hT : initFlips T0 = some T) (idx m : Nat)
    (hidx : idx < 8) (hm : m < 256) :
    0 ≤ T.counts idx m ∧ T.counts idx m ≤ 6 ∧ T.counts 0 0x80 = 6 := by
  rw [initFlips_eq] at hT
  cases hT
  obtain ⟨hc, _⟩ := fillTables_spec T0
  obtain ⟨_, _, hcnt, gd, gu⟩ := insideOf_eq idx m hidx hm
  have h1 := runLen_getD_le m (255 ^^^ m) (downPos idx)
  have h2 := runLen_getD_le m (255 ^^^ m) (upPos idx)
  rw [downPos_length] at h1
  rw [upPos_length] at h2
  rw [hc idx m hidx hm, hc 0 0x80 (by decide) (by decide), hcnt, gd, gu]
  refine ⟨by omega, by omega, by decide⟩

theorem counts_range_witness :
    0 ≤ (fillTables zeroTables).counts 0 0x80 ∧ (fillTables zeroTables).counts 0 0x80 ≤ 6 ∧
    (fillTables zeroTables).counts 0 0x80 = 6 :=
  counts_range zeroTables (fillTables zeroTables) (initFlips_eq zeroTables) 0 0x80
    (by decide) (by decide)

/-! ## Square indexing -/

theorem row_eq (s : Nat) : row s = s / 8 := by
  unfold row
  rw [Nat.shiftRight_eq_div_pow]

theorem col_eq (s : Nat) : col s = s % 8 := by
  unfold col
  exact Nat.and_pow_two_sub_one_eq_mod s 3

theorem square_eq (r c : Nat) : square r c = 8 * r + c := by
  unfold square
  rw [Nat.shiftLeft_eq]
  omega

theorem mask_testBit (s i : Nat) (hs : s < 64) : (mask s).testBit i = decide (i = s) := by
  rw [mask_eq s hs, Nat.testBit_two_pow]
  by_cases h : s = i
  · subst h; simp
  · have h' : ¬ i = s := fun e => h e.symm
    simp [h, h']

/-- C18 (square indexing round trip): `row(s) = s / 8`, `col(s) = s % 8` and
`square(row(s), col(s)) = s` for every square; `row` and `col` invert `square` on
`0..7 x 0..7`; `mask(s)` has exactly bit `s` set and `mask(r, c)` exactly bit `8r + c`. -/
theorem square_roundtrip :
    (∀ s, s < 64 → row s = s / 8 ∧ col s = s % 8 ∧ square (row s) (col s) = s ∧
      ∀ i, (mask s).testBit i = decide (i = s)) ∧
    (∀ r c, r < 8 → c < 8 → row (square r c) = r ∧ col (square r c) = c ∧
      ∀ i, (maskRC r c).testBit i = decide (i = 8 * r + c)) := by
  constructor
  · intro s hs
    refine ⟨row_eq s, col_eq s, ?_, fun i => mask_testBit s i hs⟩
    rw [square_eq, row_eq, col_eq]
    omega
  · intro r c hr hc
    refine ⟨?_, ?_, ?_⟩
    · rw [row_eq, square_eq]; omega
    · rw [col_eq, square_eq]; omega
    · intro i
      unfold maskRC
      rw [square_eq, mask_testBit _ i (by omega)]

/-! ## Scatter tables -/

set_option maxRecDepth 1000000 in
theorem colFlipChk_all : ∀ p < 256, colFlipChk p = true := by decide!

set_option maxRecDepth 1000000 in
theorem diagFlipChk_all : ∀ p < 256, diagFlipChk p = true := by decide!

theorem colScatter_bit (c p t : Nat) :
    (colScatter c p).testBit t = true ↔ ∃ i, i < 8 ∧ p.testBit i = true ∧ t = 8 * i + c := by
  unfold colScatter
  simp only [testBit_maskOf, decide_eq_true_eq, List.mem_map, List.mem_filter, List.mem_range]
  constructor
  · rintro ⟨i, ⟨h1, h2⟩, h3⟩
    exact ⟨i, h1, h2, h3.symm⟩
  · rintro ⟨i, h1, h2, h3⟩
    exact ⟨i, ⟨h1, h2⟩, h3.symm⟩

/-- The claim C13 fails at column 0 and pattern `0x81`: the multiply of `initColFlips`
carries, the entry is `0x100000000000101`, and square 8 is set although bit 1 of the pattern
is clear. -/
theorem colFlips_all_patterns_counterexample :
    (fillTables zeroTables).colFlips 0 0x81 = 0x100000000000101 ∧
    ((fillTables zeroTables).colFlips 0 0x81).testBit (8 * 1 + 0) = true ∧
    (0x81 : Nat).testBit 1 = false := by
  rw [(fillTables_spec zeroTables).2.2.2.2.1 0 0x81 (by decide) (by decide)]
  decide

/-- C13 as amended: for every column `c` and every 8-bit pattern `p` that does not have both
bit 0 and bit 7 set, `colFlips[c][p]` is exactly the scatter of `p` onto column `c`: square
`8*i + c` is set iff bit `i` of `p` is set, and no other bit is set. -/
theorem colFlips_scatter (T0 T : Tables) (hT : initFlips T0 = some T) (c p : Nat)
    (hc : c < 8) (hp : p < 256) (hends : ¬ (p.testBit 0 = true ∧ p.testBit 7 = true)) :
    ∀ t, (T.colFlips c p).testBit t = true ↔ ∃ i, i < 8 ∧ p.testBit i = true ∧ t = 8 * i + c := by
  rw [initFlips_eq] at hT
  cases hT
  obtain ⟨_, _, _, _, hcf, _⟩ := fillTables_spec T0
  have hchk := colFlipChk_all p hp
  simp only [colFlipChk, Bool.or_eq_true, Bool.and_eq_true, List.all_eq_true, List.mem_range,
    beq_iff_eq] at hchk
  rcases hchk with h | h
  · exact absurd h hends
  · intro t
    rw [hcf c p hc hp, h c hc, colScatter_bit]

theorem colFlips_scatter_witness :
    ¬ ((0x7E : Nat).testBit 0 = true ∧ (0x7E : Nat).testBit 7 = true) ∧
    (((fillTables zeroTables).colFlips 2 0x7E).testBit 10 = true ↔
      ∃ i, i < 8 ∧ (0x7E : Nat).testBit i = true ∧ 10 = 8 * i + 2) :=
  ⟨by decide, colFlips_scatter zeroTables (fillTables zeroTables) (initFlips_eq zeroTables)
    2 0x7E (by decide) (by decide) (by decide) 10⟩

theorem maskOf_lt (l : List Nat) (h : ∀ t ∈ l, t < 64) : maskOf l < 2 ^ 64 := by
  apply Nat.lt_pow_two_of_testBit
  intro i hi
  rw [testBit_maskOf]
  simp only [decide_eq_false_iff_not]
  intro hmem
  have := h i hmem
  omega

theorem d9Squares_mem (d : Int) (p t : Nat) :
    t ∈ d9Squares d p ↔ ∃ c : Nat, c < 8 ∧ p.testBit c = true ∧ 0 ≤ (c : Int) + d ∧
      (c : Int) + d ≤ 7 ∧ t = 8 * ((c : Int) + d).toNat + c := by
  unfold d9Squares
  simp only [List.mem_filterMap, List.mem_range]
  constructor
  · rintro ⟨c, hc, h⟩
    by_cases hcond : p.testBit c = true ∧ 0 ≤ (c : Int) + d ∧ (c : Int) + d ≤ 7
    · rw [if_pos hcond] at h
      simp only [Option.some.injEq] at h
      exact ⟨c, hc, hcond.1, hcond.2.1, hcond.2.2, h.symm⟩
    · rw [if_neg hcond] at h
      simp at h
  · rintro ⟨c, hc, h1, h2, h3, h4⟩
    exact ⟨c, hc, by rw [if_pos ⟨h1, h2, h3⟩, h4]⟩

theorem d7Squares_mem (s : Int) (p t : Nat) :
    t ∈ d7Squares s p ↔ ∃ c : Nat, c < 8 ∧ p.testBit c = true ∧ 0 ≤ s - (c : Int) ∧
      s - (c : Int) ≤ 7 ∧ t = 8 * (s - (c : Int)).toNat + c := by
  unfold d7Squares
  simp only [List.mem_filterMap, List.mem_range]
  constructor
  · rintro ⟨c, hc, h⟩
    by_cases hcond : p.testBit c = true ∧ 0 ≤ s - (c : Int) ∧ s - (c : Int) ≤ 7
    · rw [if_pos hcond] at h
      simp only [Option.some.injEq] at h
      exact ⟨c, hc, hcond.1, hcond.2.1, hcond.2.2, h.symm⟩
    · rw [if_neg hcond] at h
      simp at h
  · rintro ⟨c, hc, h1, h2, h3, h4⟩
    exact ⟨c, hc, by rw [if_pos ⟨h1, h2, h3⟩, h4]⟩

/-- C14 (diagonal scatter tables): row `k` in `0..10` of `d9Flips` holds, for pattern `p`,
exactly the board squares `(row, col)` with `row - col = k - 5` and bit `col` of `p` set;
row `k` of `d7Flips` exactly those with `row + col = k + 2` and bit `col` of `p` set; the
sentinel row 11 of both tables is zero. -/
theorem diag_scatter (T0 T : Tables) (hT : initFlips T0 = some T) (k p : Nat)
    (hk : k < 11) (hp : p < 256) :
    T.d9Flips k p < 2 ^ 64 ∧ T.d7Flips k p < 2 ^ 64 ∧
    (∀ r c, r < 8 → c < 8 → ((T.d9Flips k p).testBit (8 * r + c) = true ↔
      ((r : Int) - c = (k : Int) - 5 ∧ p.testBit c = true))) ∧
    (∀ r c, r < 8 → c < 8 → ((T.d7Flips k p).testBit (8 * r + c) = true ↔
      (r + c = k + 2 ∧ p.testBit c = true))) ∧
    T.d9Flips 11 p = 0 ∧ T.d7Flips 11 p = 0 := by
  rw [initFlips_eq] at hT
  cases hT
  obtain ⟨_, _, _, _, _, hd9, hd7, _⟩ := fillTables_spec T0
  have hchk := diagFlipChk_all p hp
  simp only [diagFlipChk, List.all_eq_true, List.mem_range, Bool.and_eq_true, beq_iff_eq]
    at hchk
  obtain ⟨e9, e7⟩ := hchk k hk
  rw [hd9 k p (by omega) hp, hd7 k p (by omega) hp, hd9 11 p (by omega) hp,
    hd7 11 p (by omega) hp, if_pos hk, if_pos hk, e9, e7]
  refine ⟨?_, ?_, ?_, ?_, by simp, by simp⟩
  · apply maskOf_lt
    intro t ht
    obtain ⟨c, hc, _, h2, h3, h4⟩ := (d9Squares_mem _ p t).1 ht
    omega
  · apply maskOf_lt
    intro t ht
    obtain ⟨c, hc, _, h2, h3, h4⟩ := (d7Squares_mem _ p t).1 ht
    omega
  · intro r c hr hc
    rw [testBit_maskOf, decide_eq_true_eq, d9Squares_mem]
    constructor
    · rintro ⟨c', hc', h1, h2, h3, h4⟩
      have hcc : c' = c := by omega
      subst hcc
      exact ⟨by omega, h1⟩
    · rintro ⟨h1, h2⟩
      exact ⟨c, hc, h2, by omega, by omega, by omega⟩
  · intro r c hr hc
    rw [testBit_maskOf, decide_eq_true_eq, d7Squares_mem]
    constructor
    · rintro ⟨c', hc', h1, h2, h3, h4⟩
      have hcc : c' = c := by omega
      subst hcc
      exact ⟨by omega, h1⟩
    · rintro ⟨h1, h2⟩
      exact ⟨c, hc, h2, by omega, by omega, by omega⟩

theorem diag_scatter_witness :
    (fillTables zeroTables).d9Flips 5 0x7E = 0x40201008040200 ∧
    (fillTables zeroTables).d9Flips 11 0x7E = 0 :=
  ⟨by rw [(fillTables_spec zeroTables).2.2.2.2.2.1 5 0x7E (by decide) (by decide)]; decide,
   (diag_scatter zeroTables (fillTables zeroTables) (initFlips_eq zeroTables) 5 0x7E
    (by decide) (by decide)).2.2.2.2.1⟩

/-! ## Descriptors and neighbor masks -/

set_option maxRecDepth 1000000 in
theorem neighborsChk_all : ∀ sq < 64, neighborsChk sq = true := by decide!

set_option maxRecDepth 1000000 in
theorem descChk_all : ∀ sq < 64, descChk sq = true := by decide!

set_option maxRecDepth 1000000 in
theorem sentinelChk_all : ∀ sq < 64, sentinelChk sq = true := by decide!

set_option maxRecDepth 1000000 in
theorem geomChk_all : ∀ sq < 64, geomChk sq = true := by decide!

/-- The claim C15 fails at square 14: its descending diagonal (squares 5, 14, 23) has three
squares, yet `flipArray[14].d9b` is the sentinel 11; likewise square 9 for the ascending
diagonal (squares 2, 9, 16). -/
theorem sentinel_iff_short_counterexample :
    (∃ m, flipArray[14]? = some m ∧ m.d9b = 11) ∧ ¬ d9Len 14 < 3 ∧
    (∃ m, flipArray[9]? = some m ∧ m.d7b = 11) ∧ ¬ d7Len 9 < 3 := by
  refine ⟨⟨_, rfl, rfl⟩, by decide, ⟨_, rfl, rfl⟩, by decide⟩

/-- C15 as amended: `flipArray[sq].d9b` is the sentinel 11 iff fewer than two squares lie
beyond `sq` on each side of its descending diagonal, and `flipArray[sq].d7b` is 11 iff fewer
than two squares lie beyond `sq` on each side of its ascending diagonal. -/
theorem sentinel_iff_no_run (sq : Nat) (hsq : sq < 64) :
    ∃ m, flipArray[sq]? = some m ∧
      (m.d9b = 11 ↔ ((rayOf sq (-1) (-1)).length < 2 ∧ (rayOf sq 1 1).length < 2)) ∧
      (m.d7b = 11 ↔ ((rayOf sq 1 (-1)).length < 2 ∧ (rayOf sq (-1) 1).length < 2)) := by
  have hc := sentinelChk_all sq hsq
  unfold sentinelChk at hc
  cases hm : flipArray[sq]? with
  | none => rw [hm] at hc; simp at hc
  | some m =>
    rw [hm] at hc
    simp only [Bool.and_eq_true, beq_iff_eq] at hc
    refine ⟨m, rfl, ?_, ?_⟩
    · have h := hc.1
      rw [Bool.eq_iff_iff] at h
      simpa using h
    · have h := hc.2
      rw [Bool.eq_iff_iff] at h
      simpa using h

theorem sentinel_iff_no_run_witness :
    ∃ m, flipArray[14]? = some m ∧
      (m.d9b = 11 ↔ ((rayOf 14 (-1) (-1)).length < 2 ∧ (rayOf 14 1 1).length < 2)) ∧
      (m.d7b = 11 ↔ ((rayOf 14 1 (-1)).length < 2 ∧ (rayOf 14 (-1) 1).length < 2)) :=
  sentinel_iff_no_run 14 (by decide)

theorem adjacent_iff (sq t : Nat) :
    adjacent sq t = true ↔ t < 64 ∧ t ≠ sq ∧
      (row t : Int) - row sq ≤ 1 ∧ (row sq : Int) - row t ≤ 1 ∧
      (col t : Int) - col sq ≤ 1 ∧ (col sq : Int) - col t ≤ 1 := by
  unfold adjacent
  simp only [Bool.and_eq_true, decide_eq_true_eq, bne_iff_ne, ne_eq]
  constructor
  · rintro ⟨⟨⟨⟨⟨h1, h2⟩, h3⟩, h4⟩, h5⟩, h6⟩
    exact ⟨h1, h2, by omega, by omega, by omega, by omega⟩
  · rintro ⟨h1, h2, h3, h4, h5, h6⟩
    exact ⟨⟨⟨⟨⟨h1, h2⟩, by omega⟩, by omega⟩, by omega⟩, by omega⟩

/-- C17 (neighbor mask): after `initFlips`, bit `t` of `neighbors[sq]` is set iff `t` is
another board square whose row and column each differ from those of `sq` by at most 1; the
mask is a 64-bit value with at most 8 bits set and never contains `sq`. -/
theorem neighbors_spec (T0 T : Tables) (hT : initFlips T0 = some T) (sq : Nat) (hsq : sq < 64) :
    T.neighbors sq < 2 ^ 64 ∧ bitCount (T.neighbors sq) ≤ 8 ∧
    (T.neighbors sq).testBit sq = false ∧
    ∀ t, t < 64 → ((T.neighbors sq).testBit t = true ↔
      (t ≠ sq ∧ (row t : Int) - row sq ≤ 1 ∧ (row sq : Int) - row t ≤ 1 ∧
        (col t : Int) - col sq ≤ 1 ∧ (col sq : Int) - col t ≤ 1)) := by
  rw [initFlips_eq] at hT
  cases hT
  obtain ⟨_, _, _, _, _, _, _, hnb⟩ := fillTables_spec T0
  have hc := neighborsChk_all sq hsq
  simp only [neighborsChk, Bool.and_eq_true, decide_eq_true_eq, List.all_eq_true,
    List.mem_range, beq_iff_eq] at hc
  obtain ⟨⟨hlt, hbits⟩, hcnt⟩ := hc
  rw [hnb sq hsq]
  have key : ∀ t, t < 64 → ((neighborsOf sq).testBit t = true ↔
      (t ≠ sq ∧ (row t : Int) - row sq ≤ 1 ∧ (row sq : Int) - row t ≤ 1 ∧
        (col t : Int) - col sq ≤ 1 ∧ (col sq : Int) - col t ≤ 1)) := by
    intro t ht
    rw [hbits t ht, adjacent_iff]
    constructor
    · rintro ⟨_, h⟩; exact h
    · intro h; exact ⟨ht, h⟩
  refine ⟨hlt, hcnt, ?_, key⟩
  by_contra h
  have h' : (neighborsOf sq).testBit sq = true := by simpa using h
  exact ((key sq hsq).1 h').1 rfl

theorem neighbors_spec_witness :
    (fillTables zeroTables).neighbors 0 = 0x302 ∧
    ((fillTables zeroTables).neighbors 7).testBit 8 = false :=
  ⟨by rw [(fillTables_spec zeroTables).2.2.2.2.2.2.2 0 (by decide)]; decide,
   by
    have h := (neighbors_spec zeroTables (fillTables zeroTables) (initFlips_eq zeroTables) 7
      (by decide)).2.2.2 8 (by decide)
    by_contra hb
    have hb' : ((fillTables zeroTables).neighbors 7).testBit 8 = true := by simpa using hb
    have := (h.1 hb').2.2.2.2
    revert this
    decide⟩

/-- C19 (gather correctness): for every square and every board `x`, the wrapping
multiply-and-shift gather of `flipIndex` with the column descriptor yields the byte whose
bit `j` is the bit of `x` at square `(j, col)`; with a non-zero diagonal descriptor it
yields the byte whose bit `c` is the bit of `x` at the square of column `c` on that
diagonal of `sq`, and 0 for the columns the diagonal does not reach. -/
theorem gather_correct (sq : Nat) (hsq : sq < 64) (x : Nat) :
    ∃ m, flipArray[sq]? = some m ∧
      gather x m.colmask m.colmult < 256 ∧ gather x m.d9mask m.d9mult < 256 ∧
      gather x m.d7mask m.d7mult < 256 ∧
      (∀ j, j < 8 → (gather x m.colmask m.colmult).testBit j = x.testBit (8 * j + col sq)) ∧
      (m.d9mask ≠ 0 → ∀ c : Nat, c < 8 → (gather x m.d9mask m.d9mult).testBit c =
        if 0 ≤ (row sq : Int) - col sq + c ∧ (row sq : Int) - col sq + c ≤ 7 then
          x.testBit (8 * ((row sq : Int) - col sq + c).toNat + c) else false) ∧
      (m.d7mask ≠ 0 → ∀ c : Nat, c < 8 → (gather x m.d7mask m.d7mult).testBit c =
        if 0 ≤ (row sq : Int) + col sq - c ∧ (row sq : Int) + col sq - c ≤ 7 then
          x.testBit (8 * ((row sq : Int) + col sq - c).toNat + c) else false) := by
  have hc := geomChk_all sq hsq
  unfold geomChk at hc
  cases hm : flipArray[sq]? with
  | none => rw [hm] at hc; simp at hc
  | some m =>
    rw [hm] at hc
    simp only [Bool.and_eq_true, Bool.or_eq_true, List.all_eq_true, List.mem_range,
      beq_iff_eq] at hc
    obtain ⟨⟨hcol, h9⟩, h7⟩ := hc
    have hmem := List.getElem?_mem hm
    have f9 : fullChk false m.d9mask m.d9mult = true :=
      diagDescriptors_ok (m.d9mask, m.d9mult) (by
        unfold diagDescriptors
        rw [List.mem_dedup, List.mem_append]
        exact Or.inl (List.mem_map.2 ⟨m, hmem, rfl⟩))
    have f7 : fullChk false m.d7mask m.d7mult = true :=
      diagDescriptors_ok (m.d7mask, m.d7mult) (by
        unfold diagDescriptors
        rw [List.mem_dedup, List.mem_append]
        exact Or.inr (List.mem_map.2 ⟨m, hmem, rfl⟩))
    have fc : fullChk true m.colmask m.colmult = true :=
      colDescriptors_ok (m.colmask, m.colmult) (by
        unfold colDescriptors
        rw [List.mem_dedup]
        exact List.mem_map.2 ⟨m, hmem, rfl⟩)
    refine ⟨m, rfl, gather_lt _ _ _, gather_lt _ _ _, gather_lt _ _ _, ?_, ?_, ?_⟩
    · intro j hj
      rw [gather_bit true _ _ fc x j hj, hcol j hj]
    · intro hne c hc8
      rcases h9 with h0 | h9
      · exact absurd h0 hne
      · rw [gather_bit false _ _ f9 x c hc8, h9 c hc8]
        by_cases hcond : 0 ≤ (row sq : Int) - col sq + c ∧ (row sq : Int) - col sq + c ≤ 7
        · rw [if_pos hcond, if_pos hcond]
        · rw [if_neg hcond, if_neg hcond]
    · intro hne c hc8
      rcases h7 with h0 | h7
      · exact absurd h0 hne
      · rw [gather_bit false _ _ f7 x c hc8, h7 c hc8]
        by_cases hcond : 0 ≤ (row sq : Int) + col sq - c ∧ (row sq : Int) + col sq - c ≤ 7
        · rw [if_pos hcond, if_pos hcond]
        · rw [if_neg hcond, if_neg hcond]

theorem gather_correct_witness :
    ∃ m, flipArray[26]? = some m ∧ gather 0x1008000000 m.colmask m.colmult < 256 :=
  (gather_correct 26 (by decide) 0x1008000000).imp fun _ h => ⟨h.1, h.2.1⟩

theorem d9Line_bits (sq : Nat) :
    maskOf (d9Line sq) < 2 ^ 64 ∧ ∀ t, t < 64 → ((maskOf (d9Line sq)).testBit t = true ↔
      (row t : Int) - col t = (row sq : Int) - col sq) := by
  constructor
  · apply maskOf_lt
    intro t ht
    simp only [d9Line, List.mem_filter, List.mem_range] at ht
    exact ht.1
  · intro t ht
    simp only [testBit_maskOf, decide_eq_true_eq, d9Line, List.mem_filter, List.mem_range]
    exact ⟨fun h => h.2, fun h => ⟨ht, h⟩⟩

theorem d7Line_bits (sq : Nat) :
    maskOf (d7Line sq) < 2 ^ 64 ∧ ∀ t, t < 64 → ((maskOf (d7Line sq)).testBit t = true ↔
      row t + col t = row sq + col sq) := by
  constructor
  · apply maskOf_lt
    intro t ht
    simp only [d7Line, List.mem_filter, List.mem_range] at ht
    exact ht.1
  · intro t ht
    simp only [testBit_maskOf, decide_eq_true_eq, d7Line, List.mem_filter, List.mem_range]
    exact ⟨fun h => h.2, fun h => ⟨ht, h⟩⟩

/-- C20 (the descriptor table is a function of `(row, col)`): `colmask` and `colmult` are the
shifted column constants; `d9mask` is 0 or exactly the board squares of the descending
diagonal of `sq`, it is 0 iff `d9mult` is 0 iff `d9b` is 11, and otherwise `d9mult` is
`0x0101010101010101` and `d9b = row - col + 5`; likewise `d7mask`, `d7mult`, `d7b` with the
ascending diagonal and `d7b = row + col - 2`. -/
theorem descriptor_geometry (sq : Nat) (hsq : sq < 64) :
    ∃ m, flipArray[sq]? = some m ∧
      m.colmask = u64 (0x0101010101010101 <<< col sq) ∧
      m.colmult = 0x0102040810204080 >>> col sq ∧
      (m.d9mask = 0 ∨ (m.d9mask < 2 ^ 64 ∧ ∀ t, t < 64 → (m.d9mask.testBit t = true ↔
        (row t : Int) - col t = (row sq : Int) - col sq))) ∧
      (m.d9mask = 0 ↔ m.d9mult = 0) ∧ (m.d9mult = 0 ↔ m.d9b = 11) ∧
      (m.d9mask ≠ 0 → m.d9mult = 0x0101010101010101 ∧
        (m.d9b : Int) = (row sq : Int) - col sq + 5) ∧
      (m.d7mask = 0 ∨ (m.d7mask < 2 ^ 64 ∧ ∀ t, t < 64 → (m.d7mask.testBit t = true ↔
        row t + col t = row sq + col sq))) ∧
      (m.d7mask = 0 ↔ m.d7mult = 0) ∧ (m.d7mult = 0 ↔ m.d7b = 11) ∧
      (m.d7mask ≠ 0 → m.d7mult = 0x0101010101010101 ∧
        (m.d7b : Int) = (row sq : Int) + col sq - 2) := by
  have hc := descChk_all sq hsq
  unfold descChk at hc
  cases hm : flipArray[sq]? with
  | none => rw [hm] at hc; simp at hc
  | some m =>
    rw [hm] at hc
    simp only [Bool.and_eq_true, Bool.or_eq_true, beq_iff_eq] at hc
    obtain ⟨⟨⟨⟨⟨⟨⟨⟨⟨h1, h2⟩, h3⟩, h4⟩, h5⟩, h6⟩, h7⟩, h8⟩, h9⟩, h10⟩ := hc
    rw [Bool.eq_iff_iff] at h4 h5 h8 h9
    simp only [beq_iff_eq] at h4 h5 h8 h9
    refine ⟨m, rfl, h1, h2, ?_, h4, h5, ?_, ?_, h8, h9, ?_⟩
    · rcases h3 with h | h
      · exact Or.inl h
      · right
        rw [h]
        exact d9Line_bits sq
    · intro hne
      rcases h6 with h | h
      · exact absurd h hne
      · exact h
    · rcases h7 with h | h
      · exact Or.inl h
      · right
        rw [h]
        exact d7Line_bits sq
    · intro hne
      rcases h10 with h | h
      · exact absurd h hne
      · exact h

theorem descriptor_geometry_witness :
    ∃ m, flipArray[26]? = some m ∧ m.colmask = u64 (0x0101010101010101 <<< col 26) ∧
      m.colmult = 0x0102040810204080 >>> col 26 :=
  (descriptor_geometry 26 (by decide)).imp fun _ h => ⟨h.1, h.2.1, h.2.2.1⟩

/-! ## The terminal count -/

set_option maxRecDepth 1000000 in
theorem countChk_all : ∀ sq < 64, countChk sq = true := by decide!

set_option maxRecDepth 1000000 in
theorem raysNodupChk_all : ∀ sq < 64, raysNodupChk sq = true := by decide!

theorem not64_bit (x i : Nat) : (not64 x).testBit i = (decide (i < 64) && !x.testBit i) := by
  unfold not64 u64
  have e : (18446744073709551615 : Nat) = 2 ^ 64 - 1 := by norm_num
  have e2 : (18446744073709551616 : Nat) = 2 ^ 64 := by norm_num
  rw [Nat.testBit_xor, e, e2, Nat.testBit_two_pow_sub_one, Nat.testBit_mod_two_pow]
  by_cases hi : i < 64 <;> simp [hi]

/-- With `s` the only empty square, every other board square is an enemy square iff it is
not a mover square. -/
theorem lastEnemy_bit (s mover t : Nat) (hs : s < 64) (ht : t < 64) (hts : t ≠ s) :
    (not64 mover &&& not64 (mask s)).testBit t = !mover.testBit t := by
  rw [Nat.testBit_and, not64_bit, not64_bit, mask_testBit s t hs]
  simp [ht, hts]

/-- `gap` of a gathered mover pattern is `runLen` along the ray when every square of the
ray that is not a mover square is an enemy square. -/
theorem gap_view (g m e : Nat) : ∀ (R P : List Nat) (n : Nat),
    P.map (fun k => g.testBit k) = R.map (fun t => m.testBit t) ++ List.replicate n false →
    (∀ t ∈ R, e.testBit t = !m.testBit t) → gap g P = runLen m e R := by
  intro R
  induction R with
  | nil =>
    intro P n h1 _
    simp only [List.map_nil, List.nil_append] at h1
    have hg : ∀ k ∈ P, g.testBit k = false := by
      intro k hk
      have : g.testBit k ∈ P.map (fun k => g.testBit k) := List.mem_map_of_mem _ hk
      rw [h1] at this
      exact List.eq_of_mem_replicate this
    rw [gap_none g P hg]
    rfl
  | cons t R ih =>
    intro P n h1 he
    cases P with
    | nil => simp at h1
    | cons p P =>
      simp only [List.map_cons, List.cons_append, List.cons.injEq] at h1
      have het := he t (List.mem_cons_self t R)
      have ih' := ih P n h1.2 (fun u hu => he u (List.mem_cons_of_mem t hu))
      by_cases hm : m.testBit t = true
      · simp [gap, runLen, h1.1, hm, het]
      · have hm' : m.testBit t = false := by simpa using hm
        simp [gap, runLen, h1.1, hm', het, ih']

theorem gap_zero (P : List Nat) : gap 0 P = none := gap_none 0 P (by simp)

/-- The `counts` entry of a gathered mover pattern is the sum of the two run lengths along
the rays of that direction. -/
theorem count_sound (byRow : Bool) (mask mult idx : Nat) (T : Nat → Nat) (Rd Ru : List Nat)
    (hfull : fullChk byRow mask mult = true) (hchk : lineChk byRow mask idx T Rd Ru = true)
    (hidx : idx < 8) (mover enemy : Nat)
    (hd : ∀ t ∈ Rd, enemy.testBit t = !mover.testBit t)
    (hu : ∀ t ∈ Ru, enemy.testBit t = !mover.testBit t) :
    (insideOf idx (gather mover mask mult)).1
      = (((runLen mover enemy Rd).getD 0 + (runLen mover enemy Ru).getD 0 : Nat) : Int) := by
  obtain ⟨_, _, hcnt, _, _⟩ := insideOf_eq idx (gather mover mask mult) hidx (gather_lt _ _ _)
  rw [hcnt]
  simp only [lineChk, Bool.and_eq_true, Bool.or_eq_true, beq_iff_eq, decide_eq_true_eq] at hchk
  obtain ⟨hview, _⟩ := hchk
  rcases hview with ⟨hvd, hvu⟩ | ⟨⟨hm0, hld⟩, hlu⟩
  · have hPd : ∀ k ∈ downPos idx, k < 8 := fun k hk => by
      have := (mem_downPos k idx).1 hk; omega
    have hPu : ∀ k ∈ upPos idx, k < 8 := fun k hk => by
      have := (mem_upPos k idx).1 hk; omega
    rw [gap_view _ mover enemy Rd (downPos idx) _
        (gather_view byRow mask mult hfull _ _ _ hPd hvd mover) hd,
      gap_view _ mover enemy Ru (upPos idx) _
        (gather_view byRow mask mult hfull _ _ _ hPu hvu mover) hu]
  · subst hm0
    have h1 := runLen_getD_le mover enemy Rd
    have h2 := runLen_getD_le mover enemy Ru
    have e1 : (runLen mover enemy Rd).getD 0 = 0 := by omega
    have e2 : (runLen mover enemy Ru).getD 0 = 0 := by omega
    rw [gather_zero, gap_zero, gap_zero, e1, e2]
    rfl

/-- The `counts` entry of the row pattern is the sum of the two run lengths along the row. -/
theorem row_count_sound (sq : Nat) (hchk : rowChk sq = true) (mover enemy : Nat)
    (hd : ∀ t ∈ rayOf sq 0 (-1), enemy.testBit t = !mover.testBit t)
    (hu : ∀ t ∈ rayOf sq 0 1, enemy.testBit t = !mover.testBit t) :
    (mover >>> (sq >>> 3 * 8)) &&& 0xFF < 256 ∧
    (insideOf (sq &&& 7) ((mover >>> (sq >>> 3 * 8)) &&& 0xFF)).1
      = (((runLen mover enemy (rayOf sq 0 (-1))).getD 0 +
          (runLen mover enemy (rayOf sq 0 1)).getD 0 : Nat) : Int) := by
  have hidx : sq &&& 7 < 8 := by
    have := @Nat.and_le_right sq 7; omega
  have hlt : (mover >>> (sq >>> 3 * 8)) &&& 0xFF < 256 :=
    Nat.and_lt_two_pow _ (n := 8) (by norm_num)
  refine ⟨hlt, ?_⟩
  obtain ⟨_, _, hcnt, _, _⟩ := insideOf_eq (sq &&& 7) _ hidx hlt
  rw [hcnt]
  simp only [rowChk, Bool.and_eq_true, beq_iff_eq] at hchk
  obtain ⟨⟨hrd, hru⟩, _⟩ := hchk
  rw [shiftLeft_three] at hrd hru
  have view : ∀ P : List Nat, (∀ k ∈ P, k < 8) →
      P.map (fun k => ((mover >>> (sq >>> 3 * 8)) &&& 0xFF).testBit k)
        = (P.map (fun k => sq >>> 3 * 8 + k)).map (fun t => mover.testBit t)
          ++ List.replicate 0 false := by
    intro P hP
    simp only [List.map_map, Function.comp_def, List.replicate_zero, List.append_nil]
    apply List.map_congr_left
    intro k hk
    rw [Nat.testBit_and, Nat.testBit_shiftRight, testBit_255 k (hP k hk), Bool.and_true]
  have hPd : ∀ k ∈ downPos (sq &&& 7), k < 8 := fun k hk => by
    have := (mem_downPos k _).1 hk; omega
  have hPu : ∀ k ∈ upPos (sq &&& 7), k < 8 := fun k hk => by
    have := (mem_upPos k _).1 hk; omega
  rw [hrd] at hd
  rw [hru] at hu
  rw [gap_view _ mover enemy _ (downPos (sq &&& 7)) 0 (view _ hPd) hd,
    gap_view _ mover enemy _ (upPos (sq &&& 7)) 0 (view _ hPu) hu, hrd, hru]

theorem maskOf_append (a b : List Nat) : maskOf (a ++ b) = maskOf a ||| maskOf b := by
  induction a with
  | nil => simp [maskOf]
  | cons t a ih =>
    show (1 <<< t) ||| maskOf (a ++ b) = ((1 <<< t) ||| maskOf a) ||| maskOf b
    rw [ih, Nat.or_assoc]

/-- The population count of the mask of a duplicate-free list of board squares is its
length. -/
theorem bitCount_maskOf (l : List Nat) (hnd : l.Nodup) (hlt : ∀ t ∈ l, t < 64) :
    bitCount (maskOf l) = l.length := by
  unfold bitCount
  apply List.Perm.length_eq
  rw [List.perm_ext_iff_of_nodup ((List.nodup_range 64).filter _) hnd]
  intro a
  rw [List.mem_filter, List.mem_range, testBit_maskOf, decide_eq_true_eq]
  exact ⟨fun h => h.2, fun h => ⟨hlt a h, h⟩⟩

theorem take_runLen_length (m e : Nat) (R : List Nat) :
    (R.take ((runLen m e R).getD 0)).length = (runLen m e R).getD 0 := by
  rw [List.length_take]
  have := runLen_getD_le m e R
  omega

/-- The population count of the flip mask is the sum of the eight run lengths. -/
theorem bitCount_flipsSem (sq mover enemy : Nat) (hsq : sq < 64) :
    bitCount (flipsSem sq mover enemy)
      = (runLen mover enemy (rayOf sq 0 (-1))).getD 0 + (runLen mover enemy (rayOf sq 0 1)).getD 0
        + ((runLen mover enemy (rayOf sq (-1) (-1))).getD 0
            + (runLen mover enemy (rayOf sq 1 1)).getD 0)
        + ((runLen mover enemy (rayOf sq (-1) 0)).getD 0
            + (runLen mover enemy (rayOf sq 1 0)).getD 0)
        + ((runLen mover enemy (rayOf sq 1 (-1))).getD 0
            + (runLen mover enemy (rayOf sq (-1) 1)).getD 0) := by
  have hnd := raysNodupChk_all sq hsq
  simp only [raysNodupChk, decide_eq_true_eq] at hnd
  have hc := rayChk_all sq hsq
  simp only [rayChk, rays8, List.all_eq_true, Bool.and_eq_true, decide_eq_true_eq,
    List.mem_cons, List.mem_singleton, forall_eq_or_imp, forall_eq] at hc
  obtain ⟨⟨_, c1⟩, ⟨_, c2⟩, ⟨_, c3⟩, ⟨_, c4⟩, ⟨_, c5⟩, ⟨_, c6⟩, ⟨_, c7⟩, ⟨_, c8⟩, _⟩ := hc
  unfold flipsSem
  simp only [lineFlips_eq_take, ← maskOf_append]
  have hsub := ((((List.take_sublist ((runLen mover enemy (rayOf sq 0 (-1))).getD 0)
      (rayOf sq 0 (-1))).append
    (List.take_sublist ((runLen mover enemy (rayOf sq 0 1)).getD 0) (rayOf sq 0 1))).append
    ((List.take_sublist ((runLen mover enemy (rayOf sq (-1) (-1))).getD 0)
      (rayOf sq (-1) (-1))).append
    (List.take_sublist ((runLen mover enemy (rayOf sq 1 1)).getD 0) (rayOf sq 1 1)))).append
    ((List.take_sublist ((runLen mover enemy (rayOf sq (-1) 0)).getD 0)
      (rayOf sq (-1) 0)).append
    (List.take_sublist ((runLen mover enemy (rayOf sq 1 0)).getD 0) (rayOf sq 1 0)))).append
    ((List.take_sublist ((runLen mover enemy (rayOf sq 1 (-1))).getD 0)
      (rayOf sq 1 (-1))).append
    (List.take_sublist ((runLen mover enemy (rayOf sq (-1) 1)).getD 0) (rayOf sq (-1) 1)))
  have hnd2 : (rayOf sq 0 (-1) ++ rayOf sq 0 1 ++ (rayOf sq (-1) (-1) ++ rayOf sq 1 1) ++
      (rayOf sq (-1) 0 ++ rayOf sq 1 0) ++ (rayOf sq 1 (-1) ++ rayOf sq (-1) 1)).Nodup := by
    simpa only [List.append_assoc] using hnd
  have hall : ∀ t ∈ (rayOf sq 0 (-1) ++ rayOf sq 0 1 ++ (rayOf sq (-1) (-1) ++ rayOf sq 1 1) ++
      (rayOf sq (-1) 0 ++ rayOf sq 1 0) ++ (rayOf sq 1 (-1) ++ rayOf sq (-1) 1)), t < 64 := by
    intro t ht
    simp only [List.mem_append] at ht
    rcases ht with (((h | h) | (h | h)) | (h | h)) | (h | h)
    · exact (c1 t h).1
    · exact (c2 t h).1
    · exact (c3 t h).1
    · exact (c4 t h).1
    · exact (c5 t h).1
    · exact (c6 t h).1
    · exact (c7 t h).1
    · exact (c8 t h).1
  rw [bitCount_maskOf _ (hnd2.sublist hsub) (fun t ht => hall t (hsub.subset ht))]
  simp only [List.length_append, take_runLen_length]

/-- The terminal count on the filled tables: `lastFlipCount` is the population count of what
the move flips when `sq` is the only empty square. -/
theorem lastFlipCount_sem (T0 : Tables) (sq mover : Nat) (hsq : sq < 64) :
    lastFlipCount (fillTables T0) sq mover
      = some ((bitCount (flipsSem sq mover (not64 mover &&& not64 (mask sq))) : Nat) : Int) := by
  have hc := squareChk_all sq hsq
  have hk := countChk_all sq hsq
  unfold squareChk at hc
  unfold countChk at hk
  cases hm : flipArray[sq]? with
  | none => rw [hm] at hc; simp at hc
  | some m =>
    cases hq : magicCountArray[sq]? with
    | none => rw [hm, hq] at hk; simp at hk
    | some k =>
      rw [hm] at hc
      rw [hm, hq] at hk
      simp only [Bool.and_eq_true, Bool.or_eq_true, beq_iff_eq, decide_eq_true_eq] at hc hk
      obtain ⟨⟨⟨⟨hb9, hb7⟩, h9⟩, hcol⟩, h7⟩ := hc
      obtain ⟨⟨⟨⟨⟨k1, k2⟩, k3⟩, k4⟩, k5⟩, k6⟩ := hk
      have hmem := List.getElem?_mem hm
      have f9 : fullChk false m.d9mask m.d9mult = true :=
        diagDescriptors_ok (m.d9mask, m.d9mult) (by
          unfold diagDescriptors
          rw [List.mem_dedup, List.mem_append]
          exact Or.inl (List.mem_map.2 ⟨m, hmem, rfl⟩))
      have f7 : fullChk false m.d7mask m.d7mult = true :=
        diagDescriptors_ok (m.d7mask, m.d7mult) (by
          unfold diagDescriptors
          rw [List.mem_dedup, List.mem_append]
          exact Or.inr (List.mem_map.2 ⟨m, hmem, rfl⟩))
      have fc : fullChk true m.colmask m.colmult = true :=
        colDescriptors_ok (m.colmask, m.colmult) (by
          unfold colDescriptors
          rw [List.mem_dedup]
          exact List.mem_map.2 ⟨m, hmem, rfl⟩)
      have hcol8 : sq &&& 7 < 8 := by
        have := @Nat.and_le_right sq 7; omega
      have hrow8 : sq >>> 3 < 8 := by
        rw [Nat.shiftRight_eq_div_pow]; omega
      have g9 : u64 ((mover &&& k.mask1) * MaskA) >>> 56 = gather mover m.d9mask m.d9mult := by
        rw [k1]
        rcases k5 with h0 | h1
        · rw [h0, gather_zero]
          exact gather_zero mover MaskA
        · rw [h1]; rfl
      have g7 : u64 ((mover &&& k.mask3) * MaskA) >>> 56 = gather mover m.d7mask m.d7mult := by
        rw [k3]
        rcases k6 with h0 | h1
        · rw [h0, gather_zero]
          exact gather_zero mover MaskA
        · rw [h1]; rfl
      have gc : u64 ((mover &&& k.mask2) * k.mult2) >>> 56
          = gather mover m.colmask m.colmult := by
        rw [k2, k4]; rfl
      have hr := rayChk_all sq hsq
      simp only [rayChk, rays8, List.all_eq_true, Bool.and_eq_true, decide_eq_true_eq,
        List.mem_cons, List.mem_singleton, forall_eq_or_imp, forall_eq, bne_iff_ne] at hr
      obtain ⟨⟨_, c1⟩, ⟨_, c2⟩, ⟨_, c3⟩, ⟨_, c4⟩, ⟨_, c5⟩, ⟨_, c6⟩, ⟨_, c7⟩, ⟨_, c8⟩, _⟩ := hr
      have he : ∀ R : List Nat, (∀ t ∈ R, t < 64 ∧ t ≠ sq) →
          ∀ t ∈ R, (not64 mover &&& not64 (mask sq)).testBit t = !mover.testBit t :=
        fun R hR t ht => lastEnemy_bit sq mover t hsq (hR t ht).1 (hR t ht).2
      obtain ⟨hcnt, _, _, _, _, _, _, hnb⟩ := fillTables_spec T0
      obtain ⟨hrlt, hrow⟩ := row_count_sound sq (rowChk_all sq hsq) mover
        (not64 mover &&& not64 (mask sq)) (he _ c1) (he _ c2)
      unfold lastFlipCount
      simp only [Option.bind_eq_bind, Option.some_bind, Option.pure_def,
        rd1_some _ _ _ hsq, hnb sq hsq, hq, g9, g7, gc,
        rd2_some _ _ _ _ _ hcol8 hrlt, rd2_some _ _ _ _ _ hcol8 (gather_lt _ _ _),
        rd2_some _ _ _ _ _ hrow8 (gather_lt _ _ _),
        hcnt _ _ hcol8 hrlt, hcnt _ _ hcol8 (gather_lt _ _ _), hcnt _ _ hrow8 (gather_lt _ _ _)]
      by_cases hn : neighborsOf sq &&& not64 mover = 0
      · rw [if_neg (by simpa using hn),
          flipsSem_zero sq mover _ hsq (by rw [← Nat.and_assoc, hn, Nat.zero_and])]
        rfl
      · rw [if_pos hn, hrow,
          count_sound false m.d9mask m.d9mult (sq &&& 7) _ _ _ f9 h9 hcol8 mover
            (not64 mover &&& not64 (mask sq)) (he _ c3) (he _ c4),
          count_sound true m.colmask m.colmult (sq >>> 3) _ _ _ fc hcol hrow8 mover
            (not64 mover &&& not64 (mask sq)) (he _ c5) (he _ c6),
          count_sound false m.d7mask m.d7mult (sq &&& 7) _ _ _ f7 h7 hcol8 mover
            (not64 mover &&& not64 (mask sq)) (he _ c7) (he _ c8),
          bitCount_flipsSem sq mover _ hsq]
        push_cast
        rfl

/-! ## Contract claims on both entry points -/

/-- C2 (terminal consistency): after `initFlips`, for every square `s` in `0..63` and every
64-bit mover board with bit `s` clear, `flips(s, mover, ~mover & ~mask(s))` returns a mask
`r` and `lastFlipCount(s, mover)` returns the population count of `r`. The equality holds
for every mover board, so neither the width of `mover` nor its bit `s` is assumed. -/
theorem terminal_consistency (T0 T : Tables) (hT : initFlips T0 = some T) (s mover : Nat)
    (hs : s < 64) :
    ∃ r, flips T s mover (not64 mover &&& not64 (mask s)) = some r ∧
      lastFlipCount T s mover = some ((bitCount r : Nat) : Int) := by
  rw [initFlips_eq] at hT
  cases hT
  exact ⟨_, flips_sem T0 s mover _ hs, lastFlipCount_sem T0 s mover hs⟩

theorem terminal_consistency_witness :
    (∃ r, flips (fillTables zeroTables) 0 0xFFFFFFFFFFFFFFFC
        (not64 0xFFFFFFFFFFFFFFFC &&& not64 (mask 0)) = some r ∧
      lastFlipCount (fillTables zeroTables) 0 0xFFFFFFFFFFFFFFFC
        = some ((bitCount r : Nat) : Int)) ∧
    not64 0xFFFFFFFFFFFFFFFC &&& not64 (mask 0) = 2 :=
  ⟨terminal_consistency zeroTables (fillTables zeroTables) (initFlips_eq zeroTables) 0
    0xFFFFFFFFFFFFFFFC (by decide), by decide⟩

/-- C3 (strategy equivalence): after `initFlips`, with `pext`/`pdep` modelled as bit extract
and bit deposit, the BMI2 variant of `flips` and the portable variant return the same mask
for every square in `0..63` and every pair of boards, with no precondition on the
boards. -/
theorem strategy_equivalence (T0 T : Tables) (hT : initFlips T0 = some T)
    (sq mover enemy : Nat) (hsq : sq < 64) :
    ∃ r, bmi2.flips T sq mover enemy = some r ∧ flips T sq mover enemy = some r := by
  rw [initFlips_eq] at hT
  cases hT
  exact ⟨_, bmi2_flips_sem T0 sq mover enemy hsq, flips_sem T0 sq mover enemy hsq⟩

theorem strategy_equivalence_witness :
    (∃ r, bmi2.flips (fillTables zeroTables) 26 0x810000000 0x1008000001 = some r ∧
      flips (fillTables zeroTables) 26 0x810000000 0x1008000001 = some r) ∧
    0x810000000 &&& 0x1008000001 = 0 :=
  ⟨strategy_equivalence zeroTables (fillTables zeroTables) (initFlips_eq zeroTables) 26
    0x810000000 0x1008000001 (by decide), by decide⟩

/-- C10 (totality of the hot path): after `initFlips`, for every square `sq` in `0..63` and
all boards, the portable `flips` and `lastFlipCount` both return a value, that is
no bounds-checked table read of theirs fails; the descriptors of `sq` exist, the line
indices `sq & 7` and `sq >> 3` are below 8 and the diagonal selectors are at most 11. -/
theorem hot_path_total (T0 T : Tables) (hT : initFlips T0 = some T)
    (sq mover enemy : Nat) (hsq : sq < 64) :
    (∃ r, flips T sq mover enemy = some r) ∧ (∃ n, lastFlipCount T sq mover = some n) ∧
    (∃ m, flipArray[sq]? = some m ∧ m.d9b ≤ 11 ∧ m.d7b ≤ 11) ∧
    (∃ k, magicCountArray[sq]? = some k) ∧ sq &&& 7 < 8 ∧ sq >>> 3 < 8 := by
  rw [initFlips_eq] at hT
  cases hT
  have hc := squareChk_all sq hsq
  have hk := countChk_all sq hsq
  unfold squareChk at hc
  unfold countChk at hk
  refine ⟨⟨_, flips_sem T0 sq mover enemy hsq⟩, ⟨_, lastFlipCount_sem T0 sq mover hsq⟩,
    ?_, ?_, ?_, ?_⟩
  · cases hm : flipArray[sq]? with
    | none => rw [hm] at hc; simp at hc
    | some m =>
      rw [hm] at hc
      simp only [Bool.and_eq_true, decide_eq_true_eq] at hc
      obtain ⟨⟨⟨⟨hb9, hb7⟩, _⟩, _⟩, _⟩ := hc
      exact ⟨m, rfl, by omega, by omega⟩
  · cases hq : magicCountArray[sq]? with
    | none =>
      rw [hq] at hk
      cases hm : flipArray[sq]? <;> rw [hm] at hk <;> simp at hk
    | some k => exact ⟨k, rfl⟩
  · have := @Nat.and_le_right sq 7
    omega
  · rw [Nat.shiftRight_eq_div_pow]
    omega

theorem hot_path_total_witness :
    ((∃ r, flips (fillTables zeroTables) 63 0x810000000 0x1008000001 = some r) ∧
    (∃ n, lastFlipCount (fillTables zeroTables) 63 0x810000000 = some n) ∧
    (∃ m, flipArray[63]? = some m ∧ m.d9b ≤ 11 ∧ m.d7b ≤ 11) ∧
    (∃ k, magicCountArray[63]? = some k) ∧ 63 &&& 7 < 8 ∧ 63 >>> 3 < 8) ∧
    (0x810000000 : Nat) < 2 ^ 64 :=
  ⟨hot_path_total zeroTables (fillTables zeroTables) (initFlips_eq zeroTables) 63
    0x810000000 0x1008000001 (by decide), by decide⟩

/-! ## Exhaustive checks for the table-free variant and the transcribed tables -/

set_option maxRecDepth 1000000 in
theorem norefChk_all : ∀ sq < 64, norefChk sq = true := by decide!

set_option maxRecDepth 1000000 in
theorem tablesAgreeChk_all : ∀ sq < 64, tablesAgreeChk sq = true := by decide!

theorem downUp_nodup : ∀ idx < 8, (downPos idx ++ upPos idx).Nodup := by decide

/-! ## The table-free BMI2 variant computes the same flips -/

/-- The table-free BMI2 variant on the filled tables computes `flipsSem`. -/
theorem noref_flips_sem (T0 : Tables) (sq mover enemy : Nat) (hsq : sq < 64) :
    flips_bmi2_noref (fillTables T0) sq mover enemy = some (flipsSem sq mover enemy) := by
  have hc := norefChk_all sq hsq
  have hb := bmi2Chk_all sq hsq
  unfold norefChk at hc
  unfold bmi2Chk at hb
  cases hm : dflip_array[sq]? with
  | none => rw [hm] at hb; simp at hb
  | some m =>
    rw [hm] at hb
    simp only [Bool.and_eq_true] at hc hb
    obtain ⟨⟨_, h9⟩, h7⟩ := hc
    obtain ⟨⟨_, hcol⟩, _⟩ := hb
    have hcol8 : sq &&& 7 < 8 := by
      have := @Nat.and_le_right sq 7; omega
    obtain ⟨p9, l9, s9⟩ := dense_sound _ _ _ _ h9 mover enemy
    obtain ⟨pc, lc, sc⟩ := dense_sound _ _ _ _ hcol mover enemy
    obtain ⟨p7, l7, s7⟩ := dense_sound _ _ _ _ h7 mover enemy
    have hlt : (enemy >>> (sq >>> 3 * 8)) &&& 0xFF < 256 :=
      Nat.and_lt_two_pow _ (n := 8) (by norm_num)
    have r0 := line_reads T0 (sq &&& 7) (mover >>> (sq >>> 3 * 8))
      ((enemy >>> (sq >>> 3 * 8)) &&& 0xFF) hcol8 hlt
    have r9 := line_reads T0 _ (pext_u64 mover (norefD9Mask (sq >>> 3) (sq &&& 7))) _ p9 l9
    have rc := line_reads T0 _ (pext_u64 mover (u64 (0x0101010101010101 <<< (sq &&& 7)))) _ pc lc
    have r7 := line_reads T0 _ (pext_u64 mover (norefD7Mask (sq >>> 3) (sq &&& 7))) _ p7 l7
    have hrow := row_sound sq (rowChk_all sq hsq) hsq mover enemy
    rw [shiftLeft_three] at hrow
    obtain ⟨_, _, _, _, _, _, _, hnb⟩ := fillTables_spec T0
    unfold flips_bmi2_noref
    simp only [Option.bind_eq_bind, Option.some_bind, Option.pure_def, Nat.zero_or,
      rd1_some _ _ _ hsq, hnb sq hsq, r0.1, r0.2, r9.1, r9.2, rc.1, rc.2, r7.1, r7.2]
    by_cases hn : neighborsOf sq &&& enemy = 0
    · rw [if_neg (by simpa using hn), flipsSem_zero sq mover enemy hsq hn]
    · rw [if_pos hn, hrow, s9, sc, s7]
      unfold flipsSem
      rw [Nat.or_comm (lineFlips mover enemy (rayOf sq (-1) 1))]

/-- C27 (the table-free BMI2 variant agrees with the table-driven one): after `initFlips`,
with `pext`/`pdep` modelled as bit extract and bit deposit, `flips_bmi2_noref` and the
portable `flips` return the same mask for every square in `0..63` and all boards; the
computed diagonal masks are never zero, also on diagonals of one or two squares. -/
theorem noref_equivalence (T0 T : Tables) (hT : initFlips T0 = some T)
    (sq mover enemy : Nat) (hsq : sq < 64) :
    (∃ r, flips_bmi2_noref T sq mover enemy = some r ∧ flips T sq mover enemy = some r) ∧
    norefD9Mask (sq >>> 3) (sq &&& 7) ≠ 0 ∧ norefD7Mask (sq >>> 3) (sq &&& 7) ≠ 0 := by
  rw [initFlips_eq] at hT
  cases hT
  have hc := norefChk_all sq hsq
  simp only [norefChk, Bool.and_eq_true, bne_iff_ne, ne_eq] at hc
  exact ⟨⟨_, noref_flips_sem T0 sq mover enemy hsq, flips_sem T0 sq mover enemy hsq⟩,
    hc.1.1.1, hc.1.1.2⟩

theorem noref_equivalence_witness :
    ((∃ r, flips_bmi2_noref (fillTables zeroTables) 7 0x200000 0x4000 = some r ∧
      flips (fillTables zeroTables) 7 0x200000 0x4000 = some r) ∧
    norefD9Mask (7 >>> 3) (7 &&& 7) ≠ 0 ∧ norefD7Mask (7 >>> 3) (7 &&& 7) ≠ 0) ∧
    norefD9Mask (7 >>> 3) (7 &&& 7) = 0x80 ∧ flipsSem 7 0x200000 0x4000 = 0x4000 :=
  ⟨noref_equivalence zeroTables (fillTables zeroTables) (initFlips_eq zeroTables) 7
    0x200000 0x4000 (by decide), by decide, by decide⟩

/-! ## Agreement of the transcribed tables, sentinel soundness -/

/-- C26 (the three transcribed per-square tables agree): for every square `sq` in `0..63`
the diagonal masks of `dflip_array[sq]` are those of `flipArray[sq]`, and `mask1`, `mask2`,
`mask3`, `mult2` of `magicCountArray[sq]` are `d9mask`, `colmask`, `d7mask`, `colmult` of
`flipArray[sq]`. -/
theorem tables_agree (sq : Nat) (hsq : sq < 64) :
    ∃ m d k, flipArray[sq]? = some m ∧ dflip_array[sq]? = some d ∧
      magicCountArray[sq]? = some k ∧
      d.d9mask = m.d9mask ∧ d.d7mask = m.d7mask ∧ k.mask1 = m.d9mask ∧
      k.mask2 = m.colmask ∧ k.mask3 = m.d7mask ∧ k.mult2 = m.colmult := by
  have hc := tablesAgreeChk_all sq hsq
  unfold tablesAgreeChk at hc
  cases hm : flipArray[sq]? with
  | none => rw [hm] at hc; simp at hc
  | some m =>
    cases hd : dflip_array[sq]? with
    | none => rw [hm, hd] at hc; simp at hc
    | some d =>
      cases hk : magicCountArray[sq]? with
      | none => rw [hm, hd, hk] at hc; simp at hc
      | some k =>
        rw [hm, hd, hk] at hc
        simp only [Bool.and_eq_true, beq_iff_eq] at hc
        obtain ⟨⟨⟨⟨⟨h1, h2⟩, h3⟩, h4⟩, h5⟩, h6⟩ := hc
        exact ⟨m, d, k, rfl, rfl, rfl, h1, h2, h3, h4, h5, h6⟩

theorem tables_agree_witness :
    ∃ m d k, flipArray[14]? = some m ∧ dflip_array[14]? = some d ∧
      magicCountArray[14]? = some k ∧
      d.d9mask = m.d9mask ∧ d.d7mask = m.d7mask ∧ k.mask1 = m.d9mask ∧
      k.mask2 = m.colmask ∧ k.mask3 = m.d7mask ∧ k.mult2 = m.colmult :=
  tables_agree 14 (by decide)

/-- A walk whose ray is empty leaves the board at once and keeps nothing. -/
theorem walk_nil (mover enemy : Nat) (dr dc : Int) (n : Nat) (r c : Int) (acc : Nat)
    (h : ray dr dc n r c = []) : walk mover enemy dr dc n r c acc = 0 := by
  cases n with
  | zero => rfl
  | succ n =>
    unfold ray at h
    unfold walk
    by_cases hb : r + dr < 0 ∨ 7 < r + dr ∨ c + dc < 0 ∨ 7 < c + dc
    · rw [if_pos hb]
    · rw [if_neg hb] at h
      simp at h

/-- A walk along a ray of at most one square, started with nothing accumulated, flips
nothing, whatever the boards. -/
theorem walk_short (mover enemy : Nat) (dr dc : Int) (n : Nat) (r c : Int)
    (h : (ray dr dc n r c).length < 2) : walk mover enemy dr dc n r c 0 = 0 := by
  cases n with
  | zero => rfl
  | succ n =>
    unfold ray at h
    unfold walk
    by_cases hb : r + dr < 0 ∨ 7 < r + dr ∨ c + dc < 0 ∨ 7 < c + dc
    · rw [if_pos hb]
    · rw [if_neg hb] at h
      rw [if_neg hb]
      have hnil : ray dr dc n (r + dr) (c + dc) = [] := by
        simp only [List.length_cons] at h
        exact List.eq_nil_of_length_eq_zero (by omega)
      split
      · rfl
      · split
        · exact walk_nil mover enemy dr dc n _ _ _ hnil
        · rfl

theorem walkFrom_short (s mover enemy : Nat) (dr dc : Int) (h : (rayOf s dr dc).length < 2) :
    walkFrom s mover enemy dr dc = 0 :=
  walk_short mover enemy dr dc 8 _ _ h

/-- C21 (sentinel soundness): for every square whose `d9b` (resp. `d7b`) is the sentinel 11,
fewer than two squares lie beyond it on each side of its descending (resp. ascending)
diagonal, so neither the reference walk nor `lineFlips` flips anything along that diagonal,
whatever the boards; every square with another selector has at least two further squares on
at least one side of that diagonal. -/
theorem sentinel_sound (sq : Nat) (hsq : sq < 64) :
    ∃ m, flipArray[sq]? = some m ∧
      (m.d9b = 11 → (rayOf sq (-1) (-1)).length < 2 ∧ (rayOf sq 1 1).length < 2 ∧
        ∀ mover enemy, walkFrom sq mover enemy (-1) (-1) = 0 ∧
          walkFrom sq mover enemy 1 1 = 0 ∧
          lineFlips mover enemy (rayOf sq (-1) (-1)) = 0 ∧
          lineFlips mover enemy (rayOf sq 1 1) = 0) ∧
      (m.d9b ≠ 11 → 2 ≤ (rayOf sq (-1) (-1)).length ∨ 2 ≤ (rayOf sq 1 1).length) ∧
      (m.d7b = 11 → (rayOf sq 1 (-1)).length < 2 ∧ (rayOf sq (-1) 1).length < 2 ∧
        ∀ mover enemy, walkFrom sq mover enemy 1 (-1) = 0 ∧
          walkFrom sq mover enemy (-1) 1 = 0 ∧
          lineFlips mover enemy (rayOf sq 1 (-1)) = 0 ∧
          lineFlips mover enemy (rayOf sq (-1) 1) = 0) ∧
      (m.d7b ≠ 11 → 2 ≤ (rayOf sq 1 (-1)).length ∨ 2 ≤ (rayOf sq (-1) 1).length) := by
  have hc := sentinelChk_all sq hsq
  unfold sentinelChk at hc
  cases hm : flipArray[sq]? with
  | none => rw [hm] at hc; simp at hc
  | some m =>
    rw [hm] at hc
    simp only [Bool.and_eq_true, beq_iff_eq] at hc
    have h9 : m.d9b = 11 ↔ ((rayOf sq (-1) (-1)).length < 2 ∧ (rayOf sq 1 1).length < 2) := by
      have h := hc.1
      rw [Bool.eq_iff_iff] at h
      simpa using h
    have h7 : m.d7b = 11 ↔ ((rayOf sq 1 (-1)).length < 2 ∧ (rayOf sq (-1) 1).length < 2) := by
      have h := hc.2
      rw [Bool.eq_iff_iff] at h
      simpa using h
    refine ⟨m, rfl, ?_, ?_, ?_, ?_⟩
    · intro hb
      obtain ⟨ha, hb'⟩ := h9.1 hb
      exact ⟨ha, hb', fun mover enemy =>
        ⟨walkFrom_short sq mover enemy _ _ ha, walkFrom_short sq mover enemy _ _ hb',
          lineFlips_short mover enemy _ (by omega), lineFlips_short mover enemy _ (by omega)⟩⟩
    · intro hb
      by_contra hcon
      exact hb (h9.2 ⟨by omega, by omega⟩)
    · intro hb
      obtain ⟨ha, hb'⟩ := h7.1 hb
      exact ⟨ha, hb', fun mover enemy =>
        ⟨walkFrom_short sq mover enemy _ _ ha, walkFrom_short sq mover enemy _ _ hb',
          lineFlips_short mover enemy _ (by omega), lineFlips_short mover enemy _ (by omega)⟩⟩
    · intro hb
      by_contra hcon
      exact hb (h7.2 ⟨by omega, by omega⟩)

theorem sentinel_sound_witness :
    (∃ m, flipArray[14]? = some m ∧ m.d9b = 11 ∧ m.d7b ≠ 11) ∧
    (rayOf 14 (-1) (-1)).length < 2 ∧ (rayOf 14 1 1).length < 2 ∧
    walkFrom 14 0x20 0x800000 (-1) (-1) = 0 ∧ walkFrom 14 0x20 0x800000 1 1 = 0 :=
  (sentinel_sound 14 (by decide)).elim fun m h =>
    have e : m.d9b = 11 ∧ m.d7b ≠ 11 := by
      have hm : flipArray[14]? = some m := h.1
      have hv : flipArray[14]? = some ⟨0, 0, 0x4040404040404040, 0x4081020408102,
        0x102040810204080, 0x101010101010101, 11, 5⟩ := rfl
      rw [hv] at hm
      cases hm
      exact ⟨rfl, by decide⟩
    have r := h.2.1 e.1
    ⟨⟨m, h.1, e.1, e.2⟩, r.1, r.2.1, (r.2.2 0x20 0x800000).1, (r.2.2 0x20 0x800000).2.1⟩

/-! ## Insensitivity to the played square and to overlapping boards -/

theorem runLen_congr (m e m2 e2 : Nat) : ∀ R : List Nat,
    (∀ t ∈ R, m.testBit t = m2.testBit t ∧ e.testBit t = e2.testBit t) →
    runLen m e R = runLen m2 e2 R := by
  intro R
  induction R with
  | nil => intro _; rfl
  | cons t R ih =>
    intro h
    have ht := h t (List.mem_cons_self t R)
    have ih' := ih (fun u hu => h u (List.mem_cons_of_mem t hu))
    simp only [runLen, ht.1, ht.2, ih']

theorem lineFlips_congr (m e m2 e2 : Nat) (R : List Nat)
    (h : ∀ t ∈ R, m.testBit t = m2.testBit t ∧ e.testBit t = e2.testBit t) :
    lineFlips m e R = lineFlips m2 e2 R := by
  unfold lineFlips
  rw [runLen_congr m e m2 e2 R h]

/-- `flipsSem` reads the boards only on the board squares other than `sq`. -/
theorem flipsSem_congr (sq m e m2 e2 : Nat) (hsq : sq < 64)
    (h : ∀ t, t < 64 → t ≠ sq → m.testBit t = m2.testBit t ∧ e.testBit t = e2.testBit t) :
    flipsSem sq m e = flipsSem sq m2 e2 := by
  have hr := rayChk_all sq hsq
  simp only [rayChk, rays8, List.all_eq_true, Bool.and_eq_true, decide_eq_true_eq,
    List.mem_cons, List.mem_singleton, forall_eq_or_imp, forall_eq, bne_iff_ne] at hr
  obtain ⟨⟨_, c1⟩, ⟨_, c2⟩, ⟨_, c3⟩, ⟨_, c4⟩, ⟨_, c5⟩, ⟨_, c6⟩, ⟨_, c7⟩, ⟨_, c8⟩, _⟩ := hr
  have key : ∀ R : List Nat, (∀ t ∈ R, t < 64 ∧ t ≠ sq) →
      lineFlips m e R = lineFlips m2 e2 R :=
    fun R hR => lineFlips_congr m e m2 e2 R (fun t ht => h t (hR t ht).1 (hR t ht).2)
  unfold flipsSem
  rw [key _ c1, key _ c2, key _ c3, key _ c4, key _ c5, key _ c6, key _ c7, key _ c8]

theorem clear_sq_bit (x sq t : Nat) (hsq : sq < 64) (ht : t < 64) (hts : t ≠ sq) :
    (x &&& not64 (mask sq)).testBit t = x.testBit t := by
  rw [Nat.testBit_and, not64_bit, mask_testBit sq t hsq]
  simp [ht, hts]

theorem set_sq_bit (x sq t : Nat) (hsq : sq < 64) (hts : t ≠ sq) :
    (x ||| mask sq).testBit t = x.testBit t := by
  rw [Nat.testBit_or, mask_testBit sq t hsq]
  simp [hts]

theorem toggle_sq_bit (x sq t : Nat) (hsq : sq < 64) (hts : t ≠ sq) :
    (x ^^^ mask sq).testBit t = x.testBit t := by
  rw [Nat.testBit_xor, mask_testBit sq t hsq]
  simp [hts]

/-- C22 (`flips` ignores the occupancy of the played square): after `initFlips`, for every
square `sq` in `0..63` and all boards, `flips` returns the same mask when bit `sq` is
cleared in both boards, set in `mover`, or set in `enemy`; and `lastFlipCount` returns the
same count for `mover` and `mover ^ mask(sq)`. -/
theorem played_square_ignored (T0 T : Tables) (hT : initFlips T0 = some T)
    (sq mover enemy : Nat) (hsq : sq < 64) :
    (∃ r, flips T sq mover enemy = some r ∧
      flips T sq (mover &&& not64 (mask sq)) (enemy &&& not64 (mask sq)) = some r ∧
      flips T sq (mover ||| mask sq) enemy = some r ∧
      flips T sq mover (enemy ||| mask sq) = some r) ∧
    (∃ n, lastFlipCount T sq mover = some n ∧
      lastFlipCount T sq (mover ^^^ mask sq) = some n) := by
  rw [initFlips_eq] at hT
  cases hT
  refine ⟨⟨_, flips_sem T0 sq mover enemy hsq, ?_, ?_, ?_⟩,
    ⟨_, lastFlipCount_sem T0 sq mover hsq, ?_⟩⟩
  · rw [flips_sem T0 sq _ _ hsq]
    congr 1
    exact flipsSem_congr sq _ _ _ _ hsq (fun t ht hts =>
      ⟨clear_sq_bit mover sq t hsq ht hts, clear_sq_bit enemy sq t hsq ht hts⟩)
  · rw [flips_sem T0 sq _ _ hsq]
    congr 1
    exact flipsSem_congr sq _ _ _ _ hsq (fun t _ hts => ⟨set_sq_bit mover sq t hsq hts, rfl⟩)
  · rw [flips_sem T0 sq _ _ hsq]
    congr 1
    exact flipsSem_congr sq _ _ _ _ hsq (fun t _ hts => ⟨rfl, set_sq_bit enemy sq t hsq hts⟩)
  · rw [lastFlipCount_sem T0 sq _ hsq]
    congr 3
    exact flipsSem_congr sq _ _ _ _ hsq (fun t ht hts =>
      ⟨toggle_sq_bit mover sq t hsq hts, by
        rw [lastEnemy_bit sq _ t hsq ht hts, lastEnemy_bit sq _ t hsq ht hts,
          toggle_sq_bit mover sq t hsq hts]⟩)

theorem played_square_ignored_witness :
    ((∃ r, flips (fillTables zeroTables) 26 0x810000000 0x1008000000 = some r ∧
      flips (fillTables zeroTables) 26 (0x810000000 &&& not64 (mask 26))
        (0x1008000000 &&& not64 (mask 26)) = some r ∧
      flips (fillTables zeroTables) 26 (0x810000000 ||| mask 26) 0x1008000000 = some r ∧
      flips (fillTables zeroTables) 26 0x810000000 (0x1008000000 ||| mask 26) = some r) ∧
    (∃ n, lastFlipCount (fillTables zeroTables) 26 0x810000000 = some n ∧
      lastFlipCount (fillTables zeroTables) 26 (0x810000000 ^^^ mask 26) = some n)) ∧
    0x810000000 ||| mask 26 = 0x814000000 :=
  ⟨played_square_ignored zeroTables (fillTables zeroTables) (initFlips_eq zeroTables) 26
    0x810000000 0x1008000000 (by decide), by decide⟩

theorem runLen_overlap (m e : Nat) : ∀ R : List Nat, (∀ t ∈ R, t < 64) →
    runLen (m &&& not64 e) e R = runLen m e R := by
  intro R
  induction R with
  | nil => intro _; rfl
  | cons t R ih =>
    intro h
    have ht := h t (List.mem_cons_self t R)
    have ih' := ih (fun u hu => h u (List.mem_cons_of_mem t hu))
    simp only [runLen, ih']
    by_cases he : e.testBit t = true
    · rw [if_pos he, if_pos he]
    · rw [if_neg he, if_neg he, Nat.testBit_and, not64_bit]
      simp [ht, he]

/-- On every board pair `flipsSem` treats a square set in both boards as an enemy square. -/
theorem flipsSem_overlap (sq m e : Nat) (hsq : sq < 64) :
    flipsSem sq (m &&& not64 e) e = flipsSem sq m e := by
  have hr := rayChk_all sq hsq
  simp only [rayChk, rays8, List.all_eq_true, Bool.and_eq_true, decide_eq_true_eq,
    List.mem_cons, List.mem_singleton, forall_eq_or_imp, forall_eq, bne_iff_ne] at hr
  obtain ⟨⟨_, c1⟩, ⟨_, c2⟩, ⟨_, c3⟩, ⟨_, c4⟩, ⟨_, c5⟩, ⟨_, c6⟩, ⟨_, c7⟩, ⟨_, c8⟩, _⟩ := hr
  have key : ∀ R : List Nat, (∀ t ∈ R, t < 64 ∧ t ≠ sq) →
      lineFlips (m &&& not64 e) e R = lineFlips m e R := by
    intro R hR
    unfold lineFlips
    rw [runLen_overlap m e R (fun t ht => (hR t ht).1)]
  unfold flipsSem
  rw [key _ c1, key _ c2, key _ c3, key _ c4, key _ c5, key _ c6, key _ c7, key _ c8]

/-- C23 (overlapping squares are treated as enemy): after `initFlips`, for every square `sq`
in `0..63` and all boards, disjoint or not, `flips(sq, mover, enemy)` and
`flips(sq, mover & ~enemy, enemy)` return the same mask. -/
theorem overlap_as_enemy (T0 T : Tables) (hT : initFlips T0 = some T)
    (sq mover enemy : Nat) (hsq : sq < 64) :
    ∃ r, flips T sq mover enemy = some r ∧
      flips T sq (mover &&& not64 enemy) enemy = some r := by
  rw [initFlips_eq] at hT
  cases hT
  refine ⟨_, flips_sem T0 sq mover enemy hsq, ?_⟩
  rw [flips_sem T0 sq _ _ hsq, flipsSem_overlap sq mover enemy hsq]

theorem overlap_as_enemy_witness :
    (∃ r, flips (fillTables zeroTables) 26 0x818000000 0x1008000000 = some r ∧
      flips (fillTables zeroTables) 26 (0x818000000 &&& not64 0x1008000000) 0x1008000000
        = some r) ∧
    0x818000000 &&& not64 0x1008000000 = 0x810000000 ∧
    0x818000000 &&& 0x1008000000 = 0x8000000 :=
  ⟨overlap_as_enemy zeroTables (fillTables zeroTables) (initFlips_eq zeroTables) 26
    0x818000000 0x1008000000 (by decide), by decide, by decide⟩

/-! ## The run table: population count and exact column scatter -/

/-- The run pattern of `insideOf` as the mask of a duplicate-free list of line positions
whose length is the count. -/
theorem insideOf_list (idx m : Nat) (hidx : idx < 8) (hm : m < 256) :
    ∃ l : List Nat, (insideOf idx m).2 = maskOf l ∧ l.Nodup ∧
      (∀ k ∈ l, 0 < k ∧ k < 7 ∧ k ≠ idx) ∧ (insideOf idx m).1 = ((l.length : Nat) : Int) := by
  obtain ⟨_, hval, hcnt, gd, gu⟩ := insideOf_eq idx m hidx hm
  refine ⟨(downPos idx).take ((runLen m (255 ^^^ m) (downPos idx)).getD 0) ++
    (upPos idx).take ((runLen m (255 ^^^ m) (upPos idx)).getD 0), ?_, ?_, ?_, ?_⟩
  · rw [hval, lineFlips_eq_take, lineFlips_eq_take, maskOf_append]
  · exact (downUp_nodup idx hidx).sublist
      ((List.take_sublist _ _).append (List.take_sublist _ _))
  · intro k hk
    rw [List.mem_append] at hk
    rcases hk with hk | hk
    · obtain ⟨i, hi, hget⟩ := List.mem_iff_getElem?.1 hk |> fun ⟨i, h⟩ =>
        (⟨i, (List.getElem?_eq_some_iff.1 h).1, h⟩ :
          ∃ i, i < ((downPos idx).take ((runLen m (255 ^^^ m) (downPos idx)).getD 0)).length ∧
            ((downPos idx).take ((runLen m (255 ^^^ m) (downPos idx)).getD 0))[i]? = some k)
      have hle := runLen_getD_le m (255 ^^^ m) (downPos idx)
      rw [downPos_length] at hle
      rw [List.length_take, downPos_length] at hi
      have hi2 : i < idx := by omega
      rw [List.getElem?_take_of_lt (by omega)] at hget
      have hg := downPos_getD idx i hi2
      rw [List.getD_eq_getElem?_getD, hget] at hg
      simp only [Option.getD_some] at hg
      omega
    · obtain ⟨i, hi, hget⟩ := List.mem_iff_getElem?.1 hk |> fun ⟨i, h⟩ =>
        (⟨i, (List.getElem?_eq_some_iff.1 h).1, h⟩ :
          ∃ i, i < ((upPos idx).take ((runLen m (255 ^^^ m) (upPos idx)).getD 0)).length ∧
            ((upPos idx).take ((runLen m (255 ^^^ m) (upPos idx)).getD 0))[i]? = some k)
      have hle := runLen_getD_le m (255 ^^^ m) (upPos idx)
      rw [upPos_length] at hle
      rw [List.length_take, upPos_length] at hi
      have hi2 : i < 7 - idx := by omega
      rw [List.getElem?_take_of_lt (by omega)] at hget
      have hg := upPos_getD idx i hi2
      rw [List.getD_eq_getElem?_getD, hget] at hg
      simp only [Option.getD_some] at hg
      omega
  · rw [hcnt, gd, gu, List.length_append, take_runLen_length, take_runLen_length]

/-- C24 (the count table is the population count of the run table): after `initFlips`,
`counts[idx][m] == popcount(insides[idx][m])` for every `idx` in `0..7` and every 8-bit
pattern `m`. -/
theorem counts_popcount (T0 T : Tables) (hT : initFlips T0 = some T) (idx m : Nat)
    (hidx : idx < 8) (hm : m < 256) :
    T.counts idx m = ((bitCount (T.insides idx m) : Nat) : Int) := by
  rw [initFlips_eq] at hT
  cases hT
  obtain ⟨hc, _, hi, _⟩ := fillTables_spec T0
  obtain ⟨hlt, _⟩ := insideOf_eq idx m hidx hm
  obtain ⟨l, hl, hnd, hmem, hcnt⟩ := insideOf_list idx m hidx hm
  rw [hc idx m hidx hm, hi idx m hidx hm, Nat.mod_eq_of_lt hlt, hcnt, hl,
    bitCount_maskOf l hnd (fun t ht => by have := hmem t ht; omega)]

theorem counts_popcount_witness :
    (fillTables zeroTables).counts 3 0x41
      = ((bitCount ((fillTables zeroTables).insides 3 0x41) : Nat) : Int) ∧
    bitCount 0x36 = 4 :=
  ⟨counts_popcount zeroTables (fillTables zeroTables) (initFlips_eq zeroTables) 3 0x41
    (by decide) (by decide), by decide⟩

/-- C25 (run patterns avoid the line ends and the played index, and the column scatter is
exact on them): after `initFlips`, for every `idx` in `0..7` and every 8-bit pattern `m`,
`insides[idx][m]` is an 8-bit value with bits 0, 7 and `idx` clear, and for every column
`c`, `colFlips[c][insides[idx][m]]` has exactly the squares `8*i + c` with bit `i` of
`insides[idx][m]` set. -/
theorem run_patterns_scatter (T0 T : Tables) (hT : initFlips T0 = some T) (idx m : Nat)
    (hidx : idx < 8) (hm : m < 256) :
    T.insides idx m < 256 ∧
    (T.insides idx m).testBit 0 = false ∧ (T.insides idx m).testBit 7 = false ∧
    (T.insides idx m).testBit idx = false ∧
    ∀ c, c < 8 → ∀ t, ((T.colFlips c (T.insides idx m)).testBit t = true ↔
      ∃ i, i < 8 ∧ (T.insides idx m).testBit i = true ∧ t = 8 * i + c) := by
  rw [initFlips_eq] at hT
  cases hT
  obtain ⟨_, _, hi, _, hcf, _⟩ := fillTables_spec T0
  obtain ⟨hlt, _⟩ := insideOf_eq idx m hidx hm
  obtain ⟨l, hl, _, hmem, _⟩ := insideOf_list idx m hidx hm
  have hclear : ∀ k, (k = 0 ∨ k = 7 ∨ k = idx) → (maskOf l).testBit k = false := by
    intro k hk
    rw [testBit_maskOf, decide_eq_false_iff_not]
    intro hin
    have := hmem k hin
    omega
  rw [hi idx m hidx hm, Nat.mod_eq_of_lt hlt]
  have hlt2 := hlt
  rw [hl] at hlt2 ⊢
  refine ⟨hlt2, hclear 0 (Or.inl rfl), hclear 7 (Or.inr (Or.inl rfl)),
    hclear idx (Or.inr (Or.inr rfl)), ?_⟩
  intro c hc t
  have hchk := colFlipChk_all (maskOf l) hlt2
  simp only [colFlipChk, Bool.or_eq_true, Bool.and_eq_true, List.all_eq_true, List.mem_range,
    beq_iff_eq] at hchk
  rcases hchk with h | h
  · rw [hclear 0 (Or.inl rfl)] at h
    exact absurd h.1 (by simp)
  · rw [hcf c (maskOf l) hc hlt2, h c hc, colScatter_bit]

theorem run_patterns_scatter_witness :
    ((fillTables zeroTables).insides 3 0x41).testBit 0 = false ∧
    ((fillTables zeroTables).insides 3 0x41).testBit 7 = false ∧
    ((fillTables zeroTables).insides 3 0x41).testBit 3 = false ∧
    (((fillTables zeroTables).colFlips 2
        ((fillTables zeroTables).insides 3 0x41)).testBit 10 = true ↔
      ∃ i, i < 8 ∧ ((fillTables zeroTables).insides 3 0x41).testBit i = true ∧
        10 = 8 * i + 2) :=
  have h := run_patterns_scatter zeroTables (fillTables zeroTables) (initFlips_eq zeroTables)
    3 0x41 (by decide) (by decide)
  ⟨h.2.1, h.2.2.1, h.2.2.2.1, h.2.2.2.2 2 (by decide) 10⟩

end NTest
